import Mathlib

/-
  Verification development for the jsoncons event-stream core:
  a shallow embedding of `include/jsoncons/bignum.hpp`,
  `include/jsoncons/staj2_cursor.hpp` and the `json_decoder` visitor,
  together with theorems settling the specification claims.

  Machine integers are modelled as `Nat` with explicit reduction
  `% 2 ^ 32` wherever the C++ `uint32_t` arithmetic wraps.
-/

deriving instance DecidableEq for Except

namespace Jsoncons

/-! ## Bignum: data model (basic_bignum<Allocator>)

A bignum is a sign flag together with the list of stored 32-bit digits,
least significant first.  `data.length` is the C++ `length_`; storage
capacity and the small-buffer union are not observable and are omitted. -/

/-- Digit radix: one past `max_basic_type` (2^32). -/
def B32 : Nat := 2 ^ 32

/-- Half-digit radix (2^16), `1 << basic_type_halfBits`. -/
def H16 : Nat := 2 ^ 16

/-- The C++ constant `max_basic_type` = 2^32 - 1. -/
def maxBasicType : Nat := 2 ^ 32 - 1

/-- The C++ constant `l_bit`: the top bit of a 32-bit digit. -/
def lBit : Nat := 2 ^ 31

structure Bignum where
  neg : Bool
  data : List Nat
  deriving Repr, DecidableEq

/-- `length()` of a bignum: the number of stored digits. -/
def Bignum.length (x : Bignum) : Nat := x.data.length

/-- Magnitude denoted by a digit list, little-endian base 2^32. -/
def natValL : List Nat → Nat
  | [] => 0
  | d :: rest => d + B32 * natValL rest

/-- The integer value denoted by a bignum. -/
def Bignum.val (x : Bignum) : Int :=
  if x.neg then -(natValL x.data : Int) else (natValL x.data : Int)

/-- Well-formedness: every stored digit fits in 32 bits. -/
def Wf (x : Bignum) : Prop := ∀ d ∈ x.data, d < B32

/-- The two representation invariants of §3.6 of the spec:
`length = 0 ⇒ negative = false` and `length > 0 ⇒ top digit ≠ 0`. -/
def Inv (x : Bignum) : Prop :=
  (x.data.length = 0 → x.neg = false) ∧ (∀ h : x.data ≠ [], x.data.getLast h ≠ 0)

/-- Canonical: well-formed and satisfying both invariants. -/
def Canon (x : Bignum) : Prop := Wf x ∧ Inv x

/-! ### reduce()

Walks down from the most significant digit discarding zeros; if no digit
remains the negative flag is cleared. -/

/-- Drop the zero digits at the most-significant end of a digit list. -/
def trimTop (l : List Nat) : List Nat :=
  (l.reverse.dropWhile (fun d => d = 0)).reverse

/-- `reduce()`: trim top zeros, clear the flag when the magnitude is zero. -/
def reduce (x : Bignum) : Bignum :=
  let d := trimTop x.data
  { neg := if d.length = 0 then false else x.neg, data := d }

/-! ### compare() -/

/-- Compare equal-length digit lists given most-significant first
(the C++ loop `for i = length-1 downto 0`). -/
def compareTop : List Nat → List Nat → Int
  | [], _ => 0
  | _, [] => 0
  | a :: as, b :: bs => if a > b then 1 else if a < b then -1 else compareTop as bs

/-- `compare()`: order by sign, then length, then digits from the top;
the result is negated when both operands are negative. -/
def compare (x y : Bignum) : Int :=
  if x.neg ≠ y.neg then
    (if y.neg then 1 else 0) - (if x.neg then 1 else 0)
  else
    let code : Int :=
      if x.length = 0 ∨ y.length = 0 then (x.length : Int) - (y.length : Int)
      else if x.length < y.length then -1
      else if x.length > y.length then 1
      else compareTop x.data.reverse y.data.reverse
    if x.neg then -code else code

/-! ### Constructors from machine integers -/

/-- `initialize(uint32_t)`: length 1 unless the value is zero. -/
def fromUInt32 (u : Nat) : Bignum :=
  { neg := false, data := if u % B32 ≠ 0 then [u % B32] else [] }

/-- `basic_bignum(int32_t)`: sign from the argument, magnitude via
`initialize(uint32_t)`. -/
def fromInt32 (i : Int) : Bignum :=
  { fromUInt32 (i.natAbs) with neg := decide (i < 0) }

/-- `initialize(uint64_t)`: length 2 unless the value is zero — the top
digit is stored even when it is zero. -/
def fromUInt64 (u : Nat) : Bignum :=
  { neg := false,
    data := if u % 2 ^ 64 ≠ 0 then [u % B32, u % 2 ^ 64 / B32] else [] }

/-- `basic_bignum(int64_t)`. -/
def fromInt64 (i : Int) : Bignum :=
  { fromUInt64 (i.natAbs) with neg := decide (i < 0) }

/-- The default constructor: canonical zero. -/
def zeroB : Bignum := { neg := false, data := [] }

/-- `operator-()`: flips the flag and nothing else. -/
def negB (x : Bignum) : Bignum := { x with neg := !x.neg }

/-- `abs()`. -/
def absB (x : Bignum) : Bignum := if x.neg then negB x else x

/-! ### Addition and subtraction digit loops

`operator+=` zero-extends the receiver to `max(length, y.length) + 1`
digits, then runs a carry loop with wrap-around carry detection
(`d = data[i] + carry; carry = d < carry; data[i] = d + y[i]; ...`).
The early `break` when `i >= y.length && carry == 0` leaves the
remaining digits unchanged. -/

def addDigits : List Nat → List Nat → Nat → List Nat
  | [], _, _ => []
  | xi :: xs, [], c =>
      if c = 0 then xi :: xs
      else
        let d := (xi + c) % B32
        d :: addDigits xs [] (if d < c then 1 else 0)
  | xi :: xs, yi :: ys, c =>
      let d := (xi + c) % B32
      let c1 : Nat := if d < c then 1 else 0
      let s := (d + yi) % B32
      let c2 : Nat := if s < d then 1 else c1
      s :: addDigits xs ys c2

/-- Zero-extend a digit list to the given length (`incr_length`). -/
def zeroExtend (l : List Nat) (n : Nat) : List Nat :=
  l ++ List.replicate (n - l.length) 0

/-- `operator+=` in the equal-signs case. -/
def addMag (x y : Bignum) : Bignum :=
  reduce { neg := x.neg,
           data := addDigits (zeroExtend x.data (max y.data.length x.data.length + 1))
                             y.data 0 }

/-- The borrow loop of `operator-=` (`d = data[i] - borrow; borrow = d > data[i];
data[i] = d - y[i]; if data[i] > d borrow = 1`), with the early break when
`i >= y.length && borrow == 0`. -/
def subDigits : List Nat → List Nat → Nat → List Nat
  | [], _, _ => []
  | xi :: xs, [], bor =>
      if bor = 0 then xi :: xs
      else
        let d := (xi + B32 - bor) % B32
        d :: subDigits xs [] (if d > xi then 1 else 0)
  | xi :: xs, yi :: ys, bor =>
      let d := (xi + B32 - bor) % B32
      let b1 : Nat := if d > xi then 1 else 0
      let s := (d + B32 - yi % B32) % B32
      let b2 : Nat := if s > d then 1 else b1
      s :: subDigits xs ys b2

/-- `operator-=` once the borrow loop applies (equal signs, no swap). -/
def subNoSwap (x y : Bignum) : Bignum :=
  reduce { neg := x.neg, data := subDigits x.data y.data 0 }

/-- `operator-=` with equal signs: when `!neg && y > *this || neg && y < *this`
the code evaluates `-(y - *this)`; the inner `y - *this` has equal signs again
and its own swap test is false (compare is antisymmetric), so it is the plain
borrow loop. -/
def subSameSign (x y : Bignum) : Bignum :=
  if (¬x.neg ∧ compare y x > 0) ∨ (x.neg ∧ compare y x < 0) then
    negB (subNoSwap y x)
  else
    subNoSwap x y

/-- `operator+=`: opposite signs delegate to `-=` with `-y` (which then has
equal signs and runs the subtraction branch). -/
def addB (x y : Bignum) : Bignum :=
  if x.neg ≠ y.neg then subSameSign x (negB y) else addMag x y

/-- `operator-=`: opposite signs delegate to `+=` with `-y` (equal signs). -/
def subB (x y : Bignum) : Bignum :=
  if x.neg ≠ y.neg then addMag x (negB y) else subSameSign x y

/-! ### Multiplication

`DDproduct(A, B, Hi, Lo)` splits the operands into 16-bit halves, forms the
four half products and recombines them with wrap-around carry detection. -/

/-- `DDproduct`: the double-digit product `(Hi, Lo)` of two 32-bit digits. -/
def DDproduct (A Bv : Nat) : Nat × Nat :=
  let hiA := A / H16
  let loA := A % H16
  let hiB := Bv / H16
  let loB := Bv % H16
  let lo0 := (loA * loB) % B32
  let hi0 := (hiA * hiB) % B32
  let mid1 := (loA * hiB) % B32
  let mid2 := (hiA * loB) % B32
  let lo1 := (lo0 + mid1 * H16) % B32
  let hi1 := (hi0 + (if lo1 < lo0 then 1 else 0) + mid1 / H16) % B32
  let lo2 := (lo1 + mid2 * H16) % B32
  let hi2 := (hi1 + (if lo2 < lo1 then 1 else 0) + mid2 / H16) % B32
  (hi2, lo2)

/-- The digit loop of `operator*=(unsigned)`: `data[i] = Lo + carry;
carry = Hi + (data[i] < Lo)`, with the final `data[len0] = carry` cell coming
from the preceding `incr_length(length + 1)`. -/
def mulDigitLoop : List Nat → Nat → Nat → List Nat
  | [], _, carry => [carry]
  | dig :: rest, y, carry =>
      let p := DDproduct dig y
      let d := (p.2 + carry) % B32
      let c := (p.1 + (if d < p.2 then 1 else 0)) % B32
      d :: mulDigitLoop rest y c

/-- `operator*=(unsigned)`. -/
def mulUnsigned (x : Bignum) (y : Nat) : Bignum :=
  reduce { neg := x.neg, data := mulDigitLoop x.data (y % B32) 0 }

/-- `operator*=(int)`: multiply by the unsigned magnitude, then flip the flag
for a negative factor (after the inner `reduce`). -/
def mulInt (x : Bignum) (y : Int) : Bignum :=
  let r := mulUnsigned x y.natAbs
  if y < 0 then negB r else r

/-- One step of the inner `jA` loop of the general `operator*=`:
accumulate `DDproduct(x[jA], y[i-jA])` into the `(sumLo, sumHi, carry)`
triple with wrap-around overflow detection. -/
def mulInner : List Nat → List Nat → Nat → Nat → Nat × Nat × Nat → Nat × Nat × Nat
  | [], _, _, _, s => s
  | xa :: xs, yd, i, jA, (sumLo, sumHi, carry) =>
      let s' :=
        if jA ≤ i ∧ i - jA < yd.length then
          let p := DDproduct xa (yd.getD (i - jA) 0)
          let sumLo1 := (sumLo + p.2) % B32
          let sumHi1 := if sumLo1 < sumLo then (sumHi + 1) % B32 else sumHi
          let sumHi2 := (sumHi1 + p.1) % B32
          let carry1 := carry + (if sumHi2 < sumHi then 1 else 0)
          (sumLo1, sumHi2, carry1)
        else (sumLo, sumHi, carry)
      mulInner xs yd i (jA + 1) s'

/-- The outer column loop of the general `operator*=`: at each column the
triple is shifted (`sumLo = sumHi; sumHi = carry; carry = 0`), the inner loop
runs, and `data[i] = sumLo` is emitted. -/
def mulOuter (xd yd : List Nat) : Nat → Nat → Nat → Nat → List Nat
  | 0, _, _, _ => []
  | n + 1, i, sumHiPrev, carryPrev =>
      let s := mulInner xd yd i 0 (sumHiPrev, carryPrev, 0)
      s.1 :: mulOuter xd yd n (i + 1) s.2.1 s.2.2

/-- `operator*=(basic_bignum)`: zero short-circuit, the three multiplication
paths, `reduce`, and the final unconditional `neg_ = difSigns`.  The
one-by-one path returns before the trailing `reduce`. -/
def mulB (x y : Bignum) : Bignum :=
  if x.data.length = 0 ∨ y.data.length = 0 then zeroB
  else
    let difSigns := x.neg ≠ y.neg
    if x.data.length + y.data.length = 2 then
      let a := x.data.headD 0
      let b := y.data.headD 0
      let p := (a * b) % B32
      if p / a ≠ b then
        let dd := DDproduct a b
        { neg := difSigns, data := [dd.2, dd.1] }
      else
        { neg := difSigns, data := [p] }
    else
      let d :=
        if x.data.length = 1 then mulDigitLoop y.data (x.data.headD 0) 0
        else if y.data.length = 1 then mulDigitLoop x.data (y.data.headD 0) 0
        else mulOuter x.data y.data (x.data.length + y.data.length) 0 0 0
      { neg := difSigns, data := (reduce { neg := false, data := d }).data }

/-! ### Shifts -/

/-- The intra-digit part of `operator<<=` for `0 < k < 32`: the digit list has
been zero-extended by one, then from the top
`data[i] = (data[i] << k) | ((data[i-1] >> (32-k)) & ((1 << k) - 1))`. -/
def intraShl (l : List Nat) (k : Nat) : List Nat :=
  let l' := l ++ [0]
  (List.range l'.length).map fun i =>
    let hi := (l'.getD i 0 * 2 ^ k) % B32
    if i = 0 then hi
    else hi ||| ((l'.getD (i - 1) 0 / 2 ^ (32 - k)) &&& (2 ^ k - 1))

/-- `operator<<=`: whole-digit shift by `k / 32`, then the intra-digit
shift, then `reduce`. -/
def shlB (x : Bignum) (k : Nat) : Bignum :=
  let q := k / 32
  let d1 := if q ≠ 0 then List.replicate q 0 ++ x.data else x.data
  let k' := k % 32
  let d2 := if k' ≠ 0 then intraShl d1 k' else d1
  reduce { neg := x.neg, data := d2 }

/-- The intra-digit part of `operator>>=` for `0 ≤ k < 32`:
`data[i] = (data[i] >> k) | ((data[i+1] & mask) << (32-k))`. -/
def intraShr (l : List Nat) (k : Nat) : List Nat :=
  (List.range l.length).map fun i =>
    let lo := l.getD i 0 / 2 ^ k
    if i + 1 = l.length then lo
    else lo ||| (((l.getD (i + 1) 0 &&& (2 ^ k - 1)) * 2 ^ (32 - k)) % B32)

/-- `operator>>=`: if the whole-digit shift discards everything,
`set_length(0)` — which does not clear the sign flag; otherwise drop
`k / 32` digits, run the intra-digit loop and `reduce`. -/
def shrB (x : Bignum) (k : Nat) : Bignum :=
  let q := k / 32
  if q ≥ x.data.length then { neg := x.neg, data := [] }
  else
    let d1 := x.data.drop q
    let k' := k % 32
    if q ≠ 0 ∧ k' = 0 then reduce { neg := x.neg, data := d1 }
    else reduce { neg := x.neg, data := intraShr d1 k' }

/-! ### Bitwise operations -/

/-- `operator|=`: zero-extend the receiver to the argument's length, or the
argument's digits in, `reduce`. -/
def orB (x y : Bignum) : Bignum :=
  let ext := zeroExtend x.data (max x.data.length y.data.length)
  reduce { neg := x.neg,
           data := (List.range ext.length).map fun i =>
             if i < y.data.length then ext.getD i 0 ||| y.data.getD i 0
             else ext.getD i 0 }

/-- `operator^=`. -/
def xorB (x y : Bignum) : Bignum :=
  let ext := zeroExtend x.data (max x.data.length y.data.length)
  reduce { neg := x.neg,
           data := (List.range ext.length).map fun i =>
             if i < y.data.length then ext.getD i 0 ^^^ y.data.getD i 0
             else ext.getD i 0 }

/-- `operator&=`: truncate to the shorter length, combine digit-wise,
`reduce`. -/
def andB (x y : Bignum) : Bignum :=
  let n := min x.data.length y.data.length
  reduce { neg := x.neg,
           data := (List.range n).map fun i => x.data.getD i 0 &&& y.data.getD i 0 }

/-! ### Division

`DDquotient(A, B, d)` divides the double word `(A, B)` by `d` through two
half-digit quotient guesses, each refined by a correction loop.  The C++
`while` loops are embedded with an explicit fuel that is provably never
exhausted for the divisor values the division algorithm produces. -/

/-- First correction loop of `DDquotient`
(`while (A > dHi || (A == dHi && B >= dLo1))`). -/
def ddqLoop1 : Nat → Nat → Nat → Nat → Nat → Nat → Nat × Nat × Nat
  | 0, A, Bv, _, _, qHi => (A, Bv, qHi)
  | f + 1, A, Bv, dHi, dLo1, qHi =>
      if A > dHi ∨ (A = dHi ∧ Bv ≥ dLo1) then
        let x := (Bv + B32 - dLo1) % B32
        let A' := (A + B32 - (dHi + (if x > Bv then 1 else 0)) % B32) % B32
        ddqLoop1 f A' x dHi dLo1 ((qHi + 1) % B32)
      else (A, Bv, qHi)

/-- Second correction loop of `DDquotient` (`while (A || B >= d)`). -/
def ddqLoop2 : Nat → Nat → Nat → Nat → Nat → Nat × Nat × Nat
  | 0, A, Bv, _, qLo => (A, Bv, qLo)
  | f + 1, A, Bv, d, qLo =>
      if A ≠ 0 ∨ Bv ≥ d then
        let x := (Bv + B32 - d % B32) % B32
        let A' := (A + B32 - (if x > Bv then 1 else 0)) % B32
        ddqLoop2 f A' x d ((qLo + 1) % B32)
      else (A, Bv, qLo)

/-- `DDquotient`: quotient of the double word `(A0, B0)` by `d`. -/
def DDquotient (A0 B0 d : Nat) : Nat :=
  let dHi := d / H16
  let dLo := d % H16
  let qHi0 := A0 / (dHi + 1)
  let middle := (qHi0 * dLo) % B32
  let left := (qHi0 * dHi) % B32
  let x0 := (B0 + B32 - (middle * H16) % B32) % B32
  let A1 := (A0 + B32 - (middle / H16 + left + (if x0 > B0 then 1 else 0)) % B32) % B32
  let dLo1 := (dLo * H16) % B32
  let r1 := ddqLoop1 (2 ^ 17 + 8) A1 x0 dHi dLo1 qHi0
  let A2 := r1.1
  let B2 := r1.2.1
  let qHi := r1.2.2
  let qLo0 := ((A2 * H16) % B32 ||| B2 / H16) / (dHi + 1)
  let right := (qLo0 * dLo) % B32
  let middle2 := (qLo0 * dHi) % B32
  let x1 := (B2 + B32 - right) % B32
  let A3 := (A2 + B32 - (if x1 > B2 then 1 else 0)) % B32
  let x2 := (x1 + B32 - (middle2 * H16) % B32) % B32
  let A4 := (A3 + B32 - (middle2 / H16 + (if x2 > x1 then 1 else 0)) % B32) % B32
  let r2 := ddqLoop2 (2 ^ 33 + 8) A4 x2 d qLo0
  ((qHi * H16) % B32 + r2.2.2) % B32

/-- The subtraction loop of `subtractmul`: `a[i] -= Lo` and
`a[i+1] -= Hi + carry` with wrap-around borrow detection.  Note that
`Hi + carry` is itself computed in 32 bits.  Returns the updated cells
and the final borrow. -/
def submulLoop : List Nat → List Nat → Nat → Nat → List Nat × Nat
  | a, [], _, carry => (a, carry)
  | a0 :: a1 :: arest, bi :: bs, q, carry =>
      let p := DDproduct bi q
      let a0' := (a0 + B32 - p.2) % B32
      let c1 := carry + (if a0' > a0 then 1 else 0)
      let a1' := (a1 + B32 - (p.1 + c1) % B32) % B32
      let c2 : Nat := if a1' > a1 then 1 else 0
      let res := submulLoop (a1' :: arest) bs q c2
      (a0' :: res.1, res.2)
  | a, _ :: _, _, carry => (a, carry)

/-- The add-back loop of `subtractmul` (carry discarded, `a[n] = 0`). -/
def addBack : List Nat → List Nat → Nat → List Nat
  | [], _, _ => []
  | _ :: rest, [], _ => 0 :: rest
  | a0 :: arest, bi :: bs, carry =>
      let d := (a0 + carry) % B32
      let c1 : Nat := if d < carry then 1 else 0
      let s := (d + bi) % B32
      let c2 : Nat := if s < d then 1 else c1
      s :: addBack arest bs c2

/-- `subtractmul(a, b, n, q)`: `a -= q * b`; if that underflows, decrement
`q` and add `b` back once.  Returns the updated slice and the (possibly
corrected) trial digit. -/
def subtractmul (a b : List Nat) (q : Nat) : List Nat × Nat :=
  let r := submulLoop a b q 0
  if r.2 ≠ 0 then (addBack r.1 b 0, (q + B32 - 1) % B32)
  else (r.1, q)

/-- Apply `subtractmul` to the window `rem[lo .. lo + b.length]` of the
running remainder (the C++ call `subtractmul(rem.data_ + k - r - 1,
denom.data_, r + 1, q)`). -/
def applySubmul (remD : List Nat) (lo : Nat) (bD : List Nat) (q : Nat) :
    List Nat × Nat :=
  let win := (remD.drop lo).take (bD.length + 1)
  let r := subtractmul win bD q
  (remD.take lo ++ r.1 ++ remD.drop (lo + bD.length + 1), r.2)

/-- The main trial-digit loop of `divide` (`for k = n; k > r; k--`), counting
`steps = n - r` iterations.  Returns the little-endian quotient digits and
the final remainder cells. -/
def divLoop (denomD : List Nat) (d r : Nat) :
    Nat → Nat → List Nat → List Nat × List Nat
  | 0, _, remD => ([], remD)
  | steps + 1, k, remD =>
      let q0 := DDquotient (remD.getD k 0) (remD.getD (k - 1) 0) d
      let s := applySubmul remD (k - r - 1) denomD q0
      let rest := divLoop denomD d r steps (k - 1) s.1
      (rest.1 ++ [s.2], rest.2)

/-- The shift-counting loop of `normalize`
(`while ((y & l_bit) == 0) { y <<= 1; x++; }`); `none` models the C++
non-termination when the top stored digit of the divisor is zero. -/
def normShiftLoop : Nat → Nat → Nat → Option Nat
  | 0, _, _ => none
  | f + 1, y, x =>
      if y &&& lBit ≠ 0 then some x
      else normShiftLoop f ((y * 2) % B32) (x + 1)

def normShift (y : Nat) : Option Nat := normShiftLoop 33 y 0

/-- `normalize(denom, num, x)`: shift both operands so the divisor's top bit
is set; if afterwards the top two divisor digits are out of order, multiply
both by `max_basic_type` (the second normalization step).  Returns the
scaled operands, the shift and the `secondDone` flag. -/
def normalize (denom num : Bignum) : Option (Bignum × Bignum × Nat × Bool) :=
  let r := denom.data.length - 1
  let y := denom.data.getD r 0
  (normShift y).map fun x =>
    let denom1 := shlB denom x
    let num1 := shlB num x
    if r > 0 ∧ denom1.data.getD r 0 < denom1.data.getD (r - 1) 0 then
      (mulUnsigned denom1 maxBasicType, mulUnsigned num1 maxBasicType, x, true)
    else (denom1, num1, x, false)

/-- The half-word division branch of `divide` (divisor fits 16 bits):
two half-digit divides per word, most significant first.  Input digits are
given most significant first; returns the quotient digits (same order) and
the final partial remainder `dHi`. -/
def halfDivLoop (divisor : Nat) : List Nat → Nat → List Nat × Nat
  | [], dHi => ([], dHi)
  | dg :: rest, dHi =>
      let dividend1 := (dHi * H16) % B32 ||| dg / H16
      let q1 := dividend1 / divisor
      let r1 := dividend1 % divisor
      let dividend2 := (r1 * H16) % B32 ||| dg % H16
      let q2 := dividend2 / divisor
      let dHi2 := dividend2 % divisor
      let res := halfDivLoop divisor rest dHi2
      (((q1 * H16) % B32 ||| q2) :: res.1, res.2)

/-- Errors a division can signal: `zeroDivide` models the C++
`throw std::runtime_error("Zero divide.")`; `hang` models non-termination
(the `normalize` loop spins forever when the divisor's stored top digit is
zero, which is reachable for non-canonical divisors). -/
inductive DivErr
  | zeroDivide
  | hang
  deriving Repr, DecidableEq

/-- `divide(denom, quot, rem, remDesired)` with an explicit recursion depth
for the single nested division `rem /= max_basic_type` inside
`unnormalize`.  Returns `(quot, rem)`. -/
def divideF : Nat → Bignum → Bignum → Bool → Except DivErr (Bignum × Bignum)
  | 0, _, _, _ => .error .hang
  | fuel + 1, x, denom0, remDesired =>
    if denom0.data.length = 0 then .error .zeroDivide
    else
      let QuotNeg := xor x.neg denom0.neg
      let RemNeg := x.neg
      let num : Bignum := { x with neg := false }
      let denom : Bignum := { denom0 with neg := false }
      if compare num denom < 0 then
        .ok (zeroB, { num with neg := RemNeg })
      else if denom.data.length = 1 ∧ num.data.length = 1 then
        let nd := num.data.headD 0
        let dd := denom.data.headD 0
        .ok ({ fromUInt32 (nd / dd) with neg := QuotNeg },
             { fromUInt32 (nd % dd) with neg := RemNeg })
      else if denom.data.length = 1 ∧ denom.data.headD 0 < H16 then
        let hr := halfDivLoop (denom.data.headD 0) num.data.reverse 0
        let quot := reduce { neg := false, data := hr.1.reverse }
        .ok ({ quot with neg := QuotNeg }, { fromUInt32 hr.2 with neg := RemNeg })
      else
        match normalize denom num with
        | none => .error .hang
        | some (denomN, numN, xsh, secondDone) =>
          let r := denomN.data.length - 1
          let n0 := numN.data.length - 1
          let ext := numN.data.getD n0 0 ≥ denomN.data.getD r 0
          let remD0 := if ext then numN.data ++ [0] else numN.data
          let n := if ext then n0 + 1 else n0
          let d := denomN.data.getD r 0
          let lr := divLoop denomN.data d r (n - r) n remD0
          let quot : Bignum :=
            { neg := QuotNeg, data := (reduce { neg := false, data := lr.1 }).data }
          if remDesired then
            let remA : Bignum := { neg := false, data := lr.2 }
            let rem1 : Except DivErr Bignum :=
              if secondDone then
                (divideF fuel remA (fromUInt32 maxBasicType) false).map fun p => p.1
              else .ok remA
            match rem1 with
            | .error e => .error e
            | .ok remB =>
              let remC := if xsh > 0 then shrB remB xsh else reduce remB
              .ok (quot, { remC with neg := RemNeg })
          else .ok (quot, { neg := false, data := lr.2 })

/-- `divide` at the recursion depth the C++ code actually uses (the nested
division's own `unnormalize` never recurses again). -/
def divide (x denom : Bignum) (remDesired : Bool) :
    Except DivErr (Bignum × Bignum) :=
  divideF 2 x denom remDesired

/-- `operator/`. -/
def divB (x y : Bignum) : Except DivErr Bignum := (divide x y false).map fun p => p.1

/-- `operator%`. -/
def modB (x y : Bignum) : Except DivErr Bignum := (divide x y true).map fun p => p.2

/-! ### power, sqrt -/

/-- The binary-exponentiation loop of `power`. -/
def powerLoop (x y : Bignum) (n : Nat) : Bignum :=
  if n = 0 then y
  else powerLoop (mulB x x) (if n % 2 = 1 then mulB y x else y) (n / 2)
termination_by n
decreasing_by exact Nat.div_lt_self (Nat.pos_of_ne_zero (by assumption)) (by omega)

/-- `power(x, n)`. -/
def power (x : Bignum) (n : Nat) : Bignum := powerLoop x (fromInt32 1) n

/-- The seed-halving loop of `sqrt` (`while (b >>= 2, b > 0) x >>= 1`). -/
def sqrtHalvingLoop : Nat → Bignum → Bignum → Bignum × Bignum
  | 0, x, b => (x, b)
  | f + 1, x, b =>
      let b' := shrB b 2
      if compare b' zeroB > 0 then sqrtHalvingLoop f (shrB x 1) b'
      else (x, b')

/-- The Newton refinement loop of `sqrt`
(`while (x > (q = a/x) + 1 || x < q - 1) { x += q; x >>= 1; }`);
the division `a/x` signals `zeroDivide` when `x` is zero. -/
def sqrtNewtonLoop : Nat → Bignum → Bignum → Except DivErr Bignum
  | 0, _, _ => .error .hang
  | f + 1, a, x =>
      match divB a x with
      | .error e => .error e
      | .ok q =>
          if compare x (addB q (fromInt32 1)) > 0 ∨
             compare x (subB q (fromInt32 1)) < 0 then
            sqrtNewtonLoop f a (shrB (addB x q) 1)
          else
            .ok (if compare x q < 0 then x else q)

/-- `sqrt(a)`. -/
def sqrtB (a : Bignum) : Except DivErr Bignum :=
  let h := sqrtHalvingLoop (32 * (a.data.length + 2)) a (shlB a 1)
  sqrtNewtonLoop (64 * (a.data.length + 2) + 64) a h.1

/-! ### Decimal output and input -/

/-- `p10`: the largest power of ten fitting an unsigned 32-bit word. -/
def p10 : Nat := 1000000000

/-- `ip10`: its exponent. -/
def ip10 : Nat := 9

/-- `LP10`: `p10` as a bignum. -/
def LP10 : Bignum := fromUInt32 p10

/-- The inner digit-writing loop of `to_string`: up to `ip10` decimal
digits of `r` are prepended, stopping early when `r / 10 + v.length == 0`. -/
def emitDigits : Nat → Nat → Nat → List Char → List Char
  | 0, _, _, acc => acc
  | j + 1, r, vlen, acc =>
      let acc' := Char.ofNat (r % 10 + 48) :: acc
      if r / 10 + vlen = 0 then acc' else emitDigits j (r / 10) vlen acc'

/-- The outer `do { divide; write digits } while (v.length())` loop of
`to_string`, with fuel (the value shrinks by a factor `p10` each pass). -/
def toStringLoop : Nat → Bignum → List Char → Option (List Char)
  | 0, _, _ => none
  | fuel + 1, v, acc =>
      match divideF 2 v LP10 true with
      | .error _ => none
      | .ok (v', R) =>
          let r := R.data.headD 0
          let acc' := emitDigits ip10 r v'.data.length acc
          if v'.data.length = 0 then some acc' else toStringLoop fuel v' acc'

/-- `to_string()`: `"0"` for a zero-length value, otherwise the digit blocks
produced by repeated division by `p10`, with a leading `'-'` when
negative.  `none` models non-termination (never reached). -/
def to_string (x : Bignum) : Option (List Char) :=
  if x.data.length = 0 then some ['0']
  else
    (toStringLoop (4 * x.data.length + 4) x []).map fun ds =>
      (if x.neg then ['-'] else []) ++ ds

/-- The `isspace` characters skipped by the decimal-string constructor. -/
def isSpaceC (c : Char) : Bool :=
  c = ' ' ∨ c = '\t' ∨ c = '\n' ∨ c = '\x0b' ∨ c = '\x0c' ∨ c = '\r'

/-- The accumulator loop of `basic_bignum(const char*)`:
`v = (v * 10) + (int)(str[i] - '0')`. -/
def parseLoop : List Char → Bignum → Bignum
  | [], v => v
  | c :: cs, v => parseLoop cs (addB (mulInt v 10) (fromInt32 ((c.toNat : Int) - 48)))

/-- `initialize(const basic_bignum&)`: plain copy for up to two digits,
copy plus `reduce()` above that. -/
def initializeCopy (v : Bignum) : Bignum :=
  if v.data.length ≤ 2 then v else reduce v

/-- `basic_bignum(const char*)`: skip whitespace, note one leading `'-'`,
run the accumulator loop, then set the flag on the accumulated value. -/
def parse (s : List Char) : Bignum :=
  let s1 := s.dropWhile isSpaceC
  match s1 with
  | '-' :: rest => initializeCopy { parseLoop rest zeroB with neg := true }
  | _ => initializeCopy (parseLoop s1 zeroB)

/-- `basic_bignum(int signum, const uint8_t* str, size_t n)`: the
signed-binary-digit constructor.  The C++ accumulator is
`v = (v * 16) + (int)(str[i])` — radix 16, not 256. -/
def fromSignedBytes (signum : Int) (bytes : List Nat) : Bignum :=
  let v := bytes.foldl (fun v b => addB (mulInt v 16) (fromInt32 (b : Int))) zeroB
  if signum = -1 then initializeCopy { v with neg := true } else initializeCopy v

/-! ## Event records (basic_staj2_event<CharT>)

Scalar `double` payloads are modelled as rationals — the cursor layer never
computes with them, it only stores and forwards them, so any linearly
ordered field with a decidable zero test represents the payload
faithfully for the claims at hand. -/

inductive Staj2EventType
  | begin_array
  | end_array
  | begin_object
  | end_object
  | string_value
  | byte_string_value
  | null_value
  | bool_value
  | int64_value
  | uint64_value
  | half_value
  | double_value
  deriving Repr, DecidableEq

inductive SemanticTag
  | none
  | bigint
  | bigdec
  | datetime
  | epochSecond
  | base16
  | base64
  | base64url
  | uri
  | ext
  deriving Repr, DecidableEq

/-- The payload union of `basic_staj2_event`.  The C++ union is untagged and
is read according to `event_type_`; the smart constructors below keep the
two in the same correspondence the C++ constructors establish. -/
inductive EventValue
  | noneV
  | boolV (b : Bool)
  | intV (i : Int)
  | uintV (n : Nat)
  | halfV (bits : Nat)
  | doubleV (q : ℚ)
  | stringV (s : List Char)
  | bytesV (b : List Nat)
  deriving Repr, DecidableEq

/-- Union reads (`value_.bool_value_` and friends); out-of-correspondence
reads yield the type's default, standing for the C++ unspecified value. -/
def EventValue.getBool : EventValue → Bool
  | .boolV b => b
  | _ => false

def EventValue.getInt : EventValue → Int
  | .intV i => i
  | _ => 0

def EventValue.getUint : EventValue → Nat
  | .uintV n => n
  | _ => 0

def EventValue.getHalf : EventValue → Nat
  | .halfV h => h
  | _ => 0

def EventValue.getDouble : EventValue → ℚ
  | .doubleV q => q
  | _ => 0

structure Staj2Event where
  event_type : Staj2EventType
  tag : SemanticTag
  ext_tag : Nat
  value : EventValue
  length : Nat
  deriving Repr, DecidableEq

/-- `basic_staj2_event(event_type, tag)`. -/
def structuralEvent (et : Staj2EventType) (tag : SemanticTag) : Staj2Event :=
  { event_type := et, tag := tag, ext_tag := 0, value := .noneV, length := 0 }

/-- `basic_staj2_event(event_type, length, tag)`. -/
def structuralEventL (et : Staj2EventType) (len : Nat) (tag : SemanticTag) : Staj2Event :=
  { event_type := et, tag := tag, ext_tag := 0, value := .noneV, length := len }

/-- `basic_staj2_event(null_type, tag)`. -/
def nullEvent (tag : SemanticTag) : Staj2Event :=
  { event_type := .null_value, tag := tag, ext_tag := 0, value := .noneV, length := 0 }

/-- `basic_staj2_event(bool, tag)`. -/
def boolEvent (b : Bool) (tag : SemanticTag) : Staj2Event :=
  { event_type := .bool_value, tag := tag, ext_tag := 0, value := .boolV b, length := 0 }

/-- `basic_staj2_event(int64_t, tag)`. -/
def int64Event (i : Int) (tag : SemanticTag) : Staj2Event :=
  { event_type := .int64_value, tag := tag, ext_tag := 0, value := .intV i, length := 0 }

/-- `basic_staj2_event(uint64_t, tag)`. -/
def uint64Event (n : Nat) (tag : SemanticTag) : Staj2Event :=
  { event_type := .uint64_value, tag := tag, ext_tag := 0, value := .uintV n, length := 0 }

/-- `basic_staj2_event(half_arg_t, uint16_t, tag)`. -/
def halfEvent (bits : Nat) (tag : SemanticTag) : Staj2Event :=
  { event_type := .half_value, tag := tag, ext_tag := 0, value := .halfV bits, length := 0 }

/-- `basic_staj2_event(double, tag)`. -/
def doubleEvent (q : ℚ) (tag : SemanticTag) : Staj2Event :=
  { event_type := .double_value, tag := tag, ext_tag := 0, value := .doubleV q, length := 0 }

/-- `basic_staj2_event(string_view, event_type, tag)`. -/
def stringEvent (s : List Char) (tag : SemanticTag) : Staj2Event :=
  { event_type := .string_value, tag := tag, ext_tag := 0, value := .stringV s,
    length := s.length }

/-- `basic_staj2_event(byte_string_view, event_type, tag)`. -/
def byteStringEvent (b : List Nat) (tag : SemanticTag) : Staj2Event :=
  { event_type := .byte_string_value, tag := tag, ext_tag := 0, value := .bytesV b,
    length := b.length }

/-- The conversion error codes surfaced by `get<T>`. -/
inductive ConvErr
  | not_string
  | not_string_view
  | not_byte_string
  | not_byte_string_view
  | not_integer
  | not_double
  | not_bool
  | not_vector
  deriving Repr, DecidableEq

/-- `as_bool(ec)`: `bool` events return the stored flag; `double`, `int64`
and `uint64` events return a zero test; everything else — including
`half_value`, which the switch does not mention — reports `not_bool`. -/
def as_bool (e : Staj2Event) : Except ConvErr Bool :=
  match e.event_type with
  | .bool_value => .ok e.value.getBool
  | .double_value => .ok (decide (e.value.getDouble ≠ 0))
  | .int64_value => .ok (decide (e.value.getInt ≠ 0))
  | .uint64_value => .ok (decide (e.value.getUint ≠ 0))
  | _ => .error .not_bool

/-- `get<T>(ec)` for a bool target delegates to `as_bool`. -/
def getBoolT (e : Staj2Event) : Except ConvErr Bool := as_bool e

/-! ## Cursor visitor (basic_staj2_visitor<CharT>)

The visitor's expansion state for typed arrays.  The non-owning
`typed_array_view` is modelled by the element sequence itself together
with its element kind; `empty` is the default-constructed view whose
`type()` is the zero `typed_array_type()`. -/

inductive TypedArrayView
  | empty
  | uint8V (l : List Nat)
  | uint16V (l : List Nat)
  | uint32V (l : List Nat)
  | uint64V (l : List Nat)
  | int8V (l : List Int)
  | int16V (l : List Int)
  | int32V (l : List Int)
  | int64V (l : List Int)
  | halfV (l : List Nat)
  | floatV (l : List ℚ)
  | doubleV (l : List ℚ)
  deriving Repr, DecidableEq

/-- `size()` of a typed-array view. -/
def TypedArrayView.size : TypedArrayView → Nat
  | .empty => 0
  | .uint8V l => l.length
  | .uint16V l => l.length
  | .uint32V l => l.length
  | .uint64V l => l.length
  | .int8V l => l.length
  | .int16V l => l.length
  | .int32V l => l.length
  | .int64V l => l.length
  | .halfV l => l.length
  | .floatV l => l.length
  | .doubleV l => l.length

/-- `staj2_cursor_state`; the default (zero) enumerator is the idle state. -/
inductive CursorState
  | idle
  | typed_array
  | multi_dim
  | shape
  deriving Repr, DecidableEq

structure Staj2Visitor where
  event : Staj2Event
  state : CursorState
  data : TypedArrayView
  shape : List Nat
  index : Nat
  deriving Repr, DecidableEq

/-- `visit_begin_array(tag, context)`: capture a `begin_array` event.  The
predicate only decides the boolean returned upstream, which the expansion
machinery ignores, so it does not appear in the state transition. -/
def visit_begin_array (tag : SemanticTag) (v : Staj2Visitor) : Staj2Visitor :=
  { v with event := structuralEvent .begin_array tag }

/-- `visit_end_array(context)`. -/
def visit_end_array (v : Staj2Visitor) : Staj2Visitor :=
  { v with event := structuralEvent .end_array .none }

/-- Every `visit_typed_array` overload: enter typed-array state, capture the
span, reset the index, and emit the synthetic `begin_array(tag)`. -/
def visit_typed_array (td : TypedArrayView) (tag : SemanticTag)
    (v : Staj2Visitor) : Staj2Visitor :=
  visit_begin_array tag { v with state := .typed_array, data := td, index := 0 }

/-- `is_typed_array()`: the captured view's type differs from the default. -/
def is_typed_array (v : Staj2Visitor) : Bool := v.data ≠ .empty

/-- The scalar event `advance_typed_array` emits for element `i`:
unsigned kinds arrive as `uint64_value`, signed kinds as `int64_value`,
half as `half_value`, and both float kinds as `double_value`, each with
`semantic_tag::none`. -/
def tdScalar (td : TypedArrayView) (i : Nat) : Staj2Event :=
  match td with
  | .empty => structuralEvent .null_value .none
  | .uint8V l => uint64Event (l.getD i 0) .none
  | .uint16V l => uint64Event (l.getD i 0) .none
  | .uint32V l => uint64Event (l.getD i 0) .none
  | .uint64V l => uint64Event (l.getD i 0) .none
  | .int8V l => int64Event (l.getD i 0) .none
  | .int16V l => int64Event (l.getD i 0) .none
  | .int32V l => int64Event (l.getD i 0) .none
  | .int64V l => int64Event (l.getD i 0) .none
  | .halfV l => halfEvent (l.getD i 0) .none
  | .floatV l => doubleEvent (l.getD i 0) .none
  | .doubleV l => doubleEvent (l.getD i 0) .none

/-- `advance_typed_array(ec)`: emit the next element's scalar event and
advance the index, or emit `end_array` and clear the expansion state. -/
def advance_typed_array (v : Staj2Visitor) : Staj2Visitor :=
  if is_typed_array v then
    if v.index < v.data.size then
      { v with event := tdScalar v.data v.index, index := v.index + 1 }
    else
      { visit_end_array v with state := .idle, data := .empty, index := 0 }
  else v

/-- Repeatedly advance the typed-array expansion, collecting the event
observed after each step. -/
def advanceTrace : Nat → Staj2Visitor → List Staj2Event × Staj2Visitor
  | 0, v => ([], v)
  | k + 1, v =>
      let v' := advance_typed_array v
      let r := advanceTrace k v'
      (v'.event :: r.1, r.2)

/-- The scalar events of a whole typed-array view in element order. -/
def tdScalars (td : TypedArrayView) : List Staj2Event :=
  (List.range td.size).map (tdScalar td)

/-! ### dump (replay into a sink visitor) -/

/-- One call received by the sink visitor during `dump`.  `saj e` stands
for the dispatch `staj2_to_saj_event(e, visitor, context, ec)` on the
current event. -/
inductive SinkCall
  | saj (e : Staj2Event)
  | uint64_value (n : Nat)
  | int64_value (i : Int)
  | half_value (bits : Nat)
  | double_value (q : ℚ)
  | end_array
  | typed_array (td : TypedArrayView)
  deriving Repr, DecidableEq

/-- The per-element sink call of the mid-stream `dump` loop.  The switch
has no `half_value` case: for half arrays it falls through to
`default: break` and emits nothing (the index is still incremented). -/
def dumpElemCall (td : TypedArrayView) (i : Nat) : Option SinkCall :=
  match td with
  | .empty => Option.none
  | .uint8V l => some (.uint64_value (l.getD i 0))
  | .uint16V l => some (.uint64_value (l.getD i 0))
  | .uint32V l => some (.uint64_value (l.getD i 0))
  | .uint64V l => some (.uint64_value (l.getD i 0))
  | .int8V l => some (.int64_value (l.getD i 0))
  | .int16V l => some (.int64_value (l.getD i 0))
  | .int32V l => some (.int64_value (l.getD i 0))
  | .int64V l => some (.int64_value (l.getD i 0))
  | .halfV _ => Option.none
  | .floatV l => some (.double_value (l.getD i 0))
  | .doubleV l => some (.double_value (l.getD i 0))

/-- The element loop of the mid-stream branch of `dump`
(`while (more && is_typed_array())`, sink accepting throughout). -/
def dumpElems (td : TypedArrayView) : Nat → Nat → List SinkCall
  | 0, _ => []
  | f + 1, i =>
      if i < td.size then
        (dumpElemCall td i).toList ++ dumpElems td f (i + 1)
      else [.end_array]

/-- The bulk branch of `dump`: one `typed_array(span)` call on the sink —
except for half arrays, which hit `default: break` and produce no call. -/
def dumpBulkCall (td : TypedArrayView) : Option SinkCall :=
  match td with
  | .empty => Option.none
  | .halfV _ => Option.none
  | _ => some (.typed_array td)

/-- `dump(visitor, context, ec)` with an always-accepting sink: the calls
delivered to the sink and the visitor state afterwards. -/
def dump (v : Staj2Visitor) : List SinkCall × Staj2Visitor :=
  if is_typed_array v then
    if v.index ≠ 0 then
      (.saj v.event :: dumpElems v.data (v.data.size + 1 - v.index) v.index,
       { v with state := .idle, data := .empty, index := 0 })
    else
      ((dumpBulkCall v.data).toList, { v with state := .idle, data := .empty })
  else ([.saj v.event], v)

/-- Modelled from the spec: the sink calls claim C6 prescribes for a
mid-stream typed-array `dump` — replay the current scalar, then one scalar
call per remaining element of every element kind (halves included, as
`half_value`), then `end_array`. -/
def dumpSpecElemCall (td : TypedArrayView) (i : Nat) : Option SinkCall :=
  match td with
  | .halfV l => some (.half_value (l.getD i 0))
  | _ => dumpElemCall td i

/-- Modelled from the spec: the complete mid-stream call sequence of C6. -/
def dumpSpecMid (v : Staj2Visitor) : List SinkCall :=
  .saj v.event ::
    (((List.range (v.data.size - v.index)).map fun j =>
        dumpSpecElemCall v.data (v.index + j)).foldr
      (fun c acc => c.toList ++ acc) [.end_array])

/-! ## Cursor and filter view (basic_staj2_cursor, basic_staj2_filter_view)

A deterministic underlying cursor is its stream of `(event, context)`
pairs together with the current position; `done()` holds past the end.
Filter views wrap a cursor with a predicate; `done`, `current` and
`context` delegate to the wrapped cursor, while construction and `next()`
skip to the next accepted event by repeatedly calling the wrapped
cursor's own `next()`. -/

structure BaseCursor where
  stream : List (Staj2Event × Nat)
  pos : Nat
  deriving Repr, DecidableEq

inductive FCursor
  | base (c : BaseCursor)
  | filt (inner : FCursor) (pred : Staj2Event → Nat → Bool)

/-- The underlying base cursor a chain of filter views delegates to. -/
def FCursor.baseOf : FCursor → BaseCursor
  | .base c => c
  | .filt inner _ => inner.baseOf

/-- `done()`. -/
def FCursor.fdone : FCursor → Bool
  | .base c => decide (c.stream.length ≤ c.pos)
  | .filt inner _ => inner.fdone

/-- `current()` — `none` when past the end, where the C++ value is
unspecified. -/
def FCursor.fcurrent : FCursor → Option Staj2Event
  | .base c => (c.stream.get? c.pos).map Prod.fst
  | .filt inner _ => inner.fcurrent

/-- `context()` of the event at the current position. -/
def FCursor.fcontext : FCursor → Option Nat
  | .base c => (c.stream.get? c.pos).map Prod.snd
  | .filt inner _ => inner.fcontext

/-- `pred_(current(), context())` — evaluated only when not done. -/
def predAt (p : Staj2Event → Nat → Bool) (c : FCursor) : Bool :=
  match c.fcurrent, c.fcontext with
  | some e, some ctx => p e ctx
  | _, _ => false

/-- Number of levels of filter views above the base cursor. -/
def FCursor.height : FCursor → Nat
  | .base _ => 0
  | .filt inner _ => inner.height + 1

/-- Events left in the underlying stream. -/
def FCursor.remaining (c : FCursor) : Nat :=
  c.baseOf.stream.length - c.baseOf.pos

/-- The skip loop shared by the filter-view constructor and `next()`:
`while (!done() && !pred_(current(), context())) cursor_->next();`,
where `nx` is the wrapped cursor's own `next`. -/
def seekLoop (nx : FCursor → FCursor) (p : Staj2Event → Nat → Bool) :
    Nat → FCursor → FCursor
  | 0, c => c
  | f + 1, c => if c.fdone ∨ predAt p c then c else seekLoop nx p f (nx c)

/-- `next()`, indexed by the height of the view chain: a base cursor
advances one position; a filter view advances the wrapped cursor once and
then skips to the next accepted event. -/
def nextD : Nat → FCursor → FCursor
  | _, .base c => .base { c with pos := c.pos + 1 }
  | 0, c => c
  | d + 1, .filt inner p =>
      let inner' := nextD d inner
      .filt (seekLoop (nextD d) p (inner'.remaining + 1) inner') p

/-- `next()` on a cursor or view. -/
def FCursor.next (c : FCursor) : FCursor := nextD c.height c

/-- The `basic_staj2_filter_view` constructor (also the effect of
`operator|`): wrap and skip to the first accepted event. -/
def mkFilterView (c : FCursor) (p : Staj2Event → Nat → Bool) : FCursor :=
  .filt (seekLoop (nextD c.height) p (c.remaining + 1) c) p

/-- What a caller observes at one step: `done()`, `current()`, `context()`. -/
def FCursor.obs (c : FCursor) : Bool × Option Staj2Event × Option Nat :=
  (c.fdone, c.fcurrent, c.fcontext)

/-- Iterate `next()`. -/
def iterNext : Nat → FCursor → FCursor
  | 0, c => c
  | k + 1, c => iterNext k c.next

/-- The predicate evaluated at position `i` of a stream (false past the
end, where the loops never evaluate it). -/
def pAt (p : Staj2Event → Nat → Bool) (s : List (Staj2Event × Nat)) (i : Nat) : Bool :=
  match s.get? i with
  | some ec => p ec.1 ec.2
  | none => false

/-- The first position at or after `i` that is past the end or accepted. -/
def skipTo (p : Staj2Event → Nat → Bool) (s : List (Staj2Event × Nat)) (i : Nat) : Nat :=
  if s.length ≤ i then i
  else if pAt p s i then i
  else skipTo p s (i + 1)
termination_by s.length - i
decreasing_by simp_wf; omega

/-- A position where a filter view can rest: past the end or accepted. -/
def okAt (p : Staj2Event → Nat → Bool) (s : List (Staj2Event × Nat)) (i : Nat) : Prop :=
  s.length ≤ i ∨ pAt p s i = true

/-! ## DOM decoder (json_decoder<Json>)

The decoder visitor of `src/unnamed/part_000`: a stack of named slots, a
stack of structure offsets, the materialized result and the `is_valid_`
flag.  The generic `Json` value is modelled by an inductive tree;
`Json()`'s default construction — only observable through ill-formed
traces — is modelled as null, and the sorted-unique object insertion is
modelled as appending the member pairs. -/

inductive JsonV
  | null
  | boolJ (b : Bool)
  | intJ (i : Int)
  | uintJ (n : Nat)
  | doubleJ (q : ℚ)
  | stringJ (s : List Char)
  | byteStringJ (b : List Nat)
  | bignumJ (x : Bignum)
  | arrayJ (elems : List JsonV)
  | objectJ (members : List (List Char × JsonV))
  deriving Repr

structure StackItem where
  name : List Char
  value : JsonV
  deriving Repr

inductive StructType
  | root
  | array
  | object
  deriving Repr, DecidableEq

/-- Decoder state.  `offsets` holds `structure_offset` records with the
most recent (`back()`) first. -/
structure DecoderState where
  stack : List StackItem
  offsets : List (Nat × StructType)
  result : JsonV
  is_valid : Bool
  deriving Repr

def initDecoder : DecoderState :=
  { stack := [], offsets := [], result := .null, is_valid := false }

/-- `stack_offsets_.back()` (default only reachable off-contract). -/
def backOffset (s : DecoderState) : Nat × StructType :=
  s.offsets.headD (0, .root)

/-- Overwrite `stack_.back().value_`. -/
def setBackValue (s : DecoderState) (v : JsonV) : DecoderState :=
  { s with stack := s.stack.dropLast ++
      [{ (s.stack.getLast?.getD { name := [], value := .null }) with value := v }] }

/-- The shared pattern of every scalar handler: overwrite the back slot
when inside an object (the value pairs with its pushed name), push a new
item otherwise. -/
def putValue (v : JsonV) (s : DecoderState) : DecoderState :=
  match (backOffset s).2 with
  | .object => setBackValue s v
  | _ => { s with stack := s.stack ++ [{ name := [], value := v }] }

/-- `push_object()`. -/
def push_object (s : DecoderState) : DecoderState :=
  let s' := putValue (.objectJ []) s
  { s' with offsets := (s'.stack.length - 1, .object) :: s'.offsets }

/-- `push_array()`. -/
def push_array (s : DecoderState) : DecoderState :=
  let s' := putValue (.arrayJ []) s
  { s' with offsets := (s'.stack.length - 1, .array) :: s'.offsets }

/-- `pop_object()` / `pop_array()`: erase the items above the structure
slot, pop the offset record. -/
def popStructure (s : DecoderState) : DecoderState :=
  { s with stack := s.stack.take ((backOffset s).1 + 1), offsets := s.offsets.tail }

/-- `end_structure()`: gather the items above the structure slot into the
structure value (members for an object, elements for an array). -/
def end_structure (s : DecoderState) : DecoderState :=
  let idx := (backOffset s).1
  let items := s.stack.drop (idx + 1)
  let upd : StackItem → StackItem := fun it =>
    match (backOffset s).2, it.value with
    | .object, .objectJ m =>
        { it with value := .objectJ (m ++ items.map fun j => (j.name, j.value)) }
    | .object, _ => it
    | _, .arrayJ es => { it with value := .arrayJ (es ++ items.map fun j => j.value) }
    | _, _ => it
  { s with stack := (s.stack.take idx) ++
      ((s.stack.drop idx).take 1).map upd ++ items }

/-- One decoder step: a visitor call or a `get_result()` retrieval. -/
inductive DecEvent
  | beginDoc
  | endDoc
  | beginObj
  | endObj
  | beginArr
  | endArr
  | nameEv (s : List Char)
  | stringEv (s : List Char)
  | byteStringEv (b : List Nat)
  | bignumEv (s : List Char)
  | intEv (i : Int)
  | uintEv (n : Nat)
  | doubleEv (q : ℚ)
  | boolEv (b : Bool)
  | nullEv
  | getResult
  deriving Repr, DecidableEq

/-- The transition of each handler (`do_begin_document` … `do_null_value`)
plus the `get_result()` retrieval, which moves the result out and clears
`is_valid_`. -/
def decStep (e : DecEvent) (s : DecoderState) : DecoderState :=
  match e with
  | .beginDoc =>
      { s with stack := [], offsets := [(0, .root)], is_valid := false }
  | .endDoc =>
      if s.stack.length = 1 then
        { s with result := (s.stack.headD { name := [], value := .null }).value,
                 stack := [], is_valid := true }
      else s
  | .beginObj => push_object s
  | .endObj => popStructure (end_structure s)
  | .beginArr => push_array s
  | .endArr => popStructure (end_structure s)
  | .nameEv n => { s with stack := s.stack ++ [{ name := n, value := .null }] }
  | .stringEv str => putValue (.stringJ str) s
  | .byteStringEv b => putValue (.byteStringJ b) s
  | .bignumEv str => putValue (.bignumJ (parse str)) s
  | .intEv i => putValue (.intJ i) s
  | .uintEv n => putValue (.uintJ n) s
  | .doubleEv q => putValue (.doubleJ q) s
  | .boolEv b => putValue (.boolJ b) s
  | .nullEv => putValue .null s
  | .getResult => { s with result := .null, is_valid := false }

/-- Run a usage trace from the fresh decoder. -/
def runDec (t : List DecEvent) : DecoderState :=
  t.foldl (fun s e => decStep e s) initDecoder

/-- `get_result()`: the returned document and the successor state. -/
def get_result (s : DecoderState) : JsonV × DecoderState :=
  (s.result, decStep .getResult s)

/-- Modelled from the spec (claim C10's wording): a document has ended
(`do_end_document`) with a single completed root value on the internal
stack since the last retrieval.  The flag is set by a size-1 `endDoc` and
cleared only by `getResult`. -/
def claimValidSpec (t : List DecEvent) : Bool :=
  (t.foldl
      (fun (st : DecoderState × Bool) e =>
        let flag :=
          match e with
          | .getResult => false
          | .endDoc => if st.1.stack.length = 1 then true else st.2
          | _ => st.2
        (decStep e st.1, flag))
      (initDecoder, false)).2

/-- One step of the amended condition: `do_begin_document` also resets the
flag; the materialized root is captured by a size-1 `do_end_document` and
moved out (to null) by a retrieval. -/
def amendedStep (e : DecEvent) (st : (DecoderState × Bool) × JsonV) :
    (DecoderState × Bool) × JsonV :=
  let s := st.1.1
  let p : Bool × JsonV :=
    match e with
    | .getResult => (false, .null)
    | .beginDoc => (false, st.2)
    | .endDoc =>
        if s.stack.length = 1 then
          (true, (s.stack.headD { name := [], value := .null }).value)
        else (st.1.2, st.2)
    | _ => (st.1.2, st.2)
  ((decStep e s, p.1), p.2)

/-- The amended condition of claim C10, folded over a usage trace. -/
def amendedValidSpec (t : List DecEvent) : (DecoderState × Bool) × JsonV :=
  t.foldl (fun st e => amendedStep e st) ((initDecoder, false), .null)

/-! ## Supporting lemmas: typed-array expansion -/

theorem advance_step (v : Staj2Visitor) (htd : v.data ≠ .empty)
    (hi : v.index < v.data.size) :
    advance_typed_array v =
      { v with event := tdScalar v.data v.index, index := v.index + 1 } := by
  simp [advance_typed_array, is_typed_array, htd, hi]

theorem advance_end (v : Staj2Visitor) (htd : v.data ≠ .empty)
    (hi : ¬ v.index < v.data.size) :
    advance_typed_array v =
      { v with event := structuralEvent .end_array .none,
               state := .idle, data := .empty, index := 0 } := by
  simp [advance_typed_array, is_typed_array, visit_end_array, htd, hi]

theorem advanceTrace_expansion (td : TypedArrayView) (htd : td ≠ .empty) :
    ∀ (k : Nat) (v : Staj2Visitor), v.data = td → v.index + k = td.size →
      advanceTrace (k + 1) v =
        ((List.range' v.index k).map (tdScalar td) ++
           [structuralEvent .end_array .none],
         { v with event := structuralEvent .end_array .none,
                  state := .idle, data := .empty, index := 0 }) := by
  intro k
  induction k with
  | zero =>
      intro v hd hidx
      have hne : v.data ≠ .empty := by rw [hd]; exact htd
      have hlt : ¬ v.index < v.data.size := by rw [hd]; omega
      simp only [advanceTrace, advance_end v hne hlt, List.range',
        List.map_nil, List.nil_append]
  | succ k ih =>
      intro v hd hidx
      have hne : v.data ≠ .empty := by rw [hd]; exact htd
      have hlt : v.index < v.data.size := by rw [hd]; omega
      have hstep := advance_step v hne hlt
      have ih' := ih { v with event := tdScalar v.data v.index, index := v.index + 1 }
        (by simpa using hd) (by simp; omega)
      dsimp only at ih'
      rw [show advanceTrace (k + 1 + 1) v =
            ((advance_typed_array v).event ::
               (advanceTrace (k + 1) (advance_typed_array v)).1,
             (advanceTrace (k + 1) (advance_typed_array v)).2) from rfl,
        hstep, ih']
      simp [hd, List.range'_succ]

/-! ## Supporting lemmas: dump -/

/-- The half-kind test of a typed-array view. -/
def isHalfView : TypedArrayView → Bool
  | .halfV _ => true
  | _ => false

theorem dumpElems_spec (td : TypedArrayView) :
    ∀ (k i : Nat), i + k = td.size →
      dumpElems td (k + 1) i =
        ((List.range' i k).map fun j => dumpElemCall td j).foldr
          (fun c acc => c.toList ++ acc) [.end_array] := by
  intro k
  induction k with
  | zero =>
      intro i hik
      simp [dumpElems, List.range', show ¬ i < td.size by omega]
  | succ k ih =>
      intro i hik
      have hlt : i < td.size := by omega
      have h1 : dumpElems td (k + 1 + 1) i =
          (dumpElemCall td i).toList ++ dumpElems td (k + 1) (i + 1) := by
        simp [dumpElems, hlt]
      rw [List.range'_succ, h1, ih (i + 1) (by omega)]
      simp

theorem dumpBulkCall_nonHalf (td : TypedArrayView) (h1 : td ≠ .empty)
    (h2 : isHalfView td = false) :
    dumpBulkCall td = some (.typed_array td) := by
  cases td <;> simp_all [dumpBulkCall, isHalfView]

theorem dumpBulkCall_half (td : TypedArrayView) (h2 : isHalfView td = true) :
    dumpBulkCall td = Option.none := by
  cases td <;> simp_all [dumpBulkCall, isHalfView]

theorem dumpSpecElemCall_nonHalf (td : TypedArrayView)
    (h2 : isHalfView td = false) (j : Nat) :
    dumpSpecElemCall td j = dumpElemCall td j := by
  cases td <;> simp_all [dumpSpecElemCall, isHalfView]

theorem isHalfView_eq (td : TypedArrayView) (h : isHalfView td = true) :
    ∃ l, td = .halfV l := by
  cases td <;> first | exact ⟨_, rfl⟩ | simp [isHalfView] at h

theorem foldr_none_calls (L : List Nat) :
    (L.map fun _ => (Option.none : Option SinkCall)).foldr
        (fun c acc => c.toList ++ acc) [.end_array] = [.end_array] := by
  induction L with
  | nil => rfl
  | cons a L ih => simpa using ih

/-! ## Supporting lemmas: decoder flag dynamics -/

theorem putValue_is_valid (v : JsonV) (s : DecoderState) :
    (putValue v s).is_valid = s.is_valid := by
  unfold putValue setBackValue
  cases (backOffset s).2 <;> rfl

theorem putValue_result (v : JsonV) (s : DecoderState) :
    (putValue v s).result = s.result := by
  unfold putValue setBackValue
  cases (backOffset s).2 <;> rfl

theorem decStep_is_valid (e : DecEvent) (s : DecoderState) :
    (decStep e s).is_valid =
      match e with
      | .getResult => false
      | .beginDoc => false
      | .endDoc => if s.stack.length = 1 then true else s.is_valid
      | _ => s.is_valid := by
  cases e
  case endDoc => simp only [decStep]; split <;> rfl
  case beginObj => exact putValue_is_valid _ s
  case beginArr => exact putValue_is_valid _ s
  case stringEv s' => exact putValue_is_valid _ s
  case byteStringEv b => exact putValue_is_valid _ s
  case bignumEv s' => exact putValue_is_valid _ s
  case intEv i => exact putValue_is_valid _ s
  case uintEv n => exact putValue_is_valid _ s
  case doubleEv q => exact putValue_is_valid _ s
  case boolEv b => exact putValue_is_valid _ s
  case nullEv => exact putValue_is_valid _ s
  all_goals rfl

theorem decStep_result (e : DecEvent) (s : DecoderState) :
    (decStep e s).result =
      match e with
      | .getResult => .null
      | .endDoc =>
          if s.stack.length = 1 then
            (s.stack.headD { name := [], value := .null }).value
          else s.result
      | _ => s.result := by
  cases e
  case endDoc => simp only [decStep]; split <;> rfl
  case beginObj => exact putValue_result _ s
  case beginArr => exact putValue_result _ s
  case stringEv s' => exact putValue_result _ s
  case byteStringEv b => exact putValue_result _ s
  case bignumEv s' => exact putValue_result _ s
  case intEv i => exact putValue_result _ s
  case uintEv n => exact putValue_result _ s
  case doubleEv q => exact putValue_result _ s
  case boolEv b => exact putValue_result _ s
  case nullEv => exact putValue_result _ s
  all_goals rfl

theorem amended_sync (t : List DecEvent) :
    ∀ (s : DecoderState) (flag : Bool) (root : JsonV),
      s.is_valid = flag → s.result = root →
      (t.foldl (fun st e => amendedStep e st) ((s, flag), root)).1.1 =
          t.foldl (fun s e => decStep e s) s ∧
      (t.foldl (fun st e => amendedStep e st) ((s, flag), root)).1.2 =
          (t.foldl (fun s e => decStep e s) s).is_valid ∧
      (t.foldl (fun st e => amendedStep e st) ((s, flag), root)).2 =
          (t.foldl (fun s e => decStep e s) s).result := by
  induction t with
  | nil => intro s flag root hf hr; exact ⟨rfl, hf.symm, hr.symm⟩
  | cons e t ih =>
      intro s flag root hf hr
      have h1 : (amendedStep e ((s, flag), root)).1.1 = decStep e s := rfl
      have h2 : (amendedStep e ((s, flag), root)).1.2 = (decStep e s).is_valid := by
        rw [decStep_is_valid]
        cases e
        case endDoc => simp only [amendedStep]; split <;> simp [hf]
        case getResult => rfl
        case beginDoc => rfl
        all_goals exact hf.symm
      have h3 : (amendedStep e ((s, flag), root)).2 = (decStep e s).result := by
        rw [decStep_result]
        cases e
        case endDoc => simp only [amendedStep]; split <;> simp [hr]
        case getResult => rfl
        all_goals exact hr.symm
      simp only [List.foldl_cons]
      have := ih (decStep e s) (amendedStep e ((s, flag), root)).1.2
        (amendedStep e ((s, flag), root)).2 h2.symm h3.symm
      obtain ⟨g1, g2, g3⟩ := this
      refine ⟨?_, ?_, ?_⟩
      all_goals
        rw [show amendedStep e ((s, flag), root) =
              ((decStep e s, (amendedStep e ((s, flag), root)).1.2),
               (amendedStep e ((s, flag), root)).2) from ?_]
      · exact g1
      · rfl
      · exact g2
      · rfl
      · exact g3
      · rfl

/-! ## Supporting lemmas: filter views -/

theorem predAt_base (p : Staj2Event → Nat → Bool) (s : List (Staj2Event × Nat))
    (i : Nat) : predAt p (.base ⟨s, i⟩) = pAt p s i := by
  unfold predAt pAt FCursor.fcurrent FCursor.fcontext
  cases s.get? i <;> rfl

theorem predAt_filt (q p : Staj2Event → Nat → Bool) (c : FCursor) :
    predAt q (.filt c p) = predAt q c := rfl

theorem skipTo_of_done (p : Staj2Event → Nat → Bool) (s : List (Staj2Event × Nat))
    (i : Nat) (h : s.length ≤ i) : skipTo p s i = i := by
  rw [skipTo, if_pos h]

theorem skipTo_of_acc (p : Staj2Event → Nat → Bool) (s : List (Staj2Event × Nat))
    (i : Nat) (h : pAt p s i = true) : skipTo p s i = i := by
  rw [skipTo]
  by_cases hd : s.length ≤ i
  · rw [if_pos hd]
  · rw [if_neg hd, if_pos h]

theorem skipTo_step (p : Staj2Event → Nat → Bool) (s : List (Staj2Event × Nat))
    (i : Nat) (h1 : ¬ s.length ≤ i) (h2 : pAt p s i = false) :
    skipTo p s i = skipTo p s (i + 1) := by
  rw [skipTo, if_neg h1, if_neg (by simp [h2])]

theorem skipTo_ge (p : Staj2Event → Nat → Bool) (s : List (Staj2Event × Nat)) :
    ∀ (n i : Nat), s.length - i ≤ n → i ≤ skipTo p s i := by
  intro n
  induction n with
  | zero =>
      intro i hn
      rw [skipTo_of_done p s i (by omega)]
  | succ n ih =>
      intro i hn
      by_cases hd : s.length ≤ i
      · rw [skipTo_of_done p s i hd]
      · by_cases ha : pAt p s i = true
        · rw [skipTo_of_acc p s i ha]
        · rw [skipTo_step p s i hd (by simpa using ha)]
          have := ih (i + 1) (by omega)
          omega

theorem skipTo_ok (p : Staj2Event → Nat → Bool) (s : List (Staj2Event × Nat)) :
    ∀ (n i : Nat), s.length - i ≤ n → okAt p s (skipTo p s i) := by
  intro n
  induction n with
  | zero =>
      intro i hn
      rw [skipTo_of_done p s i (by omega)]
      exact Or.inl (by omega)
  | succ n ih =>
      intro i hn
      by_cases hd : s.length ≤ i
      · rw [skipTo_of_done p s i hd]; exact Or.inl hd
      · by_cases ha : pAt p s i = true
        · rw [skipTo_of_acc p s i ha]; exact Or.inr ha
        · rw [skipTo_step p s i hd (by simpa using ha)]
          exact ih (i + 1) (by omega)

theorem pAt_and (p q : Staj2Event → Nat → Bool) (s : List (Staj2Event × Nat))
    (i : Nat) :
    pAt (fun e c => p e c && q e c) s i = (pAt p s i && pAt q s i) := by
  unfold pAt
  cases s.get? i <;> rfl

theorem skipTo_and_through (p q : Staj2Event → Nat → Bool)
    (s : List (Staj2Event × Nat)) :
    ∀ (n i : Nat), s.length - i ≤ n →
      skipTo (fun e c => p e c && q e c) s (skipTo p s i) =
        skipTo (fun e c => p e c && q e c) s i := by
  intro n
  induction n with
  | zero =>
      intro i hn
      rw [skipTo_of_done p s i (by omega)]
  | succ n ih =>
      intro i hn
      by_cases hd : s.length ≤ i
      · rw [skipTo_of_done p s i hd]
      · by_cases ha : pAt p s i = true
        · rw [skipTo_of_acc p s i ha]
        · have hpq : pAt (fun e c => p e c && q e c) s i = false := by
            rw [pAt_and]
            simp [Bool.not_eq_true] at ha
            simp [ha]
          rw [skipTo_step p s i hd (by simpa using ha),
            skipTo_step (fun e c => p e c && q e c) s i hd hpq]
          exact ih (i + 1) (by omega)

theorem seekLoop_base (p : Staj2Event → Nat → Bool) (s : List (Staj2Event × Nat)) :
    ∀ (f i : Nat), s.length + 1 - i ≤ f →
      seekLoop (nextD 0) p f (.base ⟨s, i⟩) = .base ⟨s, skipTo p s i⟩ := by
  intro f
  induction f with
  | zero =>
      intro i hf
      rw [skipTo_of_done p s i (by omega)]
      rfl
  | succ f ih =>
      intro i hf
      rw [seekLoop]
      by_cases hd : s.length ≤ i
      · rw [if_pos (Or.inl (by simp [FCursor.fdone]; omega)),
          skipTo_of_done p s i hd]
      · by_cases ha : pAt p s i = true
        · rw [if_pos (Or.inr (by rw [predAt_base]; exact ha)),
            skipTo_of_acc p s i ha]
        · rw [if_neg (by
              simp only [FCursor.fdone, predAt_base]
              simp only [decide_eq_true_eq]
              push_neg
              exact ⟨by omega, by simpa using ha⟩)]
          rw [show nextD 0 (.base ⟨s, i⟩) = .base ⟨s, i + 1⟩ from rfl,
            ih (i + 1) (by omega), skipTo_step p s i hd (by simpa using ha)]

theorem mkFilterView_base (p : Staj2Event → Nat → Bool) (s : List (Staj2Event × Nat))
    (pos : Nat) :
    mkFilterView (.base ⟨s, pos⟩) p = .filt (.base ⟨s, skipTo p s pos⟩) p := by
  unfold mkFilterView
  rw [show FCursor.height (.base ⟨s, pos⟩) = 0 from rfl,
    show FCursor.remaining (.base ⟨s, pos⟩) = s.length - pos from rfl,
    seekLoop_base p s (s.length - pos + 1) pos (by omega)]

theorem nextD_single (p : Staj2Event → Nat → Bool) (s : List (Staj2Event × Nat))
    (j : Nat) :
    nextD 1 (.filt (.base ⟨s, j⟩) p) = .filt (.base ⟨s, skipTo p s (j + 1)⟩) p := by
  rw [show nextD 1 (.filt (.base ⟨s, j⟩) p) =
      .filt (seekLoop (nextD 0) p
        ((FCursor.remaining (.base ⟨s, j + 1⟩)) + 1) (.base ⟨s, j + 1⟩)) p from rfl,
    show FCursor.remaining (.base ⟨s, j + 1⟩) = s.length - (j + 1) from rfl,
    seekLoop_base p s (s.length - (j + 1) + 1) (j + 1) (by omega)]

theorem seekLoop_filt (p q : Staj2Event → Nat → Bool) (s : List (Staj2Event × Nat)) :
    ∀ (f j : Nat), okAt p s j → s.length + 1 - j ≤ f →
      seekLoop (nextD 1) q f (.filt (.base ⟨s, j⟩) p) =
        .filt (.base ⟨s, skipTo (fun e c => p e c && q e c) s j⟩) p := by
  intro f
  induction f with
  | zero =>
      intro j hok hf
      rw [skipTo_of_done _ s j (by omega)]
      rfl
  | succ f ih =>
      intro j hok hf
      rw [seekLoop]
      by_cases hd : s.length ≤ j
      · rw [if_pos (Or.inl (by simp [FCursor.fdone]; omega)),
          skipTo_of_done _ s j hd]
      · have hp : pAt p s j = true := hok.resolve_left hd
        by_cases hq : pAt q s j = true
        · have hpq : pAt (fun e c => p e c && q e c) s j = true := by
            rw [pAt_and, hp, hq]; rfl
          rw [if_pos (Or.inr (by rw [predAt_filt, predAt_base]; exact hq)),
            skipTo_of_acc _ s j hpq]
        · have hpq : pAt (fun e c => p e c && q e c) s j = false := by
            rw [pAt_and]
            simp [Bool.not_eq_true] at hq
            simp [hq]
          rw [if_neg (by
              simp only [FCursor.fdone, predAt_filt, predAt_base]
              simp only [decide_eq_true_eq]
              push_neg
              exact ⟨by omega, by simpa using hq⟩)]
          rw [nextD_single p s j,
            ih (skipTo p s (j + 1)) (skipTo_ok p s (s.length - (j + 1)) (j + 1) le_rfl)
              (by have := skipTo_ge p s (s.length - (j + 1)) (j + 1) le_rfl; omega),
            skipTo_and_through p q s (s.length - (j + 1)) (j + 1) le_rfl,
            skipTo_step (fun e c => p e c && q e c) s j hd hpq]

theorem obs_filt (c : FCursor) (p : Staj2Event → Nat → Bool) :
    (FCursor.filt c p).obs = c.obs := rfl

theorem nextD_double (p q : Staj2Event → Nat → Bool) (s : List (Staj2Event × Nat))
    (x : Nat) :
    nextD 2 (.filt (.filt (.base ⟨s, x⟩) p) q) =
      .filt (.filt (.base ⟨s, skipTo (fun e c => p e c && q e c) s (x + 1)⟩) p) q := by
  rw [show nextD 2 (.filt (.filt (.base ⟨s, x⟩) p) q) =
      .filt (seekLoop (nextD 1) q
        ((nextD 1 (.filt (.base ⟨s, x⟩) p)).remaining + 1)
        (nextD 1 (.filt (.base ⟨s, x⟩) p))) q from rfl]
  rw [nextD_single p s x,
    show (FCursor.filt (.base ⟨s, skipTo p s (x + 1)⟩) p).remaining =
      s.length - skipTo p s (x + 1) from rfl,
    seekLoop_filt p q s (s.length - skipTo p s (x + 1) + 1) (skipTo p s (x + 1))
      (skipTo_ok p s (s.length - (x + 1)) (x + 1) le_rfl) (by omega),
    skipTo_and_through p q s (s.length - (x + 1)) (x + 1) le_rfl]

theorem mkFilterView_filt (p q : Staj2Event → Nat → Bool)
    (s : List (Staj2Event × Nat)) (pos : Nat) :
    mkFilterView (.filt (.base ⟨s, skipTo p s pos⟩) p) q =
      .filt (.filt (.base ⟨s, skipTo (fun e c => p e c && q e c) s pos⟩) p) q := by
  unfold mkFilterView
  rw [show FCursor.height (.filt (.base ⟨s, skipTo p s pos⟩) p) = 1 from rfl,
    show FCursor.remaining (.filt (.base ⟨s, skipTo p s pos⟩) p) =
      s.length - skipTo p s pos from rfl,
    seekLoop_filt p q s (s.length - skipTo p s pos + 1) (skipTo p s pos)
      (skipTo_ok p s (s.length - pos) pos le_rfl)
      (by have := skipTo_ge p s (s.length - pos) pos le_rfl; omega),
    skipTo_and_through p q s (s.length - pos) pos le_rfl]

/-! ## Spec-side reference definitions used to state claims -/

/-- Modelled from the spec: the intended value of the signed-binary-digit
constructor — each byte a base-256 digit, big-endian, sign applied when
`signum = -1`. -/
def signedBytesSpecVal (signum : Int) (bytes : List Nat) : Int :=
  (if signum = -1 then -1 else 1) * bytes.foldl (fun v b => v * 256 + (b : Int)) 0

/-- Modelled from the spec: the scalar event family claim C5 prescribes per
element kind (`uint64` for u8/u16/u32/u64, `int64` for i8/i16/i32/i64,
`half` for half, `double` for f32/f64). -/
def specFamilyOf : TypedArrayView → Staj2EventType
  | .empty => .null_value
  | .uint8V _ => .uint64_value
  | .uint16V _ => .uint64_value
  | .uint32V _ => .uint64_value
  | .uint64V _ => .uint64_value
  | .int8V _ => .int64_value
  | .int16V _ => .int64_value
  | .int32V _ => .int64_value
  | .int64V _ => .int64_value
  | .halfV _ => .half_value
  | .floatV _ => .double_value
  | .doubleV _ => .double_value

/-! ## Claim theorems -/

/-- C1: the signed-binary-digit constructor is specified to compute the
big-endian base-256 value, but the source accumulator multiplies by 16:
on bytes `[1, 0]` the code produces 16 where the specified value is 256. -/
theorem c1_fromSignedBytes_radix16 :
    (fromSignedBytes 1 [1, 0]).val = 16 ∧
    signedBytesSpecVal 1 [1, 0] = 256 ∧
    (fromSignedBytes 1 [1, 0]).val ≠ signedBytesSpecVal 1 [1, 0] := by
  refine ⟨by decide, by decide, by decide⟩

/-- C2 counterexample: the `uint64_t` constructor stores two digits for any
nonzero argument, so `bignum(uint64_t(1))` has length 2 with top stored
digit 0, violating the invariant `length > 0 ⇒ data[length-1] ≠ 0`. -/
theorem c2_counterexample :
    (fromUInt64 1).data = [1, 0] ∧ ¬ Inv (fromUInt64 1) := by
  refine ⟨by decide, fun hInv => ?_⟩
  have h2 := hInv.2 (by decide)
  exact h2 (by decide)

/-- C5: a typed-array visitor call produces a `begin_array` event carrying
the call's tag, then — driven by repeated `advance_typed_array` — exactly
one scalar event per element, of the family the element kind prescribes
and in element order, then one `end_array`, after which the expansion
state is cleared (idle state, empty view, index 0). -/
theorem c5_typed_array_expansion (v : Staj2Visitor) (td : TypedArrayView)
    (tag : SemanticTag) (htd : td ≠ .empty) :
    (visit_typed_array td tag v).event = structuralEvent .begin_array tag ∧
    (visit_typed_array td tag v).state = .typed_array ∧
    (∀ e ∈ tdScalars td, e.event_type = specFamilyOf td) ∧
    advanceTrace (td.size + 1) (visit_typed_array td tag v) =
      (tdScalars td ++ [structuralEvent .end_array .none],
       { event := structuralEvent .end_array .none, state := .idle,
         data := .empty, shape := v.shape, index := 0 }) := by
  refine ⟨rfl, rfl, ?_, ?_⟩
  · intro e he
    simp only [tdScalars, List.mem_map] at he
    obtain ⟨i, -, rfl⟩ := he
    cases td <;> rfl
  · have h := advanceTrace_expansion td htd td.size (visit_typed_array td tag v)
      rfl (by simp [visit_typed_array, visit_begin_array])
    rw [h]
    simp [visit_typed_array, visit_begin_array, tdScalars, List.range_eq_range']

/-- C5 witness: the expansion of `typed_array([7,8,9] : u8, none)` from an
idle visitor. -/
theorem c5_typed_array_expansion_witness :
    (TypedArrayView.uint8V [7, 8, 9] ≠ .empty) ∧
    ((visit_typed_array (.uint8V [7, 8, 9]) .none
        { event := structuralEvent .null_value .none, state := .idle,
          data := .empty, shape := [], index := 0 }).event =
          structuralEvent .begin_array .none ∧
     (visit_typed_array (.uint8V [7, 8, 9]) .none
        { event := structuralEvent .null_value .none, state := .idle,
          data := .empty, shape := [], index := 0 }).state = .typed_array ∧
     (∀ e ∈ tdScalars (.uint8V [7, 8, 9]),
        e.event_type = specFamilyOf (.uint8V [7, 8, 9])) ∧
     advanceTrace ((TypedArrayView.uint8V [7, 8, 9]).size + 1)
        (visit_typed_array (.uint8V [7, 8, 9]) .none
          { event := structuralEvent .null_value .none, state := .idle,
            data := .empty, shape := [], index := 0 }) =
       (tdScalars (.uint8V [7, 8, 9]) ++ [structuralEvent .end_array .none],
        { event := structuralEvent .end_array .none, state := .idle,
          data := .empty, shape := [], index := 0 })) :=
  ⟨by decide,
   c5_typed_array_expansion
     { event := structuralEvent .null_value .none, state := .idle,
       data := .empty, shape := [], index := 0 }
     (.uint8V [7, 8, 9]) .none (by decide)⟩

/-- C6 counterexample: `dump` mid-stream over a half typed array emits no
scalar for the remaining element — the switch lacks a `half_value` case —
so the sink receives only the replay and `end_array`, not the per-element
calls the claim prescribes for every element kind. -/
theorem c6_counterexample :
    (dump { event := halfEvent 1 .none, state := .typed_array,
            data := .halfV [1, 2], shape := [], index := 1 }).1 =
        [.saj (halfEvent 1 .none), .end_array] ∧
    dumpSpecMid { event := halfEvent 1 .none, state := .typed_array,
                  data := .halfV [1, 2], shape := [], index := 1 } =
        [.saj (halfEvent 1 .none), .half_value 2, .end_array] ∧
    (dump { event := halfEvent 1 .none, state := .typed_array,
            data := .halfV [1, 2], shape := [], index := 1 }).1 ≠
      dumpSpecMid { event := halfEvent 1 .none, state := .typed_array,
                    data := .halfV [1, 2], shape := [], index := 1 } := by
  refine ⟨by decide, by decide, by decide⟩

/-- C6 amended: for every element kind except half, `dump` forwards the
complete remaining content — mid-stream (index ≠ 0) it replays the current
event and sends one scalar call per remaining element then `end_array`,
and at index 0 it makes exactly one bulk `typed_array` call covering the
whole span; half-kind views are dropped (no scalar and no bulk call).  In
all cases the expansion state is cleared. -/
theorem c6_dump_amended (v : Staj2Visitor) (hta : is_typed_array v = true)
    (hidx : v.index ≤ v.data.size) :
    (isHalfView v.data = false →
      (dump v).1 =
        if v.index ≠ 0 then dumpSpecMid v else [.typed_array v.data]) ∧
    (isHalfView v.data = true →
      (dump v).1 = if v.index ≠ 0 then [.saj v.event, .end_array] else []) ∧
    (dump v).2.state = .idle ∧ (dump v).2.data = .empty := by
  have hne : v.data ≠ .empty := by
    simpa [is_typed_array] using hta
  by_cases hz : v.index = 0
  · refine ⟨?_, ?_, ?_, ?_⟩
    · intro hhalf
      simp [dump, is_typed_array, hne, hz, dumpBulkCall_nonHalf v.data hne hhalf]
    · intro hhalf
      simp [dump, is_typed_array, hne, hz, dumpBulkCall_half v.data hhalf]
    · simp [dump, is_typed_array, hne, hz]
    · simp [dump, is_typed_array, hne, hz]
  · have hk : v.data.size + 1 - v.index = (v.data.size - v.index) + 1 := by omega
    have hspec := dumpElems_spec v.data (v.data.size - v.index) v.index (by omega)
    refine ⟨?_, ?_, ?_, ?_⟩
    · intro hhalf
      simp only [dump, is_typed_array]
      rw [if_pos (by simpa [is_typed_array] using hta), if_pos hz, hk, hspec]
      simp only [dumpSpecMid, dumpSpecElemCall_nonHalf v.data hhalf, if_pos hz,
        List.range'_eq_map_range, List.map_map]
      rfl
    · intro hhalf
      obtain ⟨l, hl⟩ := isHalfView_eq v.data hhalf
      simp only [dump, is_typed_array]
      rw [if_pos (by simpa [is_typed_array] using hta), if_pos hz, hk, hspec]
      have hnone : ∀ j, dumpElemCall v.data j = Option.none := by
        intro j; rw [hl]; rfl
      simp only [hnone, if_pos hz]
      rw [foldr_none_calls (List.range' v.index (v.data.size - v.index))]
    · simp [dump, is_typed_array, hne, hz]
    · simp [dump, is_typed_array, hne, hz]

/-- C6 witness: a u8 view mid-stream at index 1. -/
theorem c6_dump_amended_witness :
    (is_typed_array { event := uint64Event 7 .none, state := .typed_array, data := .uint8V [7, 8], shape := [], index := 1 } = true) ∧
    ((1 : Nat) ≤ (TypedArrayView.uint8V [7, 8]).size) ∧
    ((isHalfView (TypedArrayView.uint8V [7, 8]) = false →
      (dump { event := uint64Event 7 .none, state := .typed_array, data := .uint8V [7, 8], shape := [], index := 1 }).1 =
        if (1 : Nat) ≠ 0 then
          dumpSpecMid { event := uint64Event 7 .none, state := .typed_array, data := .uint8V [7, 8], shape := [], index := 1 }
        else [.typed_array (.uint8V [7, 8])]) ∧
     (isHalfView (TypedArrayView.uint8V [7, 8]) = true →
      (dump { event := uint64Event 7 .none, state := .typed_array, data := .uint8V [7, 8], shape := [], index := 1 }).1 =
        if (1 : Nat) ≠ 0 then [.saj (uint64Event 7 .none), .end_array] else []) ∧
     (dump { event := uint64Event 7 .none, state := .typed_array, data := .uint8V [7, 8], shape := [], index := 1 }).2.state = .idle ∧
     (dump { event := uint64Event 7 .none, state := .typed_array, data := .uint8V [7, 8], shape := [], index := 1 }).2.data = .empty) :=
  ⟨by decide, by decide,
   c6_dump_amended { event := uint64Event 7 .none, state := .typed_array, data := .uint8V [7, 8], shape := [], index := 1 }
     (by decide) (by decide)⟩

/-- C7 counterexample: `sqrt(0)` is not total — the Newton refinement
evaluates `a/x` with `x = 0` and signals the divide-by-zero fault. -/
theorem c7_counterexample : sqrtB zeroB = .error .zeroDivide := by decide

/-- C8: composing two filter views over a deterministic cursor yields, at
every number of `next()` steps, exactly the same observation — `done()`,
`current()` and `context()` — as one filter view with the conjoined
predicate. -/
theorem c8_filter_compose (s : List (Staj2Event × Nat)) (pos : Nat)
    (p q : Staj2Event → Nat → Bool) (k : Nat) :
    (iterNext k (mkFilterView (mkFilterView (.base ⟨s, pos⟩) p) q)).obs =
      (iterNext k (mkFilterView (.base ⟨s, pos⟩)
        (fun e c => p e c && q e c))).obs := by
  have key : ∀ (k x : Nat),
      (iterNext k (.filt (.filt (.base ⟨s, x⟩) p) q)).obs =
        (iterNext k (.filt (.base ⟨s, x⟩) (fun e c => p e c && q e c))).obs := by
    intro k
    induction k with
    | zero => intro x; rfl
    | succ k ih =>
        intro x
        simp only [iterNext]
        rw [show (FCursor.filt (.filt (.base ⟨s, x⟩) p) q).next =
            nextD 2 (.filt (.filt (.base ⟨s, x⟩) p) q) from rfl,
          nextD_double p q s x,
          show (FCursor.filt (.base ⟨s, x⟩) (fun e c => p e c && q e c)).next =
            nextD 1 (.filt (.base ⟨s, x⟩) (fun e c => p e c && q e c)) from rfl,
          nextD_single (fun e c => p e c && q e c) s x]
        exact ih (skipTo (fun e c => p e c && q e c) s (x + 1))
  rw [mkFilterView_base (fun e c => p e c && q e c) s pos,
    mkFilterView_base p s pos, mkFilterView_filt p q s pos]
  exact key k (skipTo (fun e c => p e c && q e c) s pos)

/-- C9 counterexample: `as_bool` (reached through `get<bool>`) has no
`half_value` case, so a half event with nonzero stored bits reports
`not_bool` instead of the claimed nonzero test (half 0x3C00 is 1.0). -/
theorem c9_counterexample :
    getBoolT (halfEvent 15360 .none) = .error .not_bool ∧
    (Except.error ConvErr.not_bool : Except ConvErr Bool) ≠
      .ok (decide ((15360 : Nat) ≠ 0)) := by
  refine ⟨rfl, by decide⟩

/-- C9 amended: `get<bool>` returns the stored flag for bool events;
int64, uint64 and double events return a nonzero test with no error; and
half, string, byte-string, null and all structural events set `not_bool`. -/
theorem c9_as_bool_amended (tag : SemanticTag) (b : Bool) (i : Int) (n : Nat)
    (hbits : Nat) (q : ℚ) (s : List Char) (bs : List Nat) :
    getBoolT (boolEvent b tag) = .ok b ∧
    getBoolT (int64Event i tag) = .ok (decide (i ≠ 0)) ∧
    getBoolT (uint64Event n tag) = .ok (decide (n ≠ 0)) ∧
    getBoolT (doubleEvent q tag) = .ok (decide (q ≠ 0)) ∧
    getBoolT (halfEvent hbits tag) = .error .not_bool ∧
    getBoolT (stringEvent s tag) = .error .not_bool ∧
    getBoolT (byteStringEvent bs tag) = .error .not_bool ∧
    getBoolT (nullEvent tag) = .error .not_bool ∧
    getBoolT (structuralEvent .begin_array tag) = .error .not_bool ∧
    getBoolT (structuralEvent .end_array tag) = .error .not_bool ∧
    getBoolT (structuralEvent .begin_object tag) = .error .not_bool ∧
    getBoolT (structuralEvent .end_object tag) = .error .not_bool :=
  ⟨rfl, rfl, rfl, rfl, rfl, rfl, rfl, rfl, rfl, rfl, rfl, rfl⟩

/-- C10 counterexample: after `end_document` with a single root value, a
new `begin_document` clears `is_valid_`, although the claim's condition —
a document ended with a single root since the last retrieval — still
holds. -/
theorem c10_counterexample :
    (runDec [.beginDoc, .nullEv, .endDoc, .beginDoc]).is_valid = false ∧
    claimValidSpec [.beginDoc, .nullEv, .endDoc, .beginDoc] = true := by
  refine ⟨rfl, rfl⟩

/-! ## Bignum value lemmas -/

theorem natValL_nil : natValL [] = 0 := rfl

theorem natValL_cons (d : Nat) (l : List Nat) :
    natValL (d :: l) = d + B32 * natValL l := rfl

theorem natValL_append (a b : List Nat) :
    natValL (a ++ b) = natValL a + B32 ^ a.length * natValL b := by
  induction a with
  | nil => simp [natValL]
  | cons d a ih =>
      simp only [List.cons_append, natValL_cons, ih, List.length_cons]
      ring

theorem natValL_replicate_zero (n : Nat) : natValL (List.replicate n 0) = 0 := by
  induction n with
  | zero => rfl
  | succ n ih => simp [List.replicate_succ, natValL_cons, ih]

theorem natValL_lt (l : List Nat) (h : ∀ d ∈ l, d < B32) :
    natValL l < B32 ^ l.length := by
  induction l with
  | nil => simp [natValL]
  | cons d l ih =>
      have hd := h d (by simp)
      have hl := ih (fun d hd => h d (by simp [hd]))
      simp only [natValL_cons, List.length_cons]
      calc d + B32 * natValL l < B32 + B32 * natValL l := by omega
        _ = B32 * (natValL l + 1) := by ring
        _ ≤ B32 * B32 ^ l.length := Nat.mul_le_mul_left _ (by omega)
        _ = B32 ^ (l.length + 1) := by rw [pow_succ]; ring

theorem natValL_ge_top (l : List Nat) (h : l ≠ []) (htop : l.getLast h ≠ 0) :
    B32 ^ (l.length - 1) ≤ natValL l := by
  have hd := List.dropLast_append_getLast h
  have hsplit : natValL l =
      natValL l.dropLast + B32 ^ l.dropLast.length * l.getLast h := by
    conv_lhs => rw [← hd]
    rw [natValL_append]
    simp [natValL_cons, natValL_nil]
  rw [hsplit, List.length_dropLast]
  have h1 : B32 ^ (l.length - 1) * 1 ≤ B32 ^ (l.length - 1) * l.getLast h :=
    Nat.mul_le_mul_left _ (by omega)
  omega

theorem zeroExtend_val (l : List Nat) (n : Nat) :
    natValL (zeroExtend l n) = natValL l := by
  simp [zeroExtend, natValL_append, natValL_replicate_zero]

theorem zeroExtend_length (l : List Nat) (n : Nat) :
    (zeroExtend l n).length = max l.length n := by
  simp [zeroExtend]
  omega

theorem zeroExtend_wf (l : List Nat) (n : Nat) (h : ∀ d ∈ l, d < B32) :
    ∀ d ∈ zeroExtend l n, d < B32 := by
  intro d hd
  rcases List.mem_append.mp hd with h1 | h2
  · exact h d h1
  · have := List.eq_of_mem_replicate h2
    simp [this, B32]

theorem trimTop_val (l : List Nat) : natValL (trimTop l) = natValL l := by
  unfold trimTop
  conv_rhs => rw [← l.reverse_reverse, ← List.takeWhile_append_dropWhile
    (p := fun d => decide (d = 0)) (l := l.reverse)]
  rw [List.reverse_append, natValL_append]
  have hz : natValL (List.takeWhile (fun d => decide (d = 0)) l.reverse).reverse = 0 := by
    have : ∀ d ∈ (List.takeWhile (fun d => decide (d = 0)) l.reverse).reverse, d = 0 := by
      intro d hd
      rw [List.mem_reverse] at hd
      simpa using List.mem_takeWhile_imp hd
    generalize (List.takeWhile (fun d => decide (d = 0)) l.reverse).reverse = z at this
    induction z with
    | nil => rfl
    | cons a z ih =>
        rw [natValL_cons, this a (by simp), ih (fun d hd => this d (by simp [hd]))]
        simp
  rw [hz]
  ring

theorem trimTop_mem (l : List Nat) : ∀ d ∈ trimTop l, d ∈ l := by
  intro d hd
  unfold trimTop at hd
  rw [List.mem_reverse] at hd
  have := List.dropWhile_sublist (l := l.reverse) (p := fun d => decide (d = 0))
  have hmem := this.mem hd
  rwa [List.mem_reverse] at hmem

theorem trimTop_getLast (l : List Nat) (h : trimTop l ≠ []) :
    (trimTop l).getLast h ≠ 0 := by
  unfold trimTop at h ⊢
  rw [List.getLast_reverse]
  have hne : l.reverse.dropWhile (fun d => decide (d = 0)) ≠ [] := by
    intro hc
    rw [hc] at h
    exact h rfl
  have := List.head_dropWhile_not (p := fun d => decide (d = 0)) l.reverse hne
  simpa using this

theorem reduce_val_data (x : Bignum) : natValL (reduce x).data = natValL x.data :=
  trimTop_val x.data

theorem reduce_neg_of_ne (x : Bignum) (h : trimTop x.data ≠ []) :
    (reduce x).neg = x.neg := by
  simp only [reduce]
  rw [if_neg (by simpa [List.length_eq_zero] using h)]

theorem reduce_val (x : Bignum) : (reduce x).val = x.val := by
  unfold Bignum.val
  rw [reduce_val_data]
  by_cases hz : natValL x.data = 0
  · simp [hz]
  · rw [reduce_neg_of_ne x (by
      intro hc
      rw [← trimTop_val x.data, hc] at hz
      exact hz rfl)]

theorem reduce_inv (x : Bignum) : Inv (reduce x) := by
  constructor
  · intro hlen
    have hl : (trimTop x.data).length = 0 := hlen
    simp only [reduce]
    rw [if_pos hl]
  · intro h
    exact trimTop_getLast x.data h

theorem reduce_wf (x : Bignum) (h : Wf x) : Wf (reduce x) := by
  intro d hd
  exact h d (trimTop_mem x.data d hd)

theorem reduce_canon (x : Bignum) (h : Wf x) : Canon (reduce x) :=
  ⟨reduce_wf x h, reduce_inv x⟩

/-! ## Addition and subtraction loop correctness -/

theorem natValL_pos (l : List Nat) (h : l ≠ []) (htop : l.getLast h ≠ 0) :
    0 < natValL l :=
  lt_of_lt_of_le (pow_pos (by norm_num [B32]) _) (natValL_ge_top l h htop)

theorem magLt_of_len_lt (a b : List Nat) (ha : ∀ d ∈ a, d < B32) (hb : b ≠ [])
    (htop : b.getLast hb ≠ 0) (hlen : a.length < b.length) :
    natValL a < natValL b := by
  have h1 := natValL_lt a ha
  have h2 := natValL_ge_top b hb htop
  have h3 : B32 ^ a.length ≤ B32 ^ (b.length - 1) :=
    Nat.pow_le_pow_right (by norm_num [B32]) (by omega)
  omega

theorem compareTop_spec : ∀ (ra rb : List Nat), ra.length = rb.length →
    (∀ d ∈ ra, d < B32) → (∀ d ∈ rb, d < B32) →
    compareTop ra rb = if natValL ra.reverse < natValL rb.reverse then -1
      else if natValL rb.reverse < natValL ra.reverse then 1 else 0 := by
  intro ra
  induction ra with
  | nil =>
      intro rb hlen _ _
      have hrb : rb = [] := List.length_eq_zero.mp hlen.symm
      subst hrb
      simp [compareTop]
  | cons a ras ih =>
      intro rb hlen ha hb
      cases rb with
      | nil => exact absurd hlen (by simp)
      | cons b rbs =>
          have hlen' : ras.length = rbs.length := by simpa using hlen
          have haa : a < B32 := ha a (by simp)
          have hbb : b < B32 := hb b (by simp)
          have hras : ∀ d ∈ ras, d < B32 := fun d hd => ha d (by simp [hd])
          have hrbs : ∀ d ∈ rbs, d < B32 := fun d hd => hb d (by simp [hd])
          have hVa : natValL ras.reverse < B32 ^ ras.length := by
            have := natValL_lt ras.reverse (fun d hd => hras d (List.mem_reverse.mp hd))
            simpa using this
          have hVb : natValL rbs.reverse < B32 ^ ras.length := by
            have := natValL_lt rbs.reverse (fun d hd => hrbs d (List.mem_reverse.mp hd))
            simpa [hlen'] using this
          have hva : natValL (a :: ras).reverse =
              natValL ras.reverse + B32 ^ ras.length * a := by
            rw [List.reverse_cons, natValL_append]
            simp [natValL_cons, natValL_nil, List.length_reverse]
          have hvb : natValL (b :: rbs).reverse =
              natValL rbs.reverse + B32 ^ ras.length * b := by
            rw [List.reverse_cons, natValL_append]
            simp [natValL_cons, natValL_nil, List.length_reverse, hlen']
          have hstep : compareTop (a :: ras) (b :: rbs) =
              if a > b then 1 else if a < b then -1 else compareTop ras rbs := rfl
          rw [hstep, hva, hvb]
          rcases lt_trichotomy a b with hab | hab | hab
          · have hmul : B32 ^ ras.length * a + B32 ^ ras.length ≤ B32 ^ ras.length * b := by
              calc B32 ^ ras.length * a + B32 ^ ras.length
                  = B32 ^ ras.length * (a + 1) := by ring
                _ ≤ B32 ^ ras.length * b := Nat.mul_le_mul_left _ (by omega)
            rw [if_neg (by omega), if_pos hab,
              if_pos (show natValL ras.reverse + B32 ^ ras.length * a <
                natValL rbs.reverse + B32 ^ ras.length * b by omega)]
          · subst hab
            rw [if_neg (by omega), if_neg (by omega), ih rbs hlen' hras hrbs]
            split_ifs <;> omega
          · have hmul : B32 ^ ras.length * b + B32 ^ ras.length ≤ B32 ^ ras.length * a := by
              calc B32 ^ ras.length * b + B32 ^ ras.length
                  = B32 ^ ras.length * (b + 1) := by ring
                _ ≤ B32 ^ ras.length * a := Nat.mul_le_mul_left _ (by omega)
            rw [if_pos hab,
              if_neg (show ¬ (natValL ras.reverse + B32 ^ ras.length * a <
                natValL rbs.reverse + B32 ^ ras.length * b) by omega),
              if_pos (show natValL rbs.reverse + B32 ^ ras.length * b <
                natValL ras.reverse + B32 ^ ras.length * a by omega)]

theorem compare_spec (x y : Bignum) (hx : Canon x) (hy : Canon y) :
    (compare x y < 0 ↔ x.val < y.val) ∧ (compare x y = 0 ↔ x.val = y.val) ∧
    (0 < compare x y ↔ y.val < x.val) := by
  obtain ⟨hxw, hxi⟩ := hx
  obtain ⟨hyw, hyi⟩ := hy
  have hcmp : compare x y =
      if x.neg ≠ y.neg then (if y.neg then 1 else 0) - (if x.neg then 1 else 0)
      else if x.neg then
        -(if x.length = 0 ∨ y.length = 0 then (x.length : Int) - (y.length : Int)
          else if x.length < y.length then -1
          else if x.length > y.length then 1
          else compareTop x.data.reverse y.data.reverse)
      else
        if x.length = 0 ∨ y.length = 0 then (x.length : Int) - (y.length : Int)
          else if x.length < y.length then -1
          else if x.length > y.length then 1
          else compareTop x.data.reverse y.data.reverse := rfl
  have hxpos : x.data ≠ [] → 0 < natValL x.data := fun h => natValL_pos _ h (hxi.2 h)
  have hypos : y.data ≠ [] → 0 < natValL y.data := fun h => natValL_pos _ h (hyi.2 h)
  have hcode : ((if x.length = 0 ∨ y.length = 0 then (x.length : Int) - (y.length : Int)
        else if x.length < y.length then -1
        else if x.length > y.length then 1
        else compareTop x.data.reverse y.data.reverse) < 0 ↔
          natValL x.data < natValL y.data) ∧
      ((if x.length = 0 ∨ y.length = 0 then (x.length : Int) - (y.length : Int)
        else if x.length < y.length then -1
        else if x.length > y.length then 1
        else compareTop x.data.reverse y.data.reverse) = 0 ↔
          natValL x.data = natValL y.data) ∧
      (0 < (if x.length = 0 ∨ y.length = 0 then (x.length : Int) - (y.length : Int)
        else if x.length < y.length then -1
        else if x.length > y.length then 1
        else compareTop x.data.reverse y.data.reverse) ↔
          natValL y.data < natValL x.data) := by
    simp only [Bignum.length]
    by_cases h0x : x.data.length = 0
    · rw [if_pos (Or.inl h0x)]
      have hVx : natValL x.data = 0 := by
        rw [List.length_eq_zero.mp h0x, natValL_nil]
      by_cases h0y : y.data.length = 0
      · have hVy : natValL y.data = 0 := by
          rw [List.length_eq_zero.mp h0y, natValL_nil]
        omega
      · have hVy : 0 < natValL y.data := hypos (by
          intro h; exact h0y (by simp [h]))
        omega
    · by_cases h0y : y.data.length = 0
      · rw [if_pos (Or.inr h0y)]
        have hVy : natValL y.data = 0 := by
          rw [List.length_eq_zero.mp h0y, natValL_nil]
        have hVx : 0 < natValL x.data := hxpos (by
          intro h; exact h0x (by simp [h]))
        omega
      · rw [if_neg (by simp [h0x, h0y])]
        have hxne : x.data ≠ [] := by intro h; exact h0x (by simp [h])
        have hyne : y.data ≠ [] := by intro h; exact h0y (by simp [h])
        by_cases hlt : x.data.length < y.data.length
        · rw [if_pos hlt]
          have := magLt_of_len_lt x.data y.data hxw hyne (hyi.2 hyne) hlt
          omega
        · by_cases hgt : x.data.length > y.data.length
          · rw [if_neg hlt, if_pos hgt]
            have := magLt_of_len_lt y.data x.data hyw hxne (hxi.2 hxne) hgt
            omega
          · rw [if_neg hlt, if_neg hgt]
            have hleq : x.data.length = y.data.length := by omega
            have hct := compareTop_spec x.data.reverse y.data.reverse
              (by simp [hleq])
              (fun d hd => hxw d (List.mem_reverse.mp hd))
              (fun d hd => hyw d (List.mem_reverse.mp hd))
            rw [List.reverse_reverse, List.reverse_reverse] at hct
            rw [hct]
            rcases lt_trichotomy (natValL x.data) (natValL y.data) with h | h | h
            · rw [if_pos h]; omega
            · rw [if_neg (by omega), if_neg (by omega)]; omega
            · rw [if_neg (by omega), if_pos h]; omega
  obtain ⟨hc1, hc2, hc3⟩ := hcode
  cases hxn : x.neg
  · cases hyn : y.neg
    · have hne : ¬ (x.neg ≠ y.neg) := by simp [hxn, hyn]
      rw [hcmp, if_neg hne, if_neg (by simp [hxn])]
      simp only [Bignum.val, hxn, hyn, Bool.false_eq_true, if_false]
      rcases lt_trichotomy (natValL x.data) (natValL y.data) with h | h | h
      · have h1 := hc1.mpr h; omega
      · have h2 := hc2.mpr h; omega
      · have h3 := hc3.mpr h; omega
    · have hne : x.neg ≠ y.neg := by simp [hxn, hyn]
      rw [hcmp, if_pos hne, if_pos hyn, if_neg (by simp [hxn])]
      have hynz : y.data ≠ [] := by
        intro h
        have := hyi.1 (by simp [h])
        rw [hyn] at this
        simp at this
      have hVy := hypos hynz
      simp only [Bignum.val, hxn, hyn, Bool.false_eq_true, if_false, if_true]
      omega
  · cases hyn : y.neg
    · have hne : x.neg ≠ y.neg := by simp [hxn, hyn]
      rw [hcmp, if_pos hne, if_neg (by simp [hyn]), if_pos hxn]
      have hxnz : x.data ≠ [] := by
        intro h
        have := hxi.1 (by simp [h])
        rw [hxn] at this
        simp at this
      have hVx := hxpos hxnz
      simp only [Bignum.val, hxn, hyn, Bool.false_eq_true, if_false, if_true]
      omega
    · have hne : ¬ (x.neg ≠ y.neg) := by simp [hxn, hyn]
      rw [hcmp, if_neg hne, if_pos hxn]
      simp only [Bignum.val, hxn, hyn, if_true]
      rcases lt_trichotomy (natValL x.data) (natValL y.data) with h | h | h
      · have h1 := hc1.mpr h; omega
      · have h2 := hc2.mpr h; omega
      · have h3 := hc3.mpr h; omega

theorem addDigits_spec : ∀ (xs ys : List Nat) (c : Nat),
    (∀ d ∈ xs, d < B32) → (∀ d ∈ ys, d < B32) → c ≤ 1 → ys.length ≤ xs.length →
    (addDigits xs ys c).length = xs.length ∧
    (∀ d ∈ addDigits xs ys c, d < B32) ∧
    ∃ co ≤ 1, natValL (addDigits xs ys c) + B32 ^ xs.length * co =
      natValL xs + natValL ys + c := by
  intro xs
  induction xs with
  | nil =>
      intro ys c hx hy hc hlen
      have hys : ys = [] := List.length_eq_zero.mp (by simpa using hlen)
      subst hys
      exact ⟨rfl, by simp [addDigits], c, hc, by simp [addDigits, natValL_nil]⟩
  | cons x xs ih =>
      intro ys c hx hy hc hlen
      have hxd : x < B32 := hx x (by simp)
      have hxs : ∀ d ∈ xs, d < B32 := fun d hd => hx d (by simp [hd])
      have hB : B32 = 4294967296 := rfl
      cases ys with
      | nil =>
          by_cases hc0 : c = 0
          · subst hc0
            have hstep : addDigits (x :: xs) [] 0 = x :: xs := rfl
            rw [hstep]
            exact ⟨rfl, hx, 0, by omega, by simp [natValL_nil]⟩
          · have hc1 : c = 1 := by omega
            subst hc1
            have hstep : addDigits (x :: xs) [] 1 =
                (x + 1) % B32 :: addDigits xs [] (if (x + 1) % B32 < 1 then 1 else 0) := rfl
            rw [hstep]
            obtain ⟨hl, hw, co, hco, hv⟩ :=
              ih [] (if (x + 1) % B32 < 1 then 1 else 0) hxs (by simp)
                (by split <;> omega) (by simp)
            refine ⟨by simp only [List.length_cons, hl], ?_, co, hco, ?_⟩
            · intro d hd
              rcases List.mem_cons.mp hd with h1 | h2
              · subst h1; simp only [hB]; omega
              · exact hw d h2
            · have hkey : (x + 1) % B32 + B32 * (if (x + 1) % B32 < 1 then 1 else 0) =
                  x + 1 := by
                simp only [hB] at hxd ⊢; split <;> omega
              rw [natValL_nil] at hv ⊢
              calc natValL ((x + 1) % B32 ::
                      addDigits xs [] (if (x + 1) % B32 < 1 then 1 else 0)) +
                    B32 ^ (x :: xs).length * co
                  = (x + 1) % B32 +
                      B32 * (natValL (addDigits xs [] (if (x + 1) % B32 < 1 then 1 else 0)) +
                        B32 ^ xs.length * co) := by
                    rw [natValL_cons, List.length_cons, pow_succ]; ring
                _ = (x + 1) % B32 + B32 * (natValL xs + 0 +
                      (if (x + 1) % B32 < 1 then 1 else 0)) := by rw [hv]
                _ = ((x + 1) % B32 + B32 * (if (x + 1) % B32 < 1 then 1 else 0)) +
                      B32 * natValL xs := by ring
                _ = (x + 1) + B32 * natValL xs := by rw [hkey]
                _ = natValL (x :: xs) + 0 + 1 := by rw [natValL_cons]; ring
      | cons y ys =>
          have hyd : y < B32 := hy y (by simp)
          have hys : ∀ d ∈ ys, d < B32 := fun d hd => hy d (by simp [hd])
          have hstep : addDigits (x :: xs) (y :: ys) c =
              ((x + c) % B32 + y) % B32 ::
                addDigits xs ys
                  (if ((x + c) % B32 + y) % B32 < (x + c) % B32 then 1
                   else if (x + c) % B32 < c then 1 else 0) := rfl
          rw [hstep]
          have hc2le : (if ((x + c) % B32 + y) % B32 < (x + c) % B32 then 1
              else if (x + c) % B32 < c then 1 else 0) ≤ 1 := by
            split
            · omega
            · split <;> omega
          have hkey : ((x + c) % B32 + y) % B32 +
              B32 * (if ((x + c) % B32 + y) % B32 < (x + c) % B32 then 1
                else if (x + c) % B32 < c then 1 else 0) = x + y + c := by
            simp only [hB] at hxd hyd ⊢
            split_ifs <;> omega
          obtain ⟨hl, hw, co, hco, hv⟩ :=
            ih ys (if ((x + c) % B32 + y) % B32 < (x + c) % B32 then 1
              else if (x + c) % B32 < c then 1 else 0) hxs hys hc2le (by simpa using hlen)
          refine ⟨by simp only [List.length_cons, hl], ?_, co, hco, ?_⟩
          · intro d hd
            rcases List.mem_cons.mp hd with h1 | h2
            · subst h1; simp only [hB]; omega
            · exact hw d h2
          · calc natValL (((x + c) % B32 + y) % B32 ::
                    addDigits xs ys
                      (if ((x + c) % B32 + y) % B32 < (x + c) % B32 then 1
                       else if (x + c) % B32 < c then 1 else 0)) +
                  B32 ^ (x :: xs).length * co
                = ((x + c) % B32 + y) % B32 +
                    B32 * (natValL (addDigits xs ys
                      (if ((x + c) % B32 + y) % B32 < (x + c) % B32 then 1
                       else if (x + c) % B32 < c then 1 else 0)) +
                      B32 ^ xs.length * co) := by
                  rw [natValL_cons, List.length_cons, pow_succ]; ring
              _ = ((x + c) % B32 + y) % B32 + B32 * (natValL xs + natValL ys +
                    (if ((x + c) % B32 + y) % B32 < (x + c) % B32 then 1
                     else if (x + c) % B32 < c then 1 else 0)) := by rw [hv]
              _ = (((x + c) % B32 + y) % B32 +
                    B32 * (if ((x + c) % B32 + y) % B32 < (x + c) % B32 then 1
                     else if (x + c) % B32 < c then 1 else 0)) +
                    B32 * natValL xs + B32 * natValL ys := by ring
              _ = (x + y + c) + B32 * natValL xs + B32 * natValL ys := by rw [hkey]
              _ = natValL (x :: xs) + natValL (y :: ys) + c := by
                  rw [natValL_cons, natValL_cons]; ring

set_option maxRecDepth 4000 in
theorem subDigits_spec : ∀ (xs ys : List Nat) (c : Nat),
    (∀ d ∈ xs, d < B32) → (∀ d ∈ ys, d < B32) → c ≤ 1 → ys.length ≤ xs.length →
    (subDigits xs ys c).length = xs.length ∧
    (∀ d ∈ subDigits xs ys c, d < B32) ∧
    ∃ bo ≤ 1, natValL (subDigits xs ys c) + natValL ys + c =
      natValL xs + B32 ^ xs.length * bo := by
  intro xs
  induction xs with
  | nil =>
      intro ys c hx hy hc hlen
      have hys : ys = [] := List.length_eq_zero.mp (by simpa using hlen)
      subst hys
      exact ⟨rfl, by simp [subDigits], c, hc, by simp [subDigits, natValL_nil]⟩
  | cons x xs ih =>
      intro ys c hx hy hc hlen
      have hxd : x < B32 := hx x (by simp)
      have hxs : ∀ d ∈ xs, d < B32 := fun d hd => hx d (by simp [hd])
      have hB : B32 = 4294967296 := rfl
      cases ys with
      | nil =>
          by_cases hc0 : c = 0
          · subst hc0
            have hstep : subDigits (x :: xs) [] 0 = x :: xs := rfl
            rw [hstep]
            exact ⟨rfl, hx, 0, by omega, by simp [natValL_nil]⟩
          · have hc1 : c = 1 := by omega
            subst hc1
            have hstep : subDigits (x :: xs) [] 1 =
                (x + B32 - 1) % B32 ::
                  subDigits xs [] (if (x + B32 - 1) % B32 > x then 1 else 0) := rfl
            rw [hstep]
            obtain ⟨hl, hw, bo, hbo, hv⟩ :=
              ih [] (if (x + B32 - 1) % B32 > x then 1 else 0) hxs (by simp)
                (by split <;> omega) (by simp)
            refine ⟨by simp only [List.length_cons, hl], ?_, bo, hbo, ?_⟩
            · have hdlt : (x + B32 - 1) % B32 < B32 := by simp only [hB]; omega
              intro d hd
              rcases List.mem_cons.mp hd with h1 | h2
              · rw [h1]; exact hdlt
              · exact hw d h2
            · have hkey : (x + B32 - 1) % B32 + 1 =
                  x + B32 * (if (x + B32 - 1) % B32 > x then 1 else 0) := by
                simp only [hB] at hxd ⊢; split <;> omega
              rw [natValL_nil] at hv ⊢
              calc natValL ((x + B32 - 1) % B32 ::
                      subDigits xs [] (if (x + B32 - 1) % B32 > x then 1 else 0)) + 0 + 1
                  = ((x + B32 - 1) % B32 + 1) +
                      B32 * natValL (subDigits xs [] (if (x + B32 - 1) % B32 > x
                        then 1 else 0)) := by
                    rw [natValL_cons]; ring
                _ = (x + B32 * (if (x + B32 - 1) % B32 > x then 1 else 0)) +
                      B32 * natValL (subDigits xs [] (if (x + B32 - 1) % B32 > x
                        then 1 else 0)) := by rw [hkey]
                _ = x + B32 * (natValL (subDigits xs [] (if (x + B32 - 1) % B32 > x
                      then 1 else 0)) + 0 +
                      (if (x + B32 - 1) % B32 > x then 1 else 0)) := by ring
                _ = x + B32 * (natValL xs + B32 ^ xs.length * bo) := by rw [hv]
                _ = natValL (x :: xs) + B32 ^ (x :: xs).length * bo := by
                    rw [natValL_cons, List.length_cons, pow_succ]; ring
      | cons y ys =>
          have hyd : y < B32 := hy y (by simp)
          have hys : ∀ d ∈ ys, d < B32 := fun d hd => hy d (by simp [hd])
          have hstep : subDigits (x :: xs) (y :: ys) c =
              ((x + B32 - c) % B32 + B32 - y % B32) % B32 ::
                subDigits xs ys
                  (if ((x + B32 - c) % B32 + B32 - y % B32) % B32 > (x + B32 - c) % B32
                   then 1
                   else if (x + B32 - c) % B32 > x then 1 else 0) := rfl
          rw [hstep]
          have hb2le : (if ((x + B32 - c) % B32 + B32 - y % B32) % B32 >
                (x + B32 - c) % B32 then 1
              else if (x + B32 - c) % B32 > x then 1 else 0) ≤ 1 := by
            split
            · omega
            · split <;> omega
          have hkey : ((x + B32 - c) % B32 + B32 - y % B32) % B32 + y + c =
              x + B32 * (if ((x + B32 - c) % B32 + B32 - y % B32) % B32 >
                  (x + B32 - c) % B32 then 1
                else if (x + B32 - c) % B32 > x then 1 else 0) := by
            simp only [hB] at hxd hyd ⊢
            split_ifs <;> omega
          obtain ⟨hl, hw, bo, hbo, hv⟩ :=
            ih ys (if ((x + B32 - c) % B32 + B32 - y % B32) % B32 > (x + B32 - c) % B32
              then 1
              else if (x + B32 - c) % B32 > x then 1 else 0) hxs hys hb2le
              (by simpa using hlen)
          refine ⟨by simp only [List.length_cons, hl], ?_, bo, hbo, ?_⟩
          · have hdlt : ((x + B32 - c) % B32 + B32 - y % B32) % B32 < B32 := by
              simp only [hB]; omega
            intro d hd
            rcases List.mem_cons.mp hd with h1 | h2
            · rw [h1]; exact hdlt
            · exact hw d h2
          · calc natValL (((x + B32 - c) % B32 + B32 - y % B32) % B32 ::
                    subDigits xs ys
                      (if ((x + B32 - c) % B32 + B32 - y % B32) % B32 >
                          (x + B32 - c) % B32 then 1
                       else if (x + B32 - c) % B32 > x then 1 else 0)) +
                  natValL (y :: ys) + c
                = (((x + B32 - c) % B32 + B32 - y % B32) % B32 + y + c) +
                    B32 * natValL (subDigits xs ys
                      (if ((x + B32 - c) % B32 + B32 - y % B32) % B32 >
                          (x + B32 - c) % B32 then 1
                       else if (x + B32 - c) % B32 > x then 1 else 0)) +
                    B32 * natValL ys := by
                  rw [natValL_cons, natValL_cons]; ring
              _ = (x + B32 * (if ((x + B32 - c) % B32 + B32 - y % B32) % B32 >
                      (x + B32 - c) % B32 then 1
                    else if (x + B32 - c) % B32 > x then 1 else 0)) +
                    B32 * natValL (subDigits xs ys
                      (if ((x + B32 - c) % B32 + B32 - y % B32) % B32 >
                          (x + B32 - c) % B32 then 1
                       else if (x + B32 - c) % B32 > x then 1 else 0)) +
                    B32 * natValL ys := by rw [hkey]
              _ = x + B32 * (natValL (subDigits xs ys
                      (if ((x + B32 - c) % B32 + B32 - y % B32) % B32 >
                          (x + B32 - c) % B32 then 1
                       else if (x + B32 - c) % B32 > x then 1 else 0)) +
                    natValL ys +
                    (if ((x + B32 - c) % B32 + B32 - y % B32) % B32 >
                        (x + B32 - c) % B32 then 1
                     else if (x + B32 - c) % B32 > x then 1 else 0)) := by ring
              _ = x + B32 * (natValL xs + B32 ^ xs.length * bo) := by rw [hv]
              _ = natValL (x :: xs) + B32 ^ (x :: xs).length * bo := by
                  rw [natValL_cons, List.length_cons, pow_succ]; ring

/-! ## Full signed addition and subtraction -/

theorem natValL_eq_zero_iff (l : List Nat) : natValL l = 0 ↔ ∀ d ∈ l, d = 0 := by
  induction l with
  | nil => simp [natValL_nil]
  | cons d t ih =>
      rw [natValL_cons]
      constructor
      · intro h e he
        have hd : d = 0 ∧ B32 * natValL t = 0 := by omega
        have hV : natValL t = 0 := by
          rcases Nat.mul_eq_zero.mp hd.2 with h1 | h1
          · exact absurd h1 (by norm_num [B32])
          · exact h1
        rcases List.mem_cons.mp he with h1 | h2
        · omega
        · exact ih.mp hV e h2
      · intro h
        have hd : d = 0 := h d (by simp)
        have hV : natValL t = 0 := ih.mpr (fun e he => h e (by simp [he]))
        simp [hd, hV]

theorem trimTop_nil_iff (l : List Nat) : trimTop l = [] ↔ natValL l = 0 := by
  constructor
  · intro h
    rw [← trimTop_val l, h, natValL_nil]
  · intro h
    have hall := (natValL_eq_zero_iff l).mp h
    simp only [trimTop, List.reverse_eq_nil_iff, List.dropWhile_eq_nil_iff,
      List.mem_reverse, decide_eq_true_eq]
    exact fun x hx => hall x hx

theorem reduce_spec (x : Bignum) (h : Wf x) :
    natValL (reduce x).data = natValL x.data ∧
    (reduce x).neg = (if natValL x.data = 0 then false else x.neg) ∧
    Canon (reduce x) := by
  refine ⟨reduce_val_data x, ?_, reduce_canon x h⟩
  by_cases hz : natValL x.data = 0
  · rw [if_pos hz]
    have ht : trimTop x.data = [] := (trimTop_nil_iff _).mpr hz
    simp [reduce, ht]
  · rw [if_neg hz]
    exact reduce_neg_of_ne x (fun hc => hz (by rw [← trimTop_val x.data, hc, natValL_nil]))

theorem subDigits_nil_zero (l : List Nat) : subDigits l [] 0 = l := by
  cases l <;> rfl

theorem negB_val (x : Bignum) : (negB x).val = -x.val := by
  cases hx : x.neg <;> simp [Bignum.val, negB, hx]

theorem addMag_spec (x y : Bignum) (hx : Wf x) (hy : Wf y) :
    natValL (addMag x y).data = natValL x.data + natValL y.data ∧
    (addMag x y).neg =
      (if natValL x.data + natValL y.data = 0 then false else x.neg) ∧
    Canon (addMag x y) := by
  have hextlen : (zeroExtend x.data (max y.data.length x.data.length + 1)).length =
      max y.data.length x.data.length + 1 := by
    rw [zeroExtend_length]; omega
  have hextwf := zeroExtend_wf x.data (max y.data.length x.data.length + 1) hx
  obtain ⟨hl, hw, co, hco, hv⟩ :=
    addDigits_spec (zeroExtend x.data (max y.data.length x.data.length + 1)) y.data 0
      hextwf hy (by omega) (by rw [hextlen]; omega)
  rw [zeroExtend_val, hextlen] at hv
  have hout_lt : natValL (addDigits
      (zeroExtend x.data (max y.data.length x.data.length + 1)) y.data 0) <
      B32 ^ (max y.data.length x.data.length + 1) := by
    have := natValL_lt _ hw
    rwa [hl, hextlen] at this
  have hVx : natValL x.data < B32 ^ (max y.data.length x.data.length) :=
    lt_of_lt_of_le (natValL_lt _ hx)
      (Nat.pow_le_pow_right (by norm_num [B32]) (by omega))
  have hVy : natValL y.data < B32 ^ (max y.data.length x.data.length) :=
    lt_of_lt_of_le (natValL_lt _ hy)
      (Nat.pow_le_pow_right (by norm_num [B32]) (by omega))
  have hpow : 2 * B32 ^ (max y.data.length x.data.length) ≤
      B32 ^ (max y.data.length x.data.length + 1) := by
    rw [pow_succ]
    have h2 : 2 ≤ B32 := by norm_num [B32]
    calc 2 * B32 ^ (max y.data.length x.data.length)
        = B32 ^ (max y.data.length x.data.length) * 2 := by ring
      _ ≤ B32 ^ (max y.data.length x.data.length) * B32 := Nat.mul_le_mul_left _ h2
  have hco0 : co = 0 := by
    rcases Nat.le_one_iff_eq_zero_or_eq_one.mp hco with h | h
    · exact h
    · exfalso; rw [h] at hv; omega
  rw [hco0] at hv
  have hvd : natValL (addDigits
      (zeroExtend x.data (max y.data.length x.data.length + 1)) y.data 0) =
      natValL x.data + natValL y.data := by omega
  have hwrec : Wf { neg := x.neg, data := addDigits (zeroExtend x.data (max y.data.length x.data.length + 1)) y.data 0 } := hw
  obtain ⟨hrv, hrn, hrc⟩ := reduce_spec { neg := x.neg, data := addDigits (zeroExtend x.data (max y.data.length x.data.length + 1)) y.data 0 } hwrec
  rw [hvd] at hrv hrn
  exact ⟨hrv, hrn, hrc⟩

theorem subNoSwap_spec (x y : Bignum) (hx : Wf x) (hy : Wf y)
    (hlen : y.data.length ≤ x.data.length) (hval : natValL y.data ≤ natValL x.data) :
    natValL (subNoSwap x y).data = natValL x.data - natValL y.data ∧
    (subNoSwap x y).neg =
      (if natValL x.data - natValL y.data = 0 then false else x.neg) ∧
    Canon (subNoSwap x y) := by
  obtain ⟨hl, hw, bo, hbo, hv⟩ := subDigits_spec x.data y.data 0 hx hy (by omega) hlen
  have hout_lt : natValL (subDigits x.data y.data 0) < B32 ^ x.data.length := by
    have := natValL_lt _ hw
    rwa [hl] at this
  have hVx_lt : natValL x.data < B32 ^ x.data.length := natValL_lt _ hx
  have hbo0 : bo = 0 := by
    rcases Nat.le_one_iff_eq_zero_or_eq_one.mp hbo with h | h
    · exact h
    · exfalso; rw [h] at hv; omega
  rw [hbo0] at hv
  have hvd : natValL (subDigits x.data y.data 0) =
      natValL x.data - natValL y.data := by omega
  have hwrec : Wf { neg := x.neg, data := subDigits x.data y.data 0 } := hw
  obtain ⟨hrv, hrn, hrc⟩ :=
    reduce_spec { neg := x.neg, data := subDigits x.data y.data 0 } hwrec
  rw [hvd] at hrv hrn
  exact ⟨hrv, hrn, hrc⟩

theorem canon_negB (y : Bignum) (hy : Canon y) (h0 : y.data ≠ []) :
    Canon (negB y) := by
  refine ⟨hy.1, fun h => absurd (List.length_eq_zero.mp h) h0, fun h => hy.2.2 h⟩

theorem subSameSign_spec (x y : Bignum) (hx : Canon x) (hy : Canon y)
    (hsign : x.neg = y.neg) :
    (subSameSign x y).val = x.val - y.val ∧ Canon (subSameSign x y) := by
  have hcs := compare_spec y x hy hx
  have hexp : subSameSign x y =
      if (¬x.neg ∧ compare y x > 0) ∨ (x.neg ∧ compare y x < 0) then
        negB (subNoSwap y x)
      else subNoSwap x y := rfl
  by_cases hc : natValL x.data < natValL y.data
  · have hswap : (¬x.neg ∧ compare y x > 0) ∨ (x.neg ∧ compare y x < 0) := by
      cases hxn : x.neg
      · left
        refine ⟨by simp, hcs.2.2.mpr ?_⟩
        have hyn : y.neg = false := by rw [← hsign, hxn]
        simp only [Bignum.val, hxn, hyn, Bool.false_eq_true, if_false]
        exact_mod_cast hc
      · right
        refine ⟨rfl, hcs.1.mpr ?_⟩
        have hyn : y.neg = true := by rw [← hsign, hxn]
        simp only [Bignum.val, hxn, hyn, if_true]
        omega
    rw [hexp, if_pos hswap]
    have hlen : x.data.length ≤ y.data.length := by
      by_contra hcon
      push_neg at hcon
      have hxne : x.data ≠ [] := by
        intro h
        rw [h] at hcon
        simp at hcon
      have := magLt_of_len_lt y.data x.data hy.1 hxne (hx.2.2 hxne) hcon
      omega
    obtain ⟨hvd, hnd, hcanon⟩ := subNoSwap_spec y x hy.1 hx.1 hlen (le_of_lt hc)
    have hpos : 0 < natValL y.data - natValL x.data := by omega
    have hneg : (subNoSwap y x).neg = y.neg := by rw [hnd, if_neg (by omega)]
    have hne : (subNoSwap y x).data ≠ [] := by
      intro h
      rw [h, natValL_nil] at hvd
      omega
    refine ⟨?_, canon_negB _ hcanon ?_⟩
    · have hsubval : (subNoSwap y x).val =
          if y.neg then -((natValL y.data - natValL x.data : Nat) : Int)
          else ((natValL y.data - natValL x.data : Nat) : Int) := by
        rw [Bignum.val, hneg, hvd]
      rw [negB_val, hsubval]
      have hcast : ((natValL y.data - natValL x.data : Nat) : Int) =
          (natValL y.data : Int) - natValL x.data := Nat.cast_sub (le_of_lt hc)
      cases hyn : y.neg
      · have hxn : x.neg = false := by rw [hsign, hyn]
        simp only [Bignum.val, hxn, hyn, Bool.false_eq_true, if_false, hcast]
        ring
      · have hxn : x.neg = true := by rw [hsign, hyn]
        simp only [Bignum.val, hxn, hyn, if_true, hcast]
        ring
    · exact hne
  · have hswap : ¬ ((¬x.neg ∧ compare y x > 0) ∨ (x.neg ∧ compare y x < 0)) := by
      intro h
      rcases h with ⟨hxn, hgt⟩ | ⟨hxn, hlt⟩
      · have hxn' : x.neg = false := by
          cases h' : x.neg
          · rfl
          · exact absurd h' hxn
        have hyn : y.neg = false := by rw [← hsign, hxn']
        have := hcs.2.2.mp hgt
        simp only [Bignum.val, hxn', hyn, Bool.false_eq_true, if_false] at this
        omega
      · have hyn : y.neg = true := by rw [← hsign, hxn]
        have := hcs.1.mp hlt
        simp only [Bignum.val, hxn, hyn, if_true] at this
        omega
    rw [hexp, if_neg hswap]
    have hlen : y.data.length ≤ x.data.length := by
      by_contra hcon
      push_neg at hcon
      have hyne : y.data ≠ [] := by
        intro h
        rw [h] at hcon
        simp at hcon
      have := magLt_of_len_lt x.data y.data hx.1 hyne (hy.2.2 hyne) hcon
      omega
    obtain ⟨hvd, hnd, hcanon⟩ := subNoSwap_spec x y hx.1 hy.1 hlen (by omega)
    refine ⟨?_, hcanon⟩
    by_cases hz : natValL x.data - natValL y.data = 0
    · have heq : natValL x.data = natValL y.data := by omega
      have hval0 : natValL (subNoSwap x y).data = 0 := by rw [hvd]; exact hz
      have hneg0 : (subNoSwap x y).neg = false := by rw [hnd, if_pos hz]
      have hres : (subNoSwap x y).val = 0 := by
        rw [Bignum.val, hneg0, hval0]
        simp
      rw [hres]
      cases hyn : y.neg
      · have hxn : x.neg = false := by rw [hsign, hyn]
        simp [Bignum.val, hxn, hyn, heq]
      · have hxn : x.neg = true := by rw [hsign, hyn]
        simp [Bignum.val, hxn, hyn, heq]
    · have hneg : (subNoSwap x y).neg = x.neg := by rw [hnd, if_neg hz]
      have hsubval : (subNoSwap x y).val =
          if x.neg then -((natValL x.data - natValL y.data : Nat) : Int)
          else ((natValL x.data - natValL y.data : Nat) : Int) := by
        rw [Bignum.val, hneg, hvd]
      rw [hsubval]
      have hcast : ((natValL x.data - natValL y.data : Nat) : Int) =
          (natValL x.data : Int) - natValL y.data := Nat.cast_sub (by omega)
      cases hxn : x.neg
      · have hyn : y.neg = false := by rw [← hsign, hxn]
        simp only [Bignum.val, hxn, hyn, Bool.false_eq_true, if_false, hcast]
      · have hyn : y.neg = true := by rw [← hsign, hxn]
        simp only [Bignum.val, hxn, hyn, if_true, hcast]
        ring

theorem addB_spec (x y : Bignum) (hx : Canon x) (hy : Canon y) :
    (addB x y).val = x.val + y.val ∧ Canon (addB x y) := by
  have hexp : addB x y =
      if x.neg ≠ y.neg then subSameSign x (negB y) else addMag x y := rfl
  by_cases hs : x.neg = y.neg
  · rw [hexp, if_neg (by simp [hs])]
    obtain ⟨hvd, hnd, hcanon⟩ := addMag_spec x y hx.1 hy.1
    refine ⟨?_, hcanon⟩
    by_cases hz : natValL x.data + natValL y.data = 0
    · have hneg : (addMag x y).neg = false := by rw [hnd, if_pos hz]
      have hvx : natValL x.data = 0 := by omega
      have hvy : natValL y.data = 0 := by omega
      cases hxn : x.neg <;> cases hyn : y.neg <;>
        simp [Bignum.val, hneg, hvd, hvx, hvy, hxn, hyn]
    · have hneg : (addMag x y).neg = x.neg := by rw [hnd, if_neg hz]
      have hyn : y.neg = x.neg := hs.symm
      cases hxn : x.neg
      · rw [Bignum.val, hneg, hxn, hvd]
        simp only [Bool.false_eq_true, if_false, Bignum.val, hyn, hxn]
        push_cast
        ring
      · rw [Bignum.val, hneg, hxn, hvd]
        simp only [if_true, Bignum.val, hyn, hxn]
        push_cast
        ring
  · rw [hexp, if_pos hs]
    by_cases hy0 : y.data = []
    · have hyn : y.neg = false := hy.2.1 (by simp [hy0])
      have hxn : x.neg = true := by
        cases hxn : x.neg
        · exact absurd (hxn.trans hyn.symm) hs
        · rfl
      have hxne : x.data ≠ [] := by
        intro h
        have := hx.2.1 (by simp [h])
        rw [hxn] at this
        simp at this
      have hzn : (negB y).neg = true := by simp [negB, hyn]
      have hzl : (negB y).data = [] := hy0
      have hcv : compare (negB y) x = (x.data.length : Int) := by
        have hexp2 : compare (negB y) x =
            if (negB y).neg ≠ x.neg then
              (if x.neg then 1 else 0) - (if (negB y).neg then 1 else 0)
            else
              (fun code : Int => if (negB y).neg then -code else code)
                (if (negB y).length = 0 ∨ x.length = 0 then
                  ((negB y).length : Int) - (x.length : Int)
                else if (negB y).length < x.length then -1
                else if (negB y).length > x.length then 1
                else compareTop (negB y).data.reverse x.data.reverse) := rfl
        rw [hexp2]
        rw [if_neg (by simp [hzn, hxn])]
        simp [hzn, hzl, Bignum.length]
      have hcond : ¬ ((¬x.neg ∧ compare (negB y) x > 0) ∨
          (x.neg ∧ compare (negB y) x < 0)) := by
        rw [hcv]
        simp [hxn]
      rw [show subSameSign x (negB y) =
          if (¬x.neg ∧ compare (negB y) x > 0) ∨
              (x.neg ∧ compare (negB y) x < 0) then
            negB (subNoSwap (negB y) x)
          else subNoSwap x (negB y) from rfl, if_neg hcond]
      have hred : subNoSwap x (negB y) = reduce x := by
        rw [show subNoSwap x (negB y) =
            reduce { neg := x.neg, data := subDigits x.data (negB y).data 0 } from rfl]
        rw [show (negB y).data = y.data from rfl, hy0, subDigits_nil_zero]
      rw [hred]
      refine ⟨?_, reduce_canon x hx.1⟩
      rw [reduce_val]
      have hy0v : y.val = 0 := by simp [Bignum.val, hy0, natValL_nil]
      rw [hy0v]
      ring
    · have hny : Canon (negB y) := canon_negB y hy hy0
      have hsign' : x.neg = (negB y).neg := by
        cases hxn : x.neg <;> cases hyn : y.neg <;> simp [hxn, hyn, negB] at hs ⊢
      obtain ⟨hval, hcanon⟩ := subSameSign_spec x (negB y) hx hny hsign'
      refine ⟨?_, hcanon⟩
      rw [hval, negB_val]
      ring

theorem subB_spec (x y : Bignum) (hx : Canon x) (hy : Canon y) :
    (subB x y).val = x.val - y.val ∧ Canon (subB x y) := by
  have hexp : subB x y =
      if x.neg ≠ y.neg then addMag x (negB y) else subSameSign x y := rfl
  by_cases hs : x.neg = y.neg
  · rw [hexp, if_neg (by simp [hs])]
    exact subSameSign_spec x y hx hy hs
  · rw [hexp, if_pos hs]
    obtain ⟨hvd, hnd, hcanon⟩ := addMag_spec x (negB y) hx.1 hy.1
    refine ⟨?_, hcanon⟩
    have hvd' : natValL (addMag x (negB y)).data =
        natValL x.data + natValL y.data := hvd
    have hnd' : (addMag x (negB y)).neg =
        (if natValL x.data + natValL y.data = 0 then false else x.neg) := hnd
    by_cases hz : natValL x.data + natValL y.data = 0
    · have hneg : (addMag x (negB y)).neg = false := by rw [hnd', if_pos hz]
      have hvx : natValL x.data = 0 := by omega
      have hvy : natValL y.data = 0 := by omega
      cases hxn : x.neg <;> cases hyn : y.neg <;>
        simp [Bignum.val, hneg, hvd', hvx, hvy, hxn, hyn]
    · have hneg : (addMag x (negB y)).neg = x.neg := by rw [hnd', if_neg hz]
      have hyn : y.neg = !x.neg := by
        cases hxn : x.neg <;> cases hyn2 : y.neg <;> simp [hxn, hyn2] at hs ⊢
      cases hxn : x.neg
      · have hyn' : y.neg = true := by simp [hyn, hxn]
        rw [Bignum.val, hneg, hxn, hvd']
        simp only [Bignum.val, hyn', hxn, Bool.false_eq_true, if_false, if_true]
        push_cast
        ring
      · have hyn' : y.neg = false := by simp [hyn, hxn]
        rw [Bignum.val, hneg, hxn, hvd']
        simp only [Bignum.val, hyn', hxn, Bool.false_eq_true, if_false, if_true]
        push_cast
        ring

/-! ## DDproduct exactness -/

theorem DDproduct_spec (A Bv : Nat) (hA : A < B32) (hB : Bv < B32) :
    (DDproduct A Bv).1 * B32 + (DDproduct A Bv).2 = A * Bv ∧
    (DDproduct A Bv).1 < B32 ∧ (DDproduct A Bv).2 < B32 := by
  have hr : A * Bv = A / H16 * (Bv / H16) * (H16 * H16)
      + (A % H16 * (Bv / H16) + A / H16 * (Bv % H16)) * H16
      + A % H16 * (Bv % H16) := by
    conv_lhs => rw [← Nat.div_add_mod A H16, ← Nat.div_add_mod Bv H16]
    ring
  simp only [DDproduct]
  rw [hr]
  have hH : H16 = 65536 := rfl
  have hB32n : B32 = 4294967296 := rfl
  have hBH : B32 = H16 * H16 := rfl
  have hloA : A % H16 < H16 := Nat.mod_lt _ (by norm_num [H16])
  have hloB : Bv % H16 < H16 := Nat.mod_lt _ (by norm_num [H16])
  have hhiA : A / H16 < H16 := by
    rw [Nat.div_lt_iff_lt_mul (by norm_num [H16])]
    rw [hBH] at hA
    exact hA
  have hhiB : Bv / H16 < H16 := by
    rw [Nat.div_lt_iff_lt_mul (by norm_num [H16])]
    rw [hBH] at hB
    exact hB
  have p00lt : A % H16 * (Bv % H16) < B32 := by
    rw [hBH]; exact Nat.mul_lt_mul'' hloA hloB
  have p11lt : A / H16 * (Bv / H16) < B32 := by
    rw [hBH]; exact Nat.mul_lt_mul'' hhiA hhiB
  have p01lt : A % H16 * (Bv / H16) < B32 := by
    rw [hBH]; exact Nat.mul_lt_mul'' hloA hhiB
  have p10lt : A / H16 * (Bv % H16) < B32 := by
    rw [hBH]; exact Nat.mul_lt_mul'' hhiA hloB
  have p00le : A % H16 * (Bv % H16) ≤ 65535 * 65535 :=
    Nat.mul_le_mul (by omega) (by omega)
  have p11le : A / H16 * (Bv / H16) ≤ 65535 * 65535 :=
    Nat.mul_le_mul (by omega) (by omega)
  have p01le : A % H16 * (Bv / H16) ≤ 65535 * 65535 :=
    Nat.mul_le_mul (by omega) (by omega)
  have p10le : A / H16 * (Bv % H16) ≤ 65535 * 65535 :=
    Nat.mul_le_mul (by omega) (by omega)
  generalize hP00 : A % H16 * (Bv % H16) = P00
  generalize hP11 : A / H16 * (Bv / H16) = P11
  generalize hP01 : A % H16 * (Bv / H16) = P01
  generalize hP10 : A / H16 * (Bv % H16) = P10
  rw [hP00] at p00lt p00le
  rw [hP11] at p11lt p11le
  rw [hP01] at p01lt p01le
  rw [hP10] at p10lt p10le
  rw [Nat.mod_eq_of_lt p00lt, Nat.mod_eq_of_lt p11lt, Nat.mod_eq_of_lt p01lt,
    Nat.mod_eq_of_lt p10lt]
  simp only [hH, hB32n] at p00lt p11lt p01lt p10lt p00le p11le p01le p10le ⊢
  obtain ⟨q1, r1, hq1, hr1, hd1⟩ :
      ∃ q r, q < 65536 ∧ r < 65536 ∧ P01 = q * 65536 + r :=
    ⟨P01 / 65536, P01 % 65536, by omega, by omega, by omega⟩
  obtain ⟨q2, r2, hq2, hr2, hd2⟩ :
      ∃ q r, q < 65536 ∧ r < 65536 ∧ P10 = q * 65536 + r :=
    ⟨P10 / 65536, P10 % 65536, by omega, by omega, by omega⟩
  subst hd1
  subst hd2
  split_ifs <;> omega

/-! ## Multiplication by a single digit -/

theorem mulDigitLoop_spec : ∀ (l : List Nat) (y c : Nat),
    (∀ d ∈ l, d < B32) → y < B32 → c < B32 →
    (mulDigitLoop l y c).length = l.length + 1 ∧
    (∀ d ∈ mulDigitLoop l y c, d < B32) ∧
    natValL (mulDigitLoop l y c) = natValL l * y + c := by
  intro l
  induction l with
  | nil =>
      intro y c _ hy hc
      refine ⟨rfl, ?_, ?_⟩
      · intro d hd
        rcases List.mem_cons.mp hd with h1 | h2
        · subst h1; exact hc
        · simp at h2
      · simp [mulDigitLoop, natValL_cons, natValL_nil]
  | cons dig rest ih =>
      intro y c hl hy hc
      have hdig : dig < B32 := hl dig (by simp)
      have hrest : ∀ d ∈ rest, d < B32 := fun d hd => hl d (by simp [hd])
      have hstep : mulDigitLoop (dig :: rest) y c =
          ((DDproduct dig y).2 + c) % B32 ::
            mulDigitLoop rest y (((DDproduct dig y).1 +
              (if ((DDproduct dig y).2 + c) % B32 < (DDproduct dig y).2 then 1
               else 0)) % B32) := rfl
      obtain ⟨hdd, hHi, hLo⟩ := DDproduct_spec dig y hdig hy
      have hB : B32 = 4294967296 := rfl
      have hmul : dig * y ≤ (B32 - 1) * (B32 - 1) :=
        Nat.mul_le_mul (by omega) (by omega)
      have hHi2 : (DDproduct dig y).1 ≤ B32 - 2 := by
        simp only [hB] at hdd hmul ⊢
        omega
      have hcar : ((DDproduct dig y).1 +
          (if ((DDproduct dig y).2 + c) % B32 < (DDproduct dig y).2 then 1
           else 0)) % B32 =
          (DDproduct dig y).1 +
          (if ((DDproduct dig y).2 + c) % B32 < (DDproduct dig y).2 then 1
           else 0) := by
        apply Nat.mod_eq_of_lt
        split <;> (simp only [hB] at hHi2 ⊢; omega)
      have hkey : ((DDproduct dig y).2 + c) % B32 +
          B32 * (if ((DDproduct dig y).2 + c) % B32 < (DDproduct dig y).2 then 1
            else 0) = (DDproduct dig y).2 + c := by
        simp only [hB] at hLo hc ⊢
        split <;> omega
      rw [hstep, hcar]
      obtain ⟨hl2, hw2, hv2⟩ := ih y ((DDproduct dig y).1 +
          (if ((DDproduct dig y).2 + c) % B32 < (DDproduct dig y).2 then 1 else 0))
        hrest hy (by simp only [hB] at hHi2 ⊢; split <;> omega)
      refine ⟨by simp [hl2], ?_, ?_⟩
      · intro d hd
        rcases List.mem_cons.mp hd with h1 | h2
        · subst h1; simp only [hB]; omega
        · exact hw2 d h2
      · rw [natValL_cons, hv2, natValL_cons]
        calc ((DDproduct dig y).2 + c) % B32 +
              B32 * (natValL rest * y + ((DDproduct dig y).1 +
                (if ((DDproduct dig y).2 + c) % B32 < (DDproduct dig y).2 then 1
                 else 0)))
            = (((DDproduct dig y).2 + c) % B32 +
                B32 * (if ((DDproduct dig y).2 + c) % B32 < (DDproduct dig y).2
                  then 1 else 0)) +
              B32 * (DDproduct dig y).1 + B32 * (natValL rest * y) := by ring
          _ = ((DDproduct dig y).2 + c) +
              B32 * (DDproduct dig y).1 + B32 * (natValL rest * y) := by rw [hkey]
          _ = ((DDproduct dig y).1 * B32 + (DDproduct dig y).2) + c +
              B32 * (natValL rest * y) := by ring
          _ = dig * y + c + B32 * (natValL rest * y) := by rw [hdd]
          _ = (dig + B32 * natValL rest) * y + c := by ring

theorem mulUnsigned_spec (x : Bignum) (y : Nat) (hx : Wf x) :
    natValL (mulUnsigned x y).data = natValL x.data * (y % B32) ∧
    (mulUnsigned x y).neg =
      (if natValL x.data * (y % B32) = 0 then false else x.neg) ∧
    Canon (mulUnsigned x y) := by
  have hy : y % B32 < B32 := Nat.mod_lt _ (by norm_num [B32])
  obtain ⟨hl, hw, hv⟩ := mulDigitLoop_spec x.data (y % B32) 0 hx hy
    (by norm_num [B32])
  have hwrec : Wf { neg := x.neg, data := mulDigitLoop x.data (y % B32) 0 } := hw
  obtain ⟨hrv, hrn, hrc⟩ :=
    reduce_spec { neg := x.neg, data := mulDigitLoop x.data (y % B32) 0 } hwrec
  have hv0 : natValL (mulDigitLoop x.data (y % B32) 0) =
      natValL x.data * (y % B32) := by rw [hv]; ring
  rw [hv0] at hrv hrn
  exact ⟨hrv, hrn, hrc⟩

/-! ## Bitwise helper and DDquotient loop correctness -/

theorem or_mul_pow_add : ∀ (k a b : Nat), b < 2 ^ k → (2 ^ k * a) ||| b = 2 ^ k * a + b := by
  intro k
  induction k with
  | zero =>
      intro a b hb
      have hb0 : b = 0 := by omega
      subst hb0
      simp
  | succ k ih =>
      intro a b hb
      obtain ⟨b', r, hr, rfl⟩ : ∃ b' r, r < 2 ∧ b = 2 * b' + r :=
        ⟨b / 2, b % 2, by omega, by omega⟩
      have hb' : b' < 2 ^ k := by
        have h2 : 2 ^ (k + 1) = 2 * 2 ^ k := by ring
        omega
      have hsplit : 2 ^ (k + 1) * a = 2 * (2 ^ k * a) := by ring
      have hbitf : ∀ m : Nat, Nat.bit false m = 2 * m := by
        intro m; simp [Nat.bit_val]
      have hbitt : ∀ m : Nat, Nat.bit true m = 2 * m + 1 := by
        intro m; simp [Nat.bit_val]
      interval_cases r
      · rw [hsplit, show 2 * b' + 0 = 2 * b' from by ring,
          ← hbitf (2 ^ k * a), ← hbitf b', Nat.lor_bit, hbitf]
        rw [ih a b' hb']
        simp
        ring
      · rw [hsplit, ← hbitf (2 ^ k * a), ← hbitt b', Nat.lor_bit, hbitt]
        rw [ih a b' hb']
        simp
        ring

theorem dwordSubGen (A Bv sv t : Nat) (hA : A < B32) (hBv : Bv < B32) (ht : t < B32)
    (hs : sv + (if (Bv + B32 - t) % B32 > Bv then 1 else 0) < B32)
    (hunder : sv * B32 + t ≤ A * B32 + Bv) :
    ((A + B32 - (sv + (if (Bv + B32 - t) % B32 > Bv then 1 else 0)) % B32) % B32) * B32 +
      (Bv + B32 - t) % B32 = (A * B32 + Bv) - (sv * B32 + t) ∧
    (A + B32 - (sv + (if (Bv + B32 - t) % B32 > Bv then 1 else 0)) % B32) % B32 < B32 ∧
    (Bv + B32 - t) % B32 < B32 := by
  have hB : B32 = 4294967296 := rfl
  by_cases hc : (Bv + B32 - t) % B32 > Bv
  · simp only [if_pos hc] at hs ⊢
    simp only [hB] at hA hBv ht hs hunder hc ⊢
    omega
  · simp only [if_neg hc] at hs ⊢
    simp only [hB] at hA hBv ht hs hunder hc ⊢
    omega

theorem ddqLoop1_spec : ∀ (f A Bv qHi dHi dLo1 : Nat),
    A < B32 → Bv < B32 → dHi < B32 → dLo1 < B32 →
    0 < dHi * B32 + dLo1 →
    qHi + (A * B32 + Bv) / (dHi * B32 + dLo1) < B32 →
    (A * B32 + Bv) / (dHi * B32 + dLo1) < f →
    ∃ A2 B2, ddqLoop1 f A Bv dHi dLo1 qHi =
        (A2, B2, qHi + (A * B32 + Bv) / (dHi * B32 + dLo1)) ∧
      A2 < B32 ∧ B2 < B32 ∧
      A2 * B32 + B2 = (A * B32 + Bv) % (dHi * B32 + dLo1) := by
  intro f
  induction f with
  | zero =>
      intro A Bv qHi dHi dLo1 _ _ _ _ _ _ hf
      exact absurd hf (Nat.not_lt_zero _)
  | succ f ih =>
      intro A Bv qHi dHi dLo1 hA hBv hdHi hdLo1 hD hq hf
      have hB : B32 = 4294967296 := rfl
      by_cases hND : A * B32 + Bv < dHi * B32 + dLo1
      · have ht : (A * B32 + Bv) / (dHi * B32 + dLo1) = 0 := Nat.div_eq_of_lt hND
        have hcond : ¬ (A > dHi ∨ (A = dHi ∧ Bv ≥ dLo1)) := by
          intro h
          rcases h with h | ⟨h1, h2⟩
          · have hmul : dHi * B32 + B32 ≤ A * B32 := by
              calc dHi * B32 + B32 = (dHi + 1) * B32 := by ring
                _ ≤ A * B32 := Nat.mul_le_mul_right _ (by omega)
            omega
          · subst h1
            omega
        have hstep : ddqLoop1 (f + 1) A Bv dHi dLo1 qHi = (A, Bv, qHi) := by
          simp only [ddqLoop1]
          rw [if_neg hcond]
        refine ⟨A, Bv, ?_, hA, hBv, ?_⟩
        · rw [hstep, ht]
          rfl
        · rw [Nat.mod_eq_of_lt hND]
      · push_neg at hND
        have hcond : A > dHi ∨ (A = dHi ∧ Bv ≥ dLo1) := by
          rcases Nat.lt_trichotomy A dHi with h | h | h
          · exfalso
            have hmul : A * B32 + B32 ≤ dHi * B32 := by
              calc A * B32 + B32 = (A + 1) * B32 := by ring
                _ ≤ dHi * B32 := Nat.mul_le_mul_right _ (by omega)
            omega
          · subst h
            by_cases hBd : Bv ≥ dLo1
            · exact Or.inr ⟨rfl, hBd⟩
            · exfalso
              omega
          · exact Or.inl h
        have hstep : ddqLoop1 (f + 1) A Bv dHi dLo1 qHi =
            ddqLoop1 f ((A + B32 - (dHi +
                (if (Bv + B32 - dLo1) % B32 > Bv then 1 else 0)) % B32) % B32)
              ((Bv + B32 - dLo1) % B32) dHi dLo1 ((qHi + 1) % B32) := by
          simp only [ddqLoop1]
          rw [if_pos hcond]
        have hnw : dHi + (if (Bv + B32 - dLo1) % B32 > Bv then 1 else 0) < B32 := by
          rcases hcond with h | ⟨h1, h2⟩
          · split <;> omega
          · subst h1
            have hc0 : ¬ ((Bv + B32 - dLo1) % B32 > Bv) := by
              simp only [hB] at hBv hdLo1 h2 ⊢
              omega
            simp only [if_neg hc0]
            omega
        obtain ⟨hNsub, hA'lt, hxlt⟩ := dwordSubGen A Bv dHi dLo1 hA hBv hdLo1 hnw hND
        have hdiv : (A * B32 + Bv) / (dHi * B32 + dLo1) =
            ((A * B32 + Bv) - (dHi * B32 + dLo1)) / (dHi * B32 + dLo1) + 1 := by
          conv_lhs => rw [show A * B32 + Bv =
            ((A * B32 + Bv) - (dHi * B32 + dLo1)) + (dHi * B32 + dLo1) from by omega]
          rw [Nat.add_div_right _ hD]
        have hmod : (A * B32 + Bv) % (dHi * B32 + dLo1) =
            ((A * B32 + Bv) - (dHi * B32 + dLo1)) % (dHi * B32 + dLo1) := by
          conv_lhs => rw [show A * B32 + Bv =
            ((A * B32 + Bv) - (dHi * B32 + dLo1)) + (dHi * B32 + dLo1) from by omega]
          rw [Nat.add_mod_right]
        have hone : 1 ≤ (A * B32 + Bv) / (dHi * B32 + dLo1) :=
          (Nat.one_le_div_iff hD).mpr hND
        have hq1 : (qHi + 1) % B32 = qHi + 1 := Nat.mod_eq_of_lt (by omega)
        obtain ⟨Y, hY⟩ : ∃ Y, ((A * B32 + Bv) - (dHi * B32 + dLo1)) /
            (dHi * B32 + dLo1) = Y := ⟨_, rfl⟩
        rw [hY] at hdiv
        rw [hdiv] at hq hf
        obtain ⟨A2, B2, heq, hA2, hB2, hval⟩ := ih
          ((A + B32 - (dHi +
            (if (Bv + B32 - dLo1) % B32 > Bv then 1 else 0)) % B32) % B32)
          ((Bv + B32 - dLo1) % B32) (qHi + 1) dHi dLo1 hA'lt hxlt hdHi hdLo1 hD
          (by rw [hNsub, hY]; omega) (by rw [hNsub, hY]; omega)
        refine ⟨A2, B2, ?_, hA2, hB2, ?_⟩
        · rw [hstep, hq1, heq]
          have heq2 : qHi + 1 + ((A + B32 - (dHi +
              (if (Bv + B32 - dLo1) % B32 > Bv then 1 else 0)) % B32) % B32 * B32 +
              (Bv + B32 - dLo1) % B32) / (dHi * B32 + dLo1) =
              qHi + (A * B32 + Bv) / (dHi * B32 + dLo1) := by
            rw [hNsub, hY, hdiv]
            omega
          rw [heq2]
        · rw [hval, hNsub, ← hmod]

theorem ddqLoop2_spec : ∀ (f A Bv qLo d : Nat),
    A < B32 → Bv < B32 → 0 < d → d < B32 →
    qLo + (A * B32 + Bv) / d < B32 →
    (A * B32 + Bv) / d < f →
    ∃ A2 B2, ddqLoop2 f A Bv d qLo =
        (A2, B2, qLo + (A * B32 + Bv) / d) ∧
      A2 < B32 ∧ B2 < B32 ∧
      A2 * B32 + B2 = (A * B32 + Bv) % d := by
  intro f
  induction f with
  | zero =>
      intro A Bv qLo d _ _ _ _ _ hf
      exact absurd hf (Nat.not_lt_zero _)
  | succ f ih =>
      intro A Bv qLo d hA hBv hd hdB hq hf
      have hB : B32 = 4294967296 := rfl
      by_cases hND : A * B32 + Bv < d
      · have hA0 : A = 0 := by
          by_contra hc
          have hge : B32 ≤ A * B32 := Nat.le_mul_of_pos_left _ (by omega)
          omega
        have ht : (A * B32 + Bv) / d = 0 := Nat.div_eq_of_lt hND
        have hcond : ¬ (A ≠ 0 ∨ Bv ≥ d) := by
          subst hA0
          simp only [hB] at hND ⊢
          omega
        have hstep : ddqLoop2 (f + 1) A Bv d qLo = (A, Bv, qLo) := by
          simp only [ddqLoop2]
          rw [if_neg hcond]
        refine ⟨A, Bv, ?_, hA, hBv, ?_⟩
        · rw [hstep, ht]
          rfl
        · rw [Nat.mod_eq_of_lt hND]
      · push_neg at hND
        have hcond : A ≠ 0 ∨ Bv ≥ d := by
          by_cases hA0 : A = 0
          · subst hA0
            right
            simpa using hND
          · exact Or.inl hA0
        have hstep : ddqLoop2 (f + 1) A Bv d qLo =
            ddqLoop2 f ((A + B32 -
                (if (Bv + B32 - d % B32) % B32 > Bv then 1 else 0)) % B32)
              ((Bv + B32 - d % B32) % B32) d ((qLo + 1) % B32) := by
          simp only [ddqLoop2]
          rw [if_pos hcond]
        have hNsub : (A + B32 -
              (if (Bv + B32 - d % B32) % B32 > Bv then 1 else 0)) % B32 * B32 +
              (Bv + B32 - d % B32) % B32 =
            (A * B32 + Bv) - d ∧
            (A + B32 -
              (if (Bv + B32 - d % B32) % B32 > Bv then 1 else 0)) % B32 < B32 ∧
            (Bv + B32 - d % B32) % B32 < B32 := by
          by_cases hc : (Bv + B32 - d % B32) % B32 > Bv
          · simp only [if_pos hc]
            simp only [hB] at hA hBv hd hdB hND hc ⊢
            omega
          · simp only [if_neg hc]
            simp only [hB] at hA hBv hd hdB hND hc ⊢
            omega
        obtain ⟨hNsub, hA'lt, hxlt⟩ := hNsub
        have hdiv : (A * B32 + Bv) / d = ((A * B32 + Bv) - d) / d + 1 := by
          conv_lhs => rw [show A * B32 + Bv = ((A * B32 + Bv) - d) + d from by omega]
          rw [Nat.add_div_right _ hd]
        have hmod : (A * B32 + Bv) % d = ((A * B32 + Bv) - d) % d := by
          conv_lhs => rw [show A * B32 + Bv = ((A * B32 + Bv) - d) + d from by omega]
          rw [Nat.add_mod_right]
        have hone : 1 ≤ (A * B32 + Bv) / d := (Nat.one_le_div_iff hd).mpr hND
        have hq1 : (qLo + 1) % B32 = qLo + 1 := Nat.mod_eq_of_lt (by omega)
        obtain ⟨Y, hY⟩ : ∃ Y, ((A * B32 + Bv) - d) / d = Y := ⟨_, rfl⟩
        rw [hY] at hdiv
        rw [hdiv] at hq hf
        obtain ⟨A2, B2, heq, hA2, hB2, hval⟩ := ih
          ((A + B32 - (if (Bv + B32 - d % B32) % B32 > Bv then 1 else 0)) % B32)
          ((Bv + B32 - d % B32) % B32) (qLo + 1) d hA'lt hxlt hd hdB
          (by rw [hNsub, hY]; omega) (by rw [hNsub, hY]; omega)
        refine ⟨A2, B2, ?_, hA2, hB2, ?_⟩
        · rw [hstep, hq1, heq]
          have heq2 : qLo + 1 + ((A + B32 -
              (if (Bv + B32 - d % B32) % B32 > Bv then 1 else 0)) % B32 * B32 +
              (Bv + B32 - d % B32) % B32) / d =
              qLo + (A * B32 + Bv) / d := by
            rw [hNsub, hY, hdiv]
            omega
          rw [heq2]
        · rw [hval, hNsub, ← hmod]

theorem dwordSub0 (A Bv t : Nat) (hA : A < B32) (hBv : Bv < B32) (ht : t < B32)
    (hunder : t ≤ A * B32 + Bv) :
    ((A + B32 - (if (Bv + B32 - t) % B32 > Bv then 1 else 0)) % B32) * B32 +
      (Bv + B32 - t) % B32 = (A * B32 + Bv) - t ∧
    (A + B32 - (if (Bv + B32 - t) % B32 > Bv then 1 else 0)) % B32 < B32 ∧
    (Bv + B32 - t) % B32 < B32 := by
  have hB : B32 = 4294967296 := rfl
  by_cases hc : (Bv + B32 - t) % B32 > Bv
  · simp only [if_pos hc]
    simp only [hB] at hA hBv ht hunder hc ⊢
    omega
  · simp only [if_neg hc]
    simp only [hB] at hA hBv ht hunder hc ⊢
    omega

theorem two_stage_div (N d : Nat) (hd : 0 < d) :
    N / d = H16 * (N / (d * H16)) + (N % (d * H16)) / d := by
  conv_lhs => rw [← Nat.div_add_mod N (d * H16)]
  rw [show d * H16 * (N / (d * H16)) = (H16 * (N / (d * H16))) * d from by ring,
    Nat.add_comm, Nat.add_mul_div_right _ _ hd, Nat.add_comm]

theorem DDquotient_exact (A0 B0 d : Nat) (hA0d : A0 < d) (hd : d < B32)
    (hB0 : B0 < B32) :
    DDquotient A0 B0 d = (A0 * B32 + B0) / d := by
  have hB : B32 = 4294967296 := rfl
  have hH : H16 = 65536 := rfl
  have hBH : B32 = H16 * H16 := rfl
  have hd0 : 0 < d := by omega
  have hA0 : A0 < B32 := by omega
  simp only [DDquotient]
  -- name the pieces
  generalize g1 : d / H16 = dHi
  generalize g2 : d % H16 = dLo
  have hdsplit : dHi * H16 + dLo = d := by
    rw [← g1, ← g2, Nat.mul_comm, Nat.div_add_mod]
  have hdLoH : dLo < H16 := by rw [← g2]; exact Nat.mod_lt _ (by norm_num [H16])
  have hdHiH : dHi < H16 := by
    rw [← g1, Nat.div_lt_iff_lt_mul (by norm_num [H16])]
    rw [hBH] at hd
    exact hd
  generalize g3 : A0 / (dHi + 1) = qh0
  have hqh0d : qh0 * (dHi + 1) ≤ A0 := by rw [← g3]; exact Nat.div_mul_le_self _ _
  have hqh0H : qh0 < H16 := by
    rw [← g3, Nat.div_lt_iff_lt_mul (by omega)]
    have : d ≤ H16 * (dHi + 1) := by
      calc d = dHi * H16 + dLo := hdsplit.symm
        _ ≤ dHi * H16 + H16 := by omega
        _ = H16 * (dHi + 1) := by ring
    omega
  have hmidlt : qh0 * dLo < B32 := by
    rw [hBH]; exact Nat.mul_lt_mul'' hqh0H hdLoH
  have hlftlt : qh0 * dHi < B32 := by
    rw [hBH]; exact Nat.mul_lt_mul'' hqh0H hdHiH
  rw [Nat.mod_eq_of_lt hmidlt, Nat.mod_eq_of_lt hlftlt]
  generalize g4 : qh0 * dLo = mid
  generalize g5 : qh0 * dHi = lft
  have hmidB : mid < B32 := g4 ▸ hmidlt
  have hlftB : lft < B32 := g5 ▸ hlftlt
  have ht1 : (mid * H16) % B32 = mid % H16 * H16 := by
    simp only [hB, hH] at hmidB ⊢
    omega
  rw [ht1]
  generalize g6 : mid % H16 * H16 = t1
  have ht1B : t1 < B32 := by
    rw [← g6]
    simp only [hB, hH]
    omega
  -- total subtracted in stage-1 presubtraction
  have hS1 : (mid / H16 + lft) * B32 + t1 = qh0 * d * H16 := by
    have hm : mid / H16 * H16 + mid % H16 = mid := Nat.div_add_mod' _ _
    calc (mid / H16 + lft) * B32 + t1
        = (mid / H16 * H16 + mid % H16) * H16 + lft * (H16 * H16) := by
          rw [← g6, hBH]; ring
      _ = mid * H16 + lft * (H16 * H16) := by rw [hm]
      _ = qh0 * dLo * H16 + qh0 * dHi * (H16 * H16) := by rw [g4, g5]
      _ = qh0 * (dHi * H16 + dLo) * H16 := by ring
      _ = qh0 * d * H16 := by rw [hdsplit]
  have hunder1 : (mid / H16 + lft) * B32 + t1 ≤ A0 * B32 + B0 := by
    rw [hS1]
    calc qh0 * d * H16 ≤ qh0 * (H16 * (dHi + 1)) * H16 := by
          have hdle : d ≤ H16 * (dHi + 1) := by
            calc d = dHi * H16 + dLo := hdsplit.symm
              _ ≤ dHi * H16 + H16 := by omega
              _ = H16 * (dHi + 1) := by ring
          exact Nat.mul_le_mul_right _ (Nat.mul_le_mul_left _ hdle)
      _ = qh0 * (dHi + 1) * (H16 * H16) := by ring
      _ ≤ A0 * B32 := by rw [hBH]; exact Nat.mul_le_mul_right _ hqh0d
      _ ≤ A0 * B32 + B0 := by omega
  have hnw1 : mid / H16 + lft +
      (if (B0 + B32 - t1) % B32 > B0 then 1 else 0) < B32 := by
    have h1 : mid / H16 < H16 := by
      have : mid < B32 := hmidB
      rw [Nat.div_lt_iff_lt_mul (by norm_num [H16])]
      rw [hBH] at this
      exact this
    have h2 : lft < B32 := hlftB
    simp only [hB, hH] at h1 h2 ⊢
    have h3 : lft ≤ 65535 * 65535 := by
      rw [← g5]
      have := Nat.mul_le_mul (show qh0 ≤ 65535 by simp only [hH] at hqh0H; omega)
        (show dHi ≤ 65535 by simp only [hH] at hdHiH; omega)
      omega
    split <;> omega
  obtain ⟨hsub1, hA1B, hx0B⟩ := dwordSubGen A0 B0 (mid / H16 + lft) t1 hA0 hB0 ht1B hnw1 hunder1
  generalize g7 : (B0 + B32 - t1) % B32 = x0v at hsub1 hA1B hx0B ⊢
  generalize g8 : (A0 + B32 - (mid / H16 + lft +
      (if x0v > B0 then 1 else 0)) % B32) % B32 = A1v at hsub1 hA1B ⊢
  rw [hS1] at hsub1
  have ht2 : (dLo * H16) % B32 = dLo * H16 := by
    apply Nat.mod_eq_of_lt
    simp only [hB, hH] at hdLoH ⊢
    omega
  rw [ht2]
  generalize g9 : dLo * H16 = dLo1v
  have hdLo1B : dLo1v < B32 := by
    rw [← g9]
    simp only [hB, hH] at hdLoH ⊢
    omega
  have hD1 : dHi * B32 + dLo1v = d * H16 := by
    rw [← g9, ← hdsplit, hBH]
    ring
  have hH16pos : 0 < H16 := by rw [hH]; omega
  have hdH16pos : 0 < d * H16 := Nat.mul_pos hd0 hH16pos
  have hD1pos : 0 < dHi * B32 + dLo1v := by rw [hD1]; exact hdH16pos
  -- value of the normalized numerator
  have hN1 : A1v * B32 + x0v = (A0 * B32 + B0) - qh0 * (d * H16) := by
    have hco : qh0 * d * H16 = qh0 * (d * H16) := by ring
    rw [hsub1, hco]
  have hNlt : A0 * B32 + B0 < d * B32 := by
    have h1 : (A0 + 1) * B32 ≤ d * B32 := Nat.mul_le_mul_right _ (by omega)
    have h2 : A0 * B32 + B32 = (A0 + 1) * B32 := by ring
    omega
  have hQHlt : (A0 * B32 + B0) / (d * H16) < H16 := by
    rw [Nat.div_lt_iff_lt_mul hdH16pos]
    calc A0 * B32 + B0 < d * B32 := hNlt
      _ = H16 * (d * H16) := by rw [hBH]; ring
  have hdivshift : qh0 + (A1v * B32 + x0v) / (dHi * B32 + dLo1v) =
      (A0 * B32 + B0) / (d * H16) := by
    rw [hN1, hD1]
    have : A0 * B32 + B0 = ((A0 * B32 + B0) - qh0 * (d * H16)) + qh0 * (d * H16) := by
      have := hunder1
      rw [hS1] at this
      have h2 : qh0 * (d * H16) = qh0 * d * H16 := by ring
      omega
    conv_rhs => rw [this]
    rw [Nat.add_mul_div_right _ _ hdH16pos]
    ring
  have hmodshift : (A1v * B32 + x0v) % (dHi * B32 + dLo1v) =
      (A0 * B32 + B0) % (d * H16) := by
    rw [hN1, hD1]
    have : A0 * B32 + B0 = ((A0 * B32 + B0) - qh0 * (d * H16)) + qh0 * (d * H16) := by
      have := hunder1
      rw [hS1] at this
      have h2 : qh0 * (d * H16) = qh0 * d * H16 := by ring
      omega
    conv_rhs => rw [this]
    rw [Nat.mul_comm qh0 (d * H16), Nat.add_mul_mod_self_left]
  obtain ⟨A2v, B2v, heq1, hA2B, hB2B, hval1⟩ :=
    ddqLoop1_spec (2 ^ 17 + 8) A1v x0v qh0 dHi dLo1v hA1B hx0B (by omega) hdLo1B hD1pos
      (by rw [hdivshift]; simp only [hB, hH] at hQHlt ⊢; omega)
      (by
        have h1 : (A1v * B32 + x0v) / (dHi * B32 + dLo1v) ≤
            qh0 + (A1v * B32 + x0v) / (dHi * B32 + dLo1v) := by omega
        rw [hdivshift] at h1
        simp only [hB, hH] at h1 hQHlt ⊢
        omega)
  rw [heq1]
  dsimp only
  rw [hdivshift]
  have hM : A2v * B32 + B2v = (A0 * B32 + B0) % (d * H16) := by
    rw [hval1, hmodshift]
  -- stage 2
  have hMlt : (A0 * B32 + B0) % (d * H16) < d * H16 := Nat.mod_lt _ hdH16pos
  have hA2dHi : A2v ≤ dHi := by
    have h1 := hM
    have h2 := hMlt
    rw [← hD1] at h1 h2
    simp only [hB] at h1 h2 hdLo1B ⊢
    omega
  have hB2H : B2v / H16 < 2 ^ 16 := by
    simp only [hB, hH] at hB2B ⊢
    omega
  have hA2H16 : (A2v * H16) % B32 = A2v * H16 := by
    apply Nat.mod_eq_of_lt
    simp only [hB, hH] at hdHiH hA2dHi ⊢
    omega
  rw [hA2H16, show A2v * H16 = 2 ^ 16 * A2v from by rw [hH]; ring,
    or_mul_pow_add 16 A2v (B2v / H16) hB2H]
  generalize gql : (2 ^ 16 * A2v + B2v / H16) / (dHi + 1) = ql0
  have hqlval : ql0 * (dHi + 1) ≤ 2 ^ 16 * A2v + B2v / H16 := by
    rw [← gql]; exact Nat.div_mul_le_self _ _
  have hdecomp : 2 ^ 16 * A2v + B2v / H16 = ((A0 * B32 + B0) % (d * H16)) / H16 := by
    have h1 := hM
    simp only [hB, hH] at h1 hB2B ⊢
    omega
  have hMdivH_lt : ((A0 * B32 + B0) % (d * H16)) / H16 < d := by
    rw [Nat.div_lt_iff_lt_mul hH16pos]
    exact hMlt
  have hdle : d ≤ H16 * (dHi + 1) := by
    calc d = dHi * H16 + dLo := hdsplit.symm
      _ ≤ dHi * H16 + H16 := by omega
      _ = H16 * (dHi + 1) := by ring
  have hqlH : ql0 < H16 := by
    rw [← gql, Nat.div_lt_iff_lt_mul (by omega : 0 < dHi + 1)]
    rw [hdecomp]
    calc ((A0 * B32 + B0) % (d * H16)) / H16 < d := hMdivH_lt
      _ ≤ H16 * (dHi + 1) := hdle
  have hqlund : ql0 * d ≤ (A0 * B32 + B0) % (d * H16) := by
    calc ql0 * d ≤ ql0 * (H16 * (dHi + 1)) := Nat.mul_le_mul_left _ hdle
      _ = ql0 * (dHi + 1) * H16 := by ring
      _ ≤ (2 ^ 16 * A2v + B2v / H16) * H16 := Nat.mul_le_mul_right _ hqlval
      _ = ((A0 * B32 + B0) % (d * H16)) / H16 * H16 := by rw [hdecomp]
      _ ≤ (A0 * B32 + B0) % (d * H16) := Nat.div_mul_le_self _ _
  have hrlt : ql0 * dLo < B32 := by rw [hBH]; exact Nat.mul_lt_mul'' hqlH hdLoH
  have hm2lt : ql0 * dHi < B32 := by rw [hBH]; exact Nat.mul_lt_mul'' hqlH hdHiH
  rw [Nat.mod_eq_of_lt hrlt, Nat.mod_eq_of_lt hm2lt]
  generalize gr : ql0 * dLo = rgt
  generalize gm2 : ql0 * dHi = m2
  have hrgtB : rgt < B32 := gr ▸ hrlt
  have hm2B : m2 < B32 := gm2 ▸ hm2lt
  have hundera : rgt ≤ A2v * B32 + B2v := by
    rw [hM, ← gr]
    calc ql0 * dLo ≤ ql0 * d := Nat.mul_le_mul_left _ (by omega)
      _ ≤ (A0 * B32 + B0) % (d * H16) := hqlund
  obtain ⟨hsuba, hA3B, hx1B⟩ := dwordSub0 A2v B2v rgt hA2B hB2B hrgtB hundera
  generalize g10 : (B2v + B32 - rgt) % B32 = x1v
  rw [g10] at hsuba hA3B hx1B
  generalize g11 : (A2v + B32 - (if x1v > B2v then 1 else 0)) % B32 = A3v
  rw [g11] at hsuba hA3B
  have ht3 : (m2 * H16) % B32 = m2 % H16 * H16 := by
    simp only [hB, hH] at hm2B ⊢
    omega
  rw [ht3]
  generalize g12 : m2 % H16 * H16 = t3
  have ht3B : t3 < B32 := by
    rw [← g12]
    simp only [hB, hH]
    omega
  have hS2 : m2 / H16 * B32 + t3 = m2 * H16 := by
    have hmm := Nat.div_add_mod' m2 H16
    calc m2 / H16 * B32 + t3 = (m2 / H16 * H16 + m2 % H16) * H16 := by
          rw [← g12, hBH]; ring
      _ = m2 * H16 := by rw [hmm]
  have hqld2 : rgt + m2 * H16 = ql0 * d := by
    rw [← gr, ← gm2, ← hdsplit]; ring
  have hunderb : m2 / H16 * B32 + t3 ≤ A3v * B32 + x1v := by
    rw [hS2, hsuba, hM]
    omega
  have hnwb : m2 / H16 + (if (x1v + B32 - t3) % B32 > x1v then 1 else 0) < B32 := by
    have hm2d : m2 / H16 < H16 := by
      simp only [hB, hH] at hm2B ⊢
      omega
    simp only [hB, hH] at hm2d ⊢
    split <;> omega
  obtain ⟨hsubb, hA4B, hx2B⟩ :=
    dwordSubGen A3v x1v (m2 / H16) t3 hA3B hx1B ht3B hnwb hunderb
  generalize g13 : (x1v + B32 - t3) % B32 = x2v
  rw [g13] at hsubb hA4B hx2B
  generalize g14 : (A3v + B32 - (m2 / H16 +
      (if x2v > x1v then 1 else 0)) % B32) % B32 = A4v
  rw [g14] at hsubb hA4B
  have hval2 : A4v * B32 + x2v = (A0 * B32 + B0) % (d * H16) - ql0 * d := by
    rw [hsubb, hS2, hsuba, hM]
    omega
  have hdivshift2 : ql0 + (A4v * B32 + x2v) / d = ((A0 * B32 + B0) % (d * H16)) / d := by
    rw [hval2]
    have heqM : (A0 * B32 + B0) % (d * H16) =
        ((A0 * B32 + B0) % (d * H16) - ql0 * d) + ql0 * d := by omega
    conv_rhs => rw [heqM]
    rw [Nat.add_mul_div_right _ _ hd0]
    ring
  have hQLlt : ((A0 * B32 + B0) % (d * H16)) / d < H16 := by
    rw [Nat.div_lt_iff_lt_mul hd0]
    calc (A0 * B32 + B0) % (d * H16) < d * H16 := hMlt
      _ = H16 * d := by ring
  obtain ⟨A5v, B5v, heq2, hA5B, hB5B, hval3⟩ :=
    ddqLoop2_spec (2 ^ 33 + 8) A4v x2v ql0 d hA4B hx2B hd0 hd
      (by rw [hdivshift2]; simp only [hB, hH] at hQLlt ⊢; omega)
      (by
        have h1 : (A4v * B32 + x2v) / d ≤ ql0 + (A4v * B32 + x2v) / d := by omega
        rw [hdivshift2] at h1
        simp only [hB, hH] at h1 hQLlt ⊢
        omega)
  rw [heq2]
  dsimp only
  rw [hdivshift2]
  have hQHH : ((A0 * B32 + B0) / (d * H16) * H16) % B32 =
      (A0 * B32 + B0) / (d * H16) * H16 := by
    apply Nat.mod_eq_of_lt
    simp only [hB, hH] at hQHlt ⊢
    omega
  rw [hQHH]
  have hfin : (A0 * B32 + B0) / (d * H16) * H16 +
      ((A0 * B32 + B0) % (d * H16)) / d < B32 := by
    simp only [hB, hH] at hQHlt hQLlt ⊢
    omega
  rw [Nat.mod_eq_of_lt hfin]
  rw [show (A0 * B32 + B0) / (d * H16) * H16 =
    H16 * ((A0 * B32 + B0) / (d * H16)) from Nat.mul_comm _ _]
  rw [← two_stage_div (A0 * B32 + B0) d hd0]

/-! ## subtractmul correctness -/

theorem submulLoop_spec : ∀ (bs a : List Nat) (q c : Nat),
    a.length = bs.length + 1 →
    (∀ d ∈ a, d < B32) → (∀ d ∈ bs, d < B32) → q < B32 → c ≤ 1 →
    (c = 1 → 1 ≤ a.headD 0) →
    (submulLoop a bs q c).1.length = a.length ∧
    (∀ d ∈ (submulLoop a bs q c).1, d < B32) ∧
    (submulLoop a bs q c).2 ≤ 1 ∧
    natValL (submulLoop a bs q c).1 + q * natValL bs + B32 * c =
      natValL a + B32 ^ a.length * (submulLoop a bs q c).2 := by
  intro bs
  induction bs with
  | nil =>
      intro a q c hlen ha hbs hq hc hch
      match a, hlen with
      | [a0], _ =>
      have hstep : submulLoop [a0] [] q c = ([a0], c) := rfl
      rw [hstep]
      refine ⟨rfl, ha, hc, ?_⟩
      rw [natValL_nil]
      simp only [List.length_singleton, pow_one]
      ring
  | cons bi bs ih =>
      intro a q c hlen ha hbs hq hc hch
      have hbi : bi < B32 := hbs bi (by simp)
      have hbs2 : ∀ d ∈ bs, d < B32 := fun d hd => hbs d (by simp [hd])
      match a, hlen with
      | a0 :: a1 :: arest, hlen =>
      have hlen2 : (a1 :: arest).length = bs.length + 1 := by simpa using hlen
      have ha0 : a0 < B32 := ha a0 (by simp)
      have ha1 : a1 < B32 := ha a1 (by simp)
      have harest : ∀ d ∈ arest, d < B32 := fun d hd => ha d (by simp [hd])
      have hB : B32 = 4294967296 := rfl
      obtain ⟨Hi, Lo, hp⟩ : ∃ Hi Lo, DDproduct bi q = (Hi, Lo) := ⟨_, _, rfl⟩
      obtain ⟨hdd, hHiB, hLoB⟩ := DDproduct_spec bi q hbi hq
      rw [hp] at hdd hHiB hLoB
      dsimp only at hdd hHiB hLoB
      have hmul : bi * q ≤ (B32 - 1) * (B32 - 1) :=
        Nat.mul_le_mul (by omega) (by omega)
      have hHi2 : Hi ≤ B32 - 2 := by
        simp only [hB] at hdd hmul ⊢
        omega
      have hstep : submulLoop (a0 :: a1 :: arest) (bi :: bs) q c =
          ((a0 + B32 - (DDproduct bi q).2) % B32 ::
            (submulLoop ((a1 + B32 - ((DDproduct bi q).1 +
              (c + (if (a0 + B32 - (DDproduct bi q).2) % B32 > a0 then 1 else 0))) %
                B32) % B32 :: arest) bs q
              (if (a1 + B32 - ((DDproduct bi q).1 +
                (c + (if (a0 + B32 - (DDproduct bi q).2) % B32 > a0 then 1 else 0))) %
                  B32) % B32 > a1 then 1 else 0)).1,
            (submulLoop ((a1 + B32 - ((DDproduct bi q).1 +
              (c + (if (a0 + B32 - (DDproduct bi q).2) % B32 > a0 then 1 else 0))) %
                B32) % B32 :: arest) bs q
              (if (a1 + B32 - ((DDproduct bi q).1 +
                (c + (if (a0 + B32 - (DDproduct bi q).2) % B32 > a0 then 1 else 0))) %
                  B32) % B32 > a1 then 1 else 0)).2) := rfl
      rw [hstep, hp]
      dsimp only
      generalize gA0 : (a0 + B32 - Lo) % B32 = a0v
      generalize gi0 : (if a0v > a0 then 1 else 0) = i0
      have hi0le : i0 ≤ 1 := by rw [← gi0]; split <;> omega
      have ha0spec : a0v + Lo = a0 + B32 * i0 := by
        by_cases h : a0v > a0
        · rw [if_pos h] at gi0
          simp only [hB] at ha0 hLoB gA0 ⊢
          omega
        · rw [if_neg h] at gi0
          simp only [hB] at ha0 hLoB gA0 ⊢
          omega
      have ha0vB : a0v < B32 := by
        rw [← gA0]
        simp only [hB]
        omega
      have hslt : Hi + (c + i0) < B32 := by
        by_cases hcc : c = 1
        · have ha0pos : 1 ≤ a0 := hch hcc
          by_cases hii : i0 = 1
          · -- both carries: then a0 < Lo, and Hi = B32 - 2 would force Lo ≤ 1
            have h1 : a0 < Lo := by
              subst hii
              simp only [hB] at ha0spec ha0vB ⊢
              omega
            simp only [hB] at hdd hmul hHi2 h1 ha0pos ⊢
            omega
          · have : i0 = 0 := by omega
            subst this
            simp only [hB] at hHi2 hcc ⊢
            omega
        · have : c = 0 := by omega
          subst this
          simp only [hB] at hHi2 ⊢
          omega
      have hnw : (Hi + (c + i0)) % B32 = Hi + (c + i0) := Nat.mod_eq_of_lt hslt
      rw [hnw]
      generalize gA1 : (a1 + B32 - (Hi + (c + i0))) % B32 = a1v
      generalize gi1 : (if a1v > a1 then 1 else 0) = i1
      have hi1le : i1 ≤ 1 := by rw [← gi1]; split <;> omega
      have ha1spec : a1v + (Hi + (c + i0)) = a1 + B32 * i1 := by
        by_cases h : a1v > a1
        · rw [if_pos h] at gi1
          simp only [hB] at ha1 hslt gA1 ⊢
          omega
        · rw [if_neg h] at gi1
          simp only [hB] at ha1 hslt gA1 ⊢
          omega
      have ha1vB : a1v < B32 := by
        rw [← gA1]
        simp only [hB]
        omega
      have hch2 : i1 = 1 → 1 ≤ (a1v :: arest).headD 0 := by
        intro h
        rw [← gi1] at h
        by_cases hc1 : a1v > a1
        · simp only [List.headD_cons]
          omega
        · rw [if_neg hc1] at h
          exact absurd h.symm one_ne_zero
      have harest2 : ∀ d ∈ a1v :: arest, d < B32 := by
        intro d hd
        rcases List.mem_cons.mp hd with h1 | h2
        · rw [h1]; exact ha1vB
        · exact harest d h2
      obtain ⟨hl2, hw2, hbo2, hv2⟩ := ih (a1v :: arest) q i1
        (by simpa using hlen2) harest2 hbs2 hq hi1le hch2
      refine ⟨?_, ?_, hbo2, ?_⟩
      · simp only [List.length_cons, hl2, List.length_cons]
      · intro d hd
        rcases List.mem_cons.mp hd with h1 | h2
        · rw [h1]; exact ha0vB
        · exact hw2 d h2
      · rw [natValL_cons, natValL_cons, natValL_cons, natValL_cons]
        have hqbs : q * (bi + B32 * natValL bs) =
            q * bi + B32 * (q * natValL bs) := by ring
        rw [hqbs]
        have hddc : Hi * B32 + Lo = q * bi := by rw [hdd]; ring
        rw [natValL_cons] at hv2
        simp only [List.length_cons] at hv2 ⊢
        have hpow : B32 ^ (arest.length + 1 + 1) =
            B32 * B32 ^ (arest.length + 1) := by
          rw [pow_succ]
          ring
        rw [hpow]
        rcases Nat.le_one_iff_eq_zero_or_eq_one.mp hbo2 with hbo | hbo <;>
          rw [hbo] at hv2 ⊢
        · clear hnw gA0 gA1 gi0 gi1 hstep hmul hch hch2
          simp only [hB] at *
          omega
        · clear hnw gA0 gA1 gi0 gi1 hstep hmul hch hch2
          simp only [hB] at *
          omega

theorem addBack_spec : ∀ (bs a : List Nat) (c : Nat),
    a.length = bs.length + 1 →
    (∀ d ∈ a, d < B32) → (∀ d ∈ bs, d < B32) → c ≤ 1 →
    (addBack a bs c).length = a.length ∧
    (∀ d ∈ addBack a bs c, d < B32) ∧
    natValL (addBack a bs c) < B32 ^ bs.length ∧
    ∃ co ≤ 1, natValL (addBack a bs c) + B32 ^ bs.length * co =
      natValL (a.take bs.length) + natValL bs + c := by
  intro bs
  induction bs with
  | nil =>
      intro a c hlen ha hbs hc
      match a, hlen with
      | [a0], _ =>
      have hstep : addBack [a0] [] c = [0] := rfl
      rw [hstep]
      refine ⟨rfl, ?_, ?_, c, hc, ?_⟩
      · intro d hd
        rcases List.mem_cons.mp hd with h1 | h2
        · rw [h1]; norm_num [B32]
        · simp at h2
      · simp [natValL_cons, natValL_nil]
      · simp [natValL_cons, natValL_nil]
  | cons bi bs ih =>
      intro a c hlen ha hbs hc
      have hbi : bi < B32 := hbs bi (by simp)
      have hbs2 : ∀ d ∈ bs, d < B32 := fun d hd => hbs d (by simp [hd])
      match a, hlen with
      | a0 :: atl, hlen =>
      have hlen2 : atl.length = bs.length + 1 := by simpa using hlen
      have ha0 : a0 < B32 := ha a0 (by simp)
      have hatl : ∀ d ∈ atl, d < B32 := fun d hd => ha d (by simp [hd])
      have hB : B32 = 4294967296 := rfl
      have hstep : addBack (a0 :: atl) (bi :: bs) c =
          ((a0 + c) % B32 + bi) % B32 ::
            addBack atl bs
              (if ((a0 + c) % B32 + bi) % B32 < (a0 + c) % B32 then 1
               else if (a0 + c) % B32 < c then 1 else 0) := rfl
      rw [hstep]
      have hc2le : (if ((a0 + c) % B32 + bi) % B32 < (a0 + c) % B32 then 1
          else if (a0 + c) % B32 < c then 1 else 0) ≤ 1 := by
        split
        · omega
        · split <;> omega
      have hkey : ((a0 + c) % B32 + bi) % B32 +
          B32 * (if ((a0 + c) % B32 + bi) % B32 < (a0 + c) % B32 then 1
            else if (a0 + c) % B32 < c then 1 else 0) = a0 + bi + c := by
        simp only [hB] at ha0 hbi hc ⊢
        split_ifs <;> omega
      obtain ⟨hl2, hw2, hlt2, co, hco, hv2⟩ := ih atl
        (if ((a0 + c) % B32 + bi) % B32 < (a0 + c) % B32 then 1
         else if (a0 + c) % B32 < c then 1 else 0) hlen2 hatl hbs2 hc2le
      refine ⟨?_, ?_, ?_, co, hco, ?_⟩
      · simp only [List.length_cons, hl2]
      · intro d hd
        rcases List.mem_cons.mp hd with h1 | h2
        · rw [h1]; simp only [hB]; omega
        · exact hw2 d h2
      · rw [natValL_cons]
        have h1 : ((a0 + c) % B32 + bi) % B32 < B32 := by
          simp only [hB]; omega
        calc ((a0 + c) % B32 + bi) % B32 +
              B32 * natValL (addBack atl bs
                (if ((a0 + c) % B32 + bi) % B32 < (a0 + c) % B32 then 1
                 else if (a0 + c) % B32 < c then 1 else 0))
            < B32 + B32 * natValL (addBack atl bs
                (if ((a0 + c) % B32 + bi) % B32 < (a0 + c) % B32 then 1
                 else if (a0 + c) % B32 < c then 1 else 0)) := by omega
          _ = B32 * (natValL (addBack atl bs
                (if ((a0 + c) % B32 + bi) % B32 < (a0 + c) % B32 then 1
                 else if (a0 + c) % B32 < c then 1 else 0)) + 1) := by ring
          _ ≤ B32 * B32 ^ bs.length := Nat.mul_le_mul_left _ (by omega)
          _ = B32 ^ (bi :: bs).length := by
              simp only [List.length_cons, pow_succ]
              ring
      · simp only [List.length_cons, List.take_succ_cons]
        rw [natValL_cons, natValL_cons, natValL_cons]
        calc ((a0 + c) % B32 + bi) % B32 +
              B32 * natValL (addBack atl bs
                (if ((a0 + c) % B32 + bi) % B32 < (a0 + c) % B32 then 1
                 else if (a0 + c) % B32 < c then 1 else 0)) +
              B32 ^ (bs.length + 1) * co
            = ((a0 + c) % B32 + bi) % B32 +
              B32 * (natValL (addBack atl bs
                (if ((a0 + c) % B32 + bi) % B32 < (a0 + c) % B32 then 1
                 else if (a0 + c) % B32 < c then 1 else 0)) +
                B32 ^ bs.length * co) := by
              rw [pow_succ]
              ring
          _ = ((a0 + c) % B32 + bi) % B32 +
              B32 * (natValL (atl.take bs.length) + natValL bs +
                (if ((a0 + c) % B32 + bi) % B32 < (a0 + c) % B32 then 1
                 else if (a0 + c) % B32 < c then 1 else 0)) := by rw [hv2]
          _ = (((a0 + c) % B32 + bi) % B32 +
                B32 * (if ((a0 + c) % B32 + bi) % B32 < (a0 + c) % B32 then 1
                 else if (a0 + c) % B32 < c then 1 else 0)) +
              B32 * natValL (atl.take bs.length) + B32 * natValL bs := by ring
          _ = (a0 + bi + c) +
              B32 * natValL (atl.take bs.length) + B32 * natValL bs := by rw [hkey]
          _ = a0 + B32 * natValL (atl.take bs.length) + (bi + B32 * natValL bs) + c := by
              ring

theorem natValL_take_drop (l : List Nat) (n : Nat) :
    natValL l = natValL (l.take n) + B32 ^ n * natValL (l.drop n) := by
  by_cases h : n ≤ l.length
  · conv_lhs => rw [← List.take_append_drop n l]
    rw [natValL_append, List.length_take]
    have : min n l.length = n := by omega
    rw [this]
  · push_neg at h
    have h1 : l.take n = l := List.take_of_length_le (by omega)
    have h2 : l.drop n = [] := List.drop_eq_nil_of_le (by omega)
    rw [h1, h2, natValL_nil]
    ring

theorem subtractmul_spec (a bs : List Nat) (q : Nat)
    (hlen : a.length = bs.length + 1)
    (ha : ∀ d ∈ a, d < B32) (hbs : ∀ d ∈ bs, d < B32) (hq : q < B32)
    (hqb : q * natValL bs ≤ natValL a + natValL bs) :
    (subtractmul a bs q).1.length = a.length ∧
    (∀ d ∈ (subtractmul a bs q).1, d < B32) ∧
    (subtractmul a bs q).2 < B32 ∧
    (subtractmul a bs q).2 ≤ q ∧
    natValL (subtractmul a bs q).1 + (subtractmul a bs q).2 * natValL bs =
      natValL a := by
  obtain ⟨hl1, hw1, hbo1, hv1⟩ := submulLoop_spec bs a q 0 hlen ha hbs hq
    (by omega) (by omega)
  have hstep : subtractmul a bs q =
      if (submulLoop a bs q 0).2 ≠ 0 then
        (addBack (submulLoop a bs q 0).1 bs 0, (q + B32 - 1) % B32)
      else ((submulLoop a bs q 0).1, q) := rfl
  have hB : B32 = 4294967296 := rfl
  obtain ⟨QV, gQV⟩ : ∃ QV, q * natValL bs = QV := ⟨_, rfl⟩
  by_cases hbo : (submulLoop a bs q 0).2 = 0
  · rw [hstep, if_neg (by simpa using hbo)]
    dsimp only
    rw [hbo] at hv1
    simp only [Nat.mul_zero, Nat.add_zero] at hv1
    rw [gQV] at hv1 ⊢
    refine ⟨hl1, hw1, hq, le_refl q, ?_⟩
    omega
  · have hbo1' : (submulLoop a bs q 0).2 = 1 := by omega
    rw [hstep, if_pos (by simpa using hbo)]
    dsimp only
    rw [hbo1'] at hv1
    simp only [Nat.mul_one] at hv1
    have haB : natValL a < B32 ^ a.length := natValL_lt a ha
    have houtB : natValL (submulLoop a bs q 0).1 < B32 ^ a.length := by
      have := natValL_lt (submulLoop a bs q 0).1 hw1
      rwa [hl1] at this
    have hbsB : natValL bs < B32 ^ bs.length := natValL_lt bs hbs
    have hgt : natValL a < q * natValL bs := by
      by_contra hcon
      push_neg at hcon
      rw [gQV] at hcon hv1
      have hP : 0 < B32 ^ a.length := Nat.pos_pow_of_pos _ (by norm_num [B32])
      omega
    have hq1 : 1 ≤ q := by
      by_contra hcon
      push_neg at hcon
      interval_cases q
      simp at hgt
    obtain ⟨hl2, hw2, hlt2, co, hco, hv2⟩ := addBack_spec bs (submulLoop a bs q 0).1 0
      (by rw [hl1, hlen]) hw1 hbs (by omega)
    have htake := natValL_take_drop (submulLoop a bs q 0).1 bs.length
    have htopB : natValL ((submulLoop a bs q 0).1.drop bs.length) < B32 := by
      have hw3 : ∀ d ∈ (submulLoop a bs q 0).1.drop bs.length, d < B32 :=
        fun d hd => hw1 d (List.mem_of_mem_drop hd)
      have h1 := natValL_lt _ hw3
      have h2 : ((submulLoop a bs q 0).1.drop bs.length).length = 1 := by
        rw [List.length_drop, hl1, hlen]
        omega
      rw [h2, pow_one] at h1
      exact h1
    have hVtakeB : natValL ((submulLoop a bs q 0).1.take bs.length) <
        B32 ^ bs.length := by
      have hw3 : ∀ d ∈ (submulLoop a bs q 0).1.take bs.length, d < B32 :=
        fun d hd => hw1 d (List.mem_of_mem_take hd)
      have h1 := natValL_lt _ hw3
      have h2 : ((submulLoop a bs q 0).1.take bs.length).length = bs.length := by
        rw [List.length_take, hl1, hlen]
        omega
      rwa [h2] at h1
    have hqm : (q + B32 - 1) % B32 = q - 1 := by
      simp only [hB] at hq hq1 ⊢
      omega
    refine ⟨by rw [hl2, hl1], hw2, ?_, ?_, ?_⟩
    · rw [hqm]
      simp only [hB] at hq ⊢
      omega
    · rw [hqm]
      omega
    · rw [hqm]
      -- name atoms so the final reasoning is linear
      obtain ⟨P, gP⟩ : ∃ P, B32 ^ bs.length = P := ⟨_, rfl⟩
      have hPpos : 0 < P := by
        rw [← gP]
        exact Nat.pos_pow_of_pos _ (by norm_num [B32])
      have hpow : B32 ^ a.length = B32 * P := by
        rw [hlen, pow_succ, gP]
        ring
      obtain ⟨QV1, gQV1⟩ : ∃ QV1, (q - 1) * natValL bs = QV1 := ⟨_, rfl⟩
      have hQsplit : QV1 + natValL bs = QV := by
        rw [← gQV, ← gQV1]
        have hqe : q - 1 + 1 = q := by omega
        calc (q - 1) * natValL bs + natValL bs = (q - 1 + 1) * natValL bs := by ring
          _ = q * natValL bs := by rw [hqe]
      obtain ⟨top, gtop⟩ :
          ∃ t, natValL ((submulLoop a bs q 0).1.drop bs.length) = t := ⟨_, rfl⟩
      obtain ⟨Vtake, gVtake⟩ :
          ∃ v, natValL ((submulLoop a bs q 0).1.take bs.length) = v := ⟨_, rfl⟩
      obtain ⟨Vout, gVout⟩ : ∃ v, natValL (submulLoop a bs q 0).1 = v := ⟨_, rfl⟩
      obtain ⟨Vres, gVres⟩ :
          ∃ v, natValL (addBack (submulLoop a bs q 0).1 bs 0) = v := ⟨_, rfl⟩
      rw [gVout, gQV, hpow] at hv1
      rw [gVout, gVtake, gtop, gP] at htake
      rw [gVout, hpow] at houtB
      rw [hpow] at haB
      rw [gP] at hbsB
      rw [gVres, gP] at hlt2
      rw [gVres, gP, gVtake] at hv2
      rw [gQV] at hgt hqb
      rw [gtop] at htopB
      rw [gVres, gQV1]
      have htop_lo : (B32 - 1) * P ≤ Vout := by
        have h2 : QV ≤ natValL a + P := by omega
        simp only [hB] at hv1 h2 ⊢
        omega
      have htop_eq : top = B32 - 1 := by
        have h1 : P * top ≤ Vout := by
          rw [htake]
          omega
        have h2 : Vout < P * (top + 1) := by
          calc Vout = Vtake + P * top := htake
            _ < P + P * top := by rw [gVtake] at hVtakeB; omega
            _ = P * (top + 1) := by ring
        have h3 : P * top < P * B32 := by
          calc P * top ≤ Vout := h1
            _ < B32 * P := houtB
            _ = P * B32 := by ring
        have h4 : top < B32 := Nat.lt_of_mul_lt_mul_left h3
        have h5 : P * (B32 - 1) < P * (top + 1) := by
          calc P * (B32 - 1) = (B32 - 1) * P := by ring
            _ ≤ Vout := htop_lo
            _ < P * (top + 1) := h2
        have h6 : B32 - 1 < top + 1 := Nat.lt_of_mul_lt_mul_left h5
        simp only [hB] at h4 h6 ⊢
        omega
      rw [htop_eq] at htake
      rw [gVtake] at hVtakeB
      rcases Nat.le_one_iff_eq_zero_or_eq_one.mp hco with hco0 | hco0 <;>
        rw [hco0] at hv2 <;>
        simp only [hB] at htake hv1 hv2 hlt2 haB houtB hbsB hgt hVtakeB hPpos hqb hQsplit ⊢ <;>
        omega

theorem getD_drop_eq (l : List Nat) (n j : Nat) :
    (l.drop n).getD j 0 = l.getD (n + j) 0 := by
  rw [List.getD_eq_getElem?_getD, List.getD_eq_getElem?_getD, List.getElem?_drop]

theorem getD_take_drop (l : List Nat) (lo m j : Nat) (hj : j < m) :
    ((l.drop lo).take m).getD j 0 = l.getD (lo + j) 0 := by
  rw [List.getD_eq_getElem?_getD, List.getD_eq_getElem?_getD]
  rw [List.getElem?_take]
  simp [hj, List.getElem?_drop]

theorem getD_mem_of_lt (l : List Nat) (n : Nat) (h : n < l.length) :
    l.getD n 0 ∈ l := by
  rw [List.getD_eq_getElem?_getD, List.getElem?_eq_getElem h]
  exact List.getElem_mem h

theorem natValL_single (x : Nat) : natValL [x] = x := by
  simp [natValL_cons, natValL_nil]

theorem natValL_two_top (l : List Nat) (r : Nat) (h : l.length = r + 2) :
    natValL l = natValL (l.take r) + B32 ^ r * l.getD r 0 +
      B32 ^ (r + 1) * l.getD (r + 1) 0 := by
  obtain ⟨x, y, hxy⟩ : ∃ x y, l.drop r = [x, y] := by
    apply List.length_eq_two.mp
    rw [List.length_drop, h]
    omega
  have hgr : l.getD r 0 = x := by
    have h1 : l.getD (r + 0) 0 = (l.drop r).getD 0 0 := (getD_drop_eq l r 0).symm
    simp only [Nat.add_zero] at h1
    rw [h1, hxy]
    rfl
  have hgr1 : l.getD (r + 1) 0 = y := by
    have h1 := (getD_drop_eq l r 1).symm
    rw [h1, hxy]
    rfl
  have hval : natValL (l.drop r) = x + B32 * y := by
    rw [hxy, natValL_cons, natValL_single]
  rw [natValL_take_drop l r, hval, hgr, hgr1, pow_succ]
  ring

theorem DDquotient_lt (A B0 d : Nat) : DDquotient A B0 d < B32 := by
  show _ % B32 < B32
  exact Nat.mod_lt _ (by norm_num [B32])

theorem qhat_bound (A B0 d u r W : Nat)
    (hA : A < B32) (hB0 : B0 < B32) (hd2 : d < B32) (hd0 : 0 < d)
    (hu : (B32 - 2) * u ≤ d * B32 ^ r)
    (hW : A * B32 ^ (r + 1) + B0 * B32 ^ r ≤ W) :
    DDquotient A B0 d * (d * B32 ^ r + u) ≤ W + (d * B32 ^ r + u) := by
  have hB : B32 = 4294967296 := rfl
  have hC1 : B32 - 1 = 4294967295 := rfl
  have hC2 : B32 - 2 = 4294967294 := rfl
  rw [hC2] at hu
  by_cases hAd : A < d
  · rw [DDquotient_exact A B0 d hAd hd2 hB0]
    obtain ⟨qe, hqe⟩ : ∃ qe, (A * B32 + B0) / d = qe := ⟨_, rfl⟩
    rw [hqe]
    have h1 : qe * d ≤ A * B32 + B0 := by
      rw [← hqe]
      exact Nat.div_mul_le_self _ _
    have hqeB : qe < B32 := by
      rw [← hqe, Nat.div_lt_iff_lt_mul hd0]
      calc A * B32 + B0 < A * B32 + B32 := by omega
        _ = (A + 1) * B32 := by ring
        _ ≤ d * B32 := Nat.mul_le_mul_right _ (by omega)
        _ = B32 * d := by ring
    rcases Nat.eq_zero_or_pos qe with hq0 | hq1
    · rw [hq0]
      simp
    · have key : qe * u ≤ d * B32 ^ r + u := by
        have h2 : (qe - 1) * u ≤ 4294967294 * u :=
          Nat.mul_le_mul_right _ (by simp only [hB] at hqeB; omega)
        have h3 : qe * u = (qe - 1) * u + u := by
          have h9 : qe - 1 + 1 = qe := by omega
          calc qe * u = (qe - 1 + 1) * u := by rw [h9]
            _ = (qe - 1) * u + u := by ring
        linarith
      calc qe * (d * B32 ^ r + u) = qe * d * B32 ^ r + qe * u := by ring
        _ ≤ (A * B32 + B0) * B32 ^ r + qe * u :=
            Nat.add_le_add_right (Nat.mul_le_mul_right _ h1) _
        _ = A * B32 ^ (r + 1) + B0 * B32 ^ r + qe * u := by
            rw [pow_succ]
            ring
        _ ≤ W + qe * u := Nat.add_le_add_right hW _
        _ ≤ W + (d * B32 ^ r + u) := Nat.add_le_add_left key W
  · push_neg at hAd
    have hqlt : DDquotient A B0 d < B32 := DDquotient_lt A B0 d
    have hq1 : DDquotient A B0 d * (d * B32 ^ r + u) ≤
        4294967295 * (d * B32 ^ r + u) := by
      refine Nat.mul_le_mul_right _ ?_
      simp only [hB] at hqlt
      omega
    have h1 : B32 * (d * B32 ^ r) ≤ A * B32 ^ (r + 1) := by
      calc B32 * (d * B32 ^ r) = d * B32 ^ (r + 1) := by
            rw [pow_succ]
            ring
        _ ≤ A * B32 ^ (r + 1) := Nat.mul_le_mul_right _ hAd
    obtain ⟨X, gX⟩ : ∃ v, DDquotient A B0 d * (d * B32 ^ r + u) = v := ⟨_, rfl⟩
    obtain ⟨M, gM⟩ : ∃ v, d * B32 ^ r = v := ⟨_, rfl⟩
    obtain ⟨Y, gY⟩ : ∃ v, A * B32 ^ (r + 1) = v := ⟨_, rfl⟩
    obtain ⟨Z, gZ⟩ : ∃ v, B0 * B32 ^ r = v := ⟨_, rfl⟩
    rw [gX, gM]
    rw [gX, gM] at hq1
    rw [gM, gY] at h1
    rw [gY, gZ] at hW
    rw [gM] at hu
    simp only [hB] at hq1 h1 ⊢
    omega

theorem applySubmul_spec (remD : List Nat) (lo : Nat) (bD : List Nat) (q : Nat)
    (hbl : 1 ≤ bD.length)
    (hrwf : ∀ x ∈ remD, x < B32) (hbwf : ∀ x ∈ bD, x < B32)
    (hk : lo + bD.length + 1 ≤ remD.length) (hq : q < B32)
    (hqb : q * natValL bD ≤
      natValL ((remD.drop lo).take (bD.length + 1)) + natValL bD) :
    (applySubmul remD lo bD q).1.length = remD.length ∧
    (∀ x ∈ (applySubmul remD lo bD q).1, x < B32) ∧
    (applySubmul remD lo bD q).2 < B32 ∧
    (applySubmul remD lo bD q).2 ≤ q ∧
    natValL (applySubmul remD lo bD q).1 +
      B32 ^ lo * ((applySubmul remD lo bD q).2 * natValL bD) =
      natValL remD := by
  have hwinlen : ((remD.drop lo).take (bD.length + 1)).length = bD.length + 1 := by
    rw [List.length_take, List.length_drop]
    omega
  have hwinwf : ∀ x ∈ (remD.drop lo).take (bD.length + 1), x < B32 :=
    fun x hx => hrwf x (List.mem_of_mem_drop (List.mem_of_mem_take hx))
  obtain ⟨hl1, hw1, hlt1, hle1, hv1⟩ :=
    subtractmul_spec ((remD.drop lo).take (bD.length + 1)) bD q hwinlen
      hwinwf hbwf hq hqb
  have hstep : applySubmul remD lo bD q =
      (remD.take lo ++ (subtractmul ((remD.drop lo).take (bD.length + 1)) bD q).1 ++
        remD.drop (lo + bD.length + 1),
       (subtractmul ((remD.drop lo).take (bD.length + 1)) bD q).2) := rfl
  rw [hstep]
  dsimp only
  have htklen : (remD.take lo).length = lo := by
    rw [List.length_take]
    omega
  refine ⟨?_, ?_, hlt1, hle1, ?_⟩
  · rw [List.length_append, List.length_append, htklen, hl1, hwinlen,
      List.length_drop]
    omega
  · intro x hx
    rcases List.mem_append.mp hx with hx1 | hx2
    · rcases List.mem_append.mp hx1 with hx3 | hx4
      · exact hrwf x (List.mem_of_mem_take hx3)
      · exact hw1 x hx4
    · exact hrwf x (List.mem_of_mem_drop hx2)
  · have hsplit2 : natValL remD = natValL (remD.take lo) +
        B32 ^ lo * (natValL ((remD.drop lo).take (bD.length + 1)) +
          B32 ^ (bD.length + 1) * natValL (remD.drop (lo + (bD.length + 1)))) := by
      rw [natValL_take_drop remD lo]
      have h2 : natValL (remD.drop lo) =
          natValL ((remD.drop lo).take (bD.length + 1)) +
            B32 ^ (bD.length + 1) * natValL ((remD.drop lo).drop (bD.length + 1)) :=
        natValL_take_drop (remD.drop lo) (bD.length + 1)
      rw [h2, List.drop_drop]
    have hres : natValL (remD.take lo ++
          (subtractmul ((remD.drop lo).take (bD.length + 1)) bD q).1 ++
          remD.drop (lo + bD.length + 1)) =
        natValL (remD.take lo) + B32 ^ lo *
          (natValL (subtractmul ((remD.drop lo).take (bD.length + 1)) bD q).1 +
            B32 ^ (bD.length + 1) * natValL (remD.drop (lo + bD.length + 1))) := by
      rw [List.append_assoc, natValL_append, htklen, natValL_append, hl1, hwinlen]
    rw [hres]
    have harith : lo + bD.length + 1 = lo + (bD.length + 1) := by omega
    rw [harith]
    rw [hsplit2]
    obtain ⟨Vtk, g1⟩ : ∃ v, natValL (remD.take lo) = v := ⟨_, rfl⟩
    obtain ⟨Vout, g2⟩ :
        ∃ v, natValL (subtractmul ((remD.drop lo).take (bD.length + 1)) bD q).1 = v :=
      ⟨_, rfl⟩
    obtain ⟨Vdr, g3⟩ : ∃ v, natValL (remD.drop (lo + (bD.length + 1))) = v := ⟨_, rfl⟩
    obtain ⟨Vwin, g4⟩ : ∃ v, natValL ((remD.drop lo).take (bD.length + 1)) = v :=
      ⟨_, rfl⟩
    obtain ⟨qf, g5⟩ : ∃ v, (subtractmul ((remD.drop lo).take (bD.length + 1)) bD q).2 = v :=
      ⟨_, rfl⟩
    rw [g1, g2, g3, g4, g5]
    rw [g2, g4, g5] at hv1
    calc Vtk + B32 ^ lo * (Vout + B32 ^ (bD.length + 1) * Vdr) +
          B32 ^ lo * (qf * natValL bD)
        = Vtk + B32 ^ lo * ((Vout + qf * natValL bD) +
            B32 ^ (bD.length + 1) * Vdr) := by ring
      _ = Vtk + B32 ^ lo * (Vwin + B32 ^ (bD.length + 1) * Vdr) := by rw [hv1]

theorem divLoop_spec (bD : List Nat) (d u r : Nat)
    (hblen : bD.length = r + 1) (hbwf : ∀ x ∈ bD, x < B32)
    (hdtop : bD.getD r 0 = d)
    (hVb : natValL bD = d * B32 ^ r + u)
    (hu : (B32 - 2) * u ≤ d * B32 ^ r) (hd0 : 0 < d) :
    ∀ steps k remD, k = r + steps → k + 1 ≤ remD.length →
    (∀ x ∈ remD, x < B32) →
    (divLoop bD d r steps k remD).2.length = remD.length ∧
    (∀ x ∈ (divLoop bD d r steps k remD).2, x < B32) ∧
    (divLoop bD d r steps k remD).1.length = steps ∧
    (∀ x ∈ (divLoop bD d r steps k remD).1, x < B32) ∧
    natValL (divLoop bD d r steps k remD).2 +
      natValL bD * natValL (divLoop bD d r steps k remD).1 =
      natValL remD := by
  intro steps
  induction steps with
  | zero =>
      intro k remD hk hkL hrwf
      refine ⟨rfl, hrwf, rfl, ?_, ?_⟩
      · intro x hx
        have hx2 : x ∈ ([] : List Nat) := hx
        simp at hx2
      · show natValL remD + natValL bD * natValL [] = natValL remD
        rw [natValL_nil]
        ring
  | succ steps ih =>
      intro k remD hk hkL hrwf
      have hd2 : d < B32 := by
        rw [← hdtop]
        exact hbwf _ (getD_mem_of_lt bD r (by omega))
      have hA : remD.getD k 0 < B32 :=
        hrwf _ (getD_mem_of_lt remD k (by omega))
      have hB0 : remD.getD (k - 1) 0 < B32 :=
        hrwf _ (getD_mem_of_lt remD (k - 1) (by omega))
      have hlo : k - r - 1 = steps := by omega
      have hstep : divLoop bD d r (steps + 1) k remD =
          ((divLoop bD d r steps (k - 1)
              (applySubmul remD (k - r - 1) bD
                (DDquotient (remD.getD k 0) (remD.getD (k - 1) 0) d)).1).1 ++
            [(applySubmul remD (k - r - 1) bD
                (DDquotient (remD.getD k 0) (remD.getD (k - 1) 0) d)).2],
           (divLoop bD d r steps (k - 1)
              (applySubmul remD (k - r - 1) bD
                (DDquotient (remD.getD k 0) (remD.getD (k - 1) 0) d)).1).2) := rfl
      rw [hstep, hlo]
      dsimp only
      obtain ⟨q0, gq0⟩ :
          ∃ v, DDquotient (remD.getD k 0) (remD.getD (k - 1) 0) d = v := ⟨_, rfl⟩
      rw [gq0]
      -- the trial-digit bound
      have hwinlen : ((remD.drop steps).take (bD.length + 1)).length =
          bD.length + 1 := by
        rw [List.length_take, List.length_drop]
        omega
      have hWtwo := natValL_two_top ((remD.drop steps).take (bD.length + 1)) r
        (by rw [hwinlen, hblen])
      have hg1 : ((remD.drop steps).take (bD.length + 1)).getD (r + 1) 0 =
          remD.getD k 0 := by
        rw [getD_take_drop remD steps (bD.length + 1) (r + 1) (by omega)]
        have : steps + (r + 1) = k := by omega
        rw [this]
      have hg2 : ((remD.drop steps).take (bD.length + 1)).getD r 0 =
          remD.getD (k - 1) 0 := by
        rw [getD_take_drop remD steps (bD.length + 1) r (by omega)]
        have : steps + r = k - 1 := by omega
        rw [this]
      have hW : remD.getD k 0 * B32 ^ (r + 1) + remD.getD (k - 1) 0 * B32 ^ r ≤
          natValL ((remD.drop steps).take (bD.length + 1)) := by
        rw [hWtwo, hg1, hg2]
        have h0 : 0 ≤ natValL (((remD.drop steps).take (bD.length + 1)).take r) :=
          Nat.zero_le _
        linarith
      have hqb : q0 * natValL bD ≤
          natValL ((remD.drop steps).take (bD.length + 1)) + natValL bD := by
        rw [hVb, ← gq0]
        exact qhat_bound (remD.getD k 0) (remD.getD (k - 1) 0) d u r
          (natValL ((remD.drop steps).take (bD.length + 1))) hA hB0 hd2 hd0 hu hW
      have hq0B : q0 < B32 := by
        rw [← gq0]
        exact DDquotient_lt _ _ _
      obtain ⟨hal, haw, halt, hale, hav⟩ :=
        applySubmul_spec remD steps bD q0 (by omega) hrwf hbwf (by omega) hq0B hqb
      obtain ⟨hrl, hrw, hql, hqw, hqv⟩ :=
        ih (k - 1) (applySubmul remD steps bD q0).1 (by omega)
          (by rw [hal]; omega) haw
      refine ⟨hrl.trans hal, hrw, ?_, ?_, ?_⟩
      · rw [List.length_append, hql]
        rfl
      · intro x hx
        rcases List.mem_append.mp hx with hx1 | hx2
        · exact hqw x hx1
        · have : x = (applySubmul remD steps bD q0).2 := by simpa using hx2
          rw [this]
          exact halt
      · rw [natValL_append, hql, natValL_single]
        obtain ⟨Vr2, g1⟩ :
            ∃ v, natValL (divLoop bD d r steps (k - 1)
              (applySubmul remD steps bD q0).1).2 = v := ⟨_, rfl⟩
        obtain ⟨Vq, g2⟩ :
            ∃ v, natValL (divLoop bD d r steps (k - 1)
              (applySubmul remD steps bD q0).1).1 = v := ⟨_, rfl⟩
        obtain ⟨Vs, g3⟩ : ∃ v, natValL (applySubmul remD steps bD q0).1 = v :=
          ⟨_, rfl⟩
        obtain ⟨qf, g4⟩ : ∃ v, (applySubmul remD steps bD q0).2 = v := ⟨_, rfl⟩
        obtain ⟨Vb2, g5⟩ : ∃ v, natValL bD = v := ⟨_, rfl⟩
        rw [g1, g2, g4, g5]
        rw [g1, g2, g3, g5] at hqv
        rw [g3, g4, g5] at hav
        calc Vr2 + Vb2 * (Vq + B32 ^ steps * qf)
            = (Vr2 + Vb2 * Vq) + B32 ^ steps * (qf * Vb2) := by ring
          _ = Vs + B32 ^ steps * (qf * Vb2) := by rw [hqv]
          _ = natValL remD := hav

theorem ge_of_and_lBit (y : Nat) (h : y &&& lBit ≠ 0) : 2 ^ 31 ≤ y := by
  have h1 : y &&& 2 ^ 31 = (y.testBit 31).toNat * 2 ^ 31 := Nat.and_two_pow y 31
  have h2 : y.testBit 31 = true := by
    by_contra hcon
    rw [Bool.not_eq_true] at hcon
    rw [hcon] at h1
    simp only [Bool.toNat_false, Nat.zero_mul] at h1
    exact h h1
  rw [Nat.testBit_to_div_mod] at h2
  simp at h2
  have h3 : 1 ≤ y / 2 ^ 31 := by omega
  calc 2 ^ 31 = 1 * 2 ^ 31 := by ring
    _ ≤ y / 2 ^ 31 * 2 ^ 31 := Nat.mul_le_mul_right _ h3
    _ ≤ y := Nat.div_mul_le_self _ _

theorem lt_of_and_lBit (y : Nat) (hy : y < B32) (h : y &&& lBit = 0) :
    y < 2 ^ 31 := by
  have h1 : y &&& 2 ^ 31 = (y.testBit 31).toNat * 2 ^ 31 := Nat.and_two_pow y 31
  have h2 : y.testBit 31 = false := by
    by_contra hcon
    rw [Bool.not_eq_false] at hcon
    rw [hcon] at h1
    simp only [Bool.toNat_true, Nat.one_mul] at h1
    have h4 : y &&& 2 ^ 31 = 0 := h
    rw [h4] at h1
    simp at h1
  rw [Nat.testBit_to_div_mod] at h2
  simp at h2
  have hB : B32 = 4294967296 := rfl
  rw [hB] at hy
  omega

theorem normShiftLoop_spec : ∀ (f y x : Nat), 0 < y → y < B32 → 1 ≤ f →
    2 ^ 31 ≤ y * 2 ^ (f - 1) →
    ∃ xr, normShiftLoop f y x = some xr ∧ x ≤ xr ∧
      2 ^ 31 ≤ y * 2 ^ (xr - x) ∧ y * 2 ^ (xr - x) < B32 := by
  intro f
  induction f with
  | zero => intro y x _ _ hf _; omega
  | succ f ih =>
      intro y x hy0 hyB _ henough
      by_cases hbit : y &&& lBit ≠ 0
      · refine ⟨x, ?_, le_refl x, ?_, ?_⟩
        · show (if y &&& lBit ≠ 0 then some x
                else normShiftLoop f ((y * 2) % B32) (x + 1)) = some x
          rw [if_pos hbit]
        · rw [Nat.sub_self, pow_zero, Nat.mul_one]
          exact ge_of_and_lBit y hbit
        · rw [Nat.sub_self, pow_zero, Nat.mul_one]
          exact hyB
      · push_neg at hbit
        have hlt : y < 2 ^ 31 := lt_of_and_lBit y hyB hbit
        have h2y : y * 2 < B32 := by
          have hB : B32 = 4294967296 := rfl
          rw [hB]
          omega
        have hmod : (y * 2) % B32 = y * 2 := Nat.mod_eq_of_lt h2y
        match f, ih with
        | 0, _ =>
            simp only [Nat.add_sub_cancel, pow_zero, Nat.mul_one] at henough
            omega
        | f + 1, ih =>
            have hen2 : 2 ^ 31 ≤ y * 2 * 2 ^ (f + 1 - 1) := by
              have h3 : y * 2 * 2 ^ f = y * 2 ^ (f + 1) := by
                rw [pow_succ]
                ring
              simp only [Nat.add_sub_cancel] at henough ⊢
              rw [h3]
              exact henough
            obtain ⟨xr, hxr, hle, hlo, hhi⟩ :=
              ih (y * 2) (x + 1) (by omega) h2y (by omega) hen2
            refine ⟨xr, ?_, by omega, ?_, ?_⟩
            · show (if y &&& lBit ≠ 0 then some x
                    else normShiftLoop (f + 1) ((y * 2) % B32) (x + 1)) = some xr
              rw [if_neg (by simpa using hbit), hmod]
              exact hxr
            · have h4 : y * 2 ^ (xr - x) = y * 2 * 2 ^ (xr - (x + 1)) := by
                have h5 : xr - x = (xr - (x + 1)) + 1 := by omega
                rw [h5, pow_succ]
                ring
              rw [h4]
              exact hlo
            · have h4 : y * 2 ^ (xr - x) = y * 2 * 2 ^ (xr - (x + 1)) := by
                have h5 : xr - x = (xr - (x + 1)) + 1 := by omega
                rw [h5, pow_succ]
                ring
              rw [h4]
              exact hhi

theorem normShift_spec (y : Nat) (hy0 : 0 < y) (hyB : y < B32) :
    ∃ xr, normShift y = some xr ∧ xr < 32 ∧
      2 ^ 31 ≤ y * 2 ^ xr ∧ y * 2 ^ xr < B32 := by
  obtain ⟨xr, hxr, _, hlo, hhi⟩ := normShiftLoop_spec 33 y 0 hy0 hyB (by omega)
    (by
      have h1 : (2 : Nat) ^ 31 ≤ 2 ^ (33 - 1) := by norm_num
      calc (2 : Nat) ^ 31 ≤ 2 ^ (33 - 1) := h1
        _ = 1 * 2 ^ (33 - 1) := by ring
        _ ≤ y * 2 ^ (33 - 1) := Nat.mul_le_mul_right _ hy0)
  rw [Nat.sub_zero] at hlo hhi
  refine ⟨xr, hxr, ?_, hlo, hhi⟩
  have h2 : 2 ^ xr ≤ y * 2 ^ xr := by
    calc (2 : Nat) ^ xr = 1 * 2 ^ xr := by ring
      _ ≤ y * 2 ^ xr := Nat.mul_le_mul_right _ hy0
  have h3 : (2 : Nat) ^ xr < 2 ^ 32 := by
    calc (2 : Nat) ^ xr ≤ y * 2 ^ xr := h2
      _ < B32 := hhi
      _ = 2 ^ 32 := rfl
  exact (Nat.pow_lt_pow_iff_right (by omega)).mp h3

/-- The cells of `intraShl` below the head, as an indexed map: cell `i`
combines digit `i` of `l2` with digit `i` of `prev :: l2`. -/
def shlPairs (k prev : Nat) (l2 : List Nat) : List Nat :=
  (List.range l2.length).map fun i =>
    ((l2.getD i 0 * 2 ^ k) % B32) |||
      (((prev :: l2).getD i 0 / 2 ^ (32 - k)) &&& (2 ^ k - 1))

theorem shlPairs_nil (k prev : Nat) : shlPairs k prev [] = [] := rfl

theorem shlPairs_cons (k prev c : Nat) (cs : List Nat) :
    shlPairs k prev (c :: cs) =
      (((c * 2 ^ k) % B32) ||| ((prev / 2 ^ (32 - k)) &&& (2 ^ k - 1))) ::
        shlPairs k c cs := by
  show (List.range (cs.length + 1)).map _ = _
  rw [List.range_succ_eq_map, List.map_cons, List.map_map]
  rfl

theorem intraShl_cons (c : Nat) (cs : List Nat) (k : Nat) :
    intraShl (c :: cs) k = ((c * 2 ^ k) % B32) :: shlPairs k c (cs ++ [0]) := by
  have hexp : intraShl (c :: cs) k =
      (List.range ((cs ++ [0]).length + 1)).map (fun i =>
        if i = 0 then ((c :: (cs ++ [0])).getD i 0 * 2 ^ k) % B32
        else (((c :: (cs ++ [0])).getD i 0 * 2 ^ k) % B32) |||
          (((c :: (cs ++ [0])).getD (i - 1) 0 / 2 ^ (32 - k)) &&& (2 ^ k - 1))) := rfl
  rw [hexp, List.range_succ_eq_map, List.map_cons, List.map_map]
  rfl

theorem shlCell_eq (k c prev : Nat) (hk1 : 1 ≤ k) (hk : k < 32)
    (hc : c < B32) (hprev : prev < B32) :
    ((c * 2 ^ k) % B32) ||| ((prev / 2 ^ (32 - k)) &&& (2 ^ k - 1)) =
      2 ^ k * (c % 2 ^ (32 - k)) + prev / 2 ^ (32 - k) := by
  have hm : (2 : Nat) ^ (32 - k) * 2 ^ k = B32 := by
    rw [← pow_add]
    have h9 : 32 - k + k = 32 := by omega
    rw [h9]
    rfl
  have h1 : (c * 2 ^ k) % B32 = (c % 2 ^ (32 - k)) * 2 ^ k := by
    rw [← hm]
    exact Nat.mul_mod_mul_right _ _ _
  have hdiv : prev / 2 ^ (32 - k) < 2 ^ k := by
    rw [Nat.div_lt_iff_lt_mul (Nat.pos_pow_of_pos _ (by omega)),
      Nat.mul_comm, hm]
    exact hprev
  have h2 : (prev / 2 ^ (32 - k)) &&& (2 ^ k - 1) = prev / 2 ^ (32 - k) := by
    rw [Nat.and_pow_two_sub_one_eq_mod]
    exact Nat.mod_eq_of_lt hdiv
  rw [h1, h2, Nat.mul_comm (c % 2 ^ (32 - k)) (2 ^ k)]
  exact or_mul_pow_add k _ _ hdiv

theorem shlPairs_val (k : Nat) (hk1 : 1 ≤ k) (hk : k < 32) :
    ∀ (cs : List Nat) (prev : Nat), prev < B32 → (∀ x ∈ cs, x < B32) →
    natValL (shlPairs k prev (cs ++ [0])) =
      prev / 2 ^ (32 - k) + 2 ^ k * natValL cs ∧
    (∀ x ∈ shlPairs k prev (cs ++ [0]), x < B32) := by
  have hm : (2 : Nat) ^ (32 - k) * 2 ^ k = B32 := by
    rw [← pow_add]
    have h9 : 32 - k + k = 32 := by omega
    rw [h9]
    rfl
  have hmpos : 0 < 2 ^ (32 - k) := Nat.pos_pow_of_pos _ (by omega)
  intro cs
  induction cs with
  | nil =>
      intro prev hprev _
      rw [List.nil_append, shlPairs_cons, shlPairs_nil]
      rw [shlCell_eq k 0 prev hk1 hk (by norm_num [B32]) hprev]
      have hdiv : prev / 2 ^ (32 - k) < 2 ^ k := by
        rw [Nat.div_lt_iff_lt_mul hmpos, Nat.mul_comm, hm]
        exact hprev
      constructor
      · rw [natValL_cons, natValL_nil]
        simp
      · intro x hx
        rcases List.mem_cons.mp hx with h1 | h2
        · rw [h1]
          have : (0 : Nat) % 2 ^ (32 - k) = 0 := by simp
          rw [this, Nat.mul_zero, Nat.zero_add]
          calc prev / 2 ^ (32 - k) < 2 ^ k := hdiv
            _ ≤ B32 := by
                have : (2 : Nat) ^ k ≤ 2 ^ 32 := Nat.pow_le_pow_right (by omega) (by omega)
                exact this
        · simp at h2
  | cons c cs ih =>
      intro prev hprev hwf
      have hc : c < B32 := hwf c (by simp)
      have hwf2 : ∀ x ∈ cs, x < B32 := fun x hx => hwf x (by simp [hx])
      obtain ⟨ihv, ihw⟩ := ih c hc hwf2
      rw [List.cons_append, shlPairs_cons]
      rw [shlCell_eq k c prev hk1 hk hc hprev]
      have hdivp : prev / 2 ^ (32 - k) < 2 ^ k := by
        rw [Nat.div_lt_iff_lt_mul hmpos, Nat.mul_comm, hm]
        exact hprev
      have hcellB : 2 ^ k * (c % 2 ^ (32 - k)) + prev / 2 ^ (32 - k) < B32 := by
        have h1 : c % 2 ^ (32 - k) < 2 ^ (32 - k) := Nat.mod_lt _ hmpos
        have h2 : 2 ^ k * (c % 2 ^ (32 - k)) ≤ 2 ^ k * (2 ^ (32 - k) - 1) :=
          Nat.mul_le_mul_left _ (by omega)
        have h3 : 2 ^ k * (2 ^ (32 - k) - 1) + 2 ^ k = 2 ^ k * 2 ^ (32 - k) := by
          have h4 : 2 ^ (32 - k) - 1 + 1 = 2 ^ (32 - k) := by omega
          calc 2 ^ k * (2 ^ (32 - k) - 1) + 2 ^ k
              = 2 ^ k * ((2 ^ (32 - k) - 1) + 1) := by ring
            _ = 2 ^ k * 2 ^ (32 - k) := by rw [h4]
        have h5 : (2 : Nat) ^ k * 2 ^ (32 - k) = B32 := by
          rw [Nat.mul_comm]
          exact hm
        omega
      constructor
      · rw [natValL_cons, ihv]
        have hkey : 2 ^ k * (c % 2 ^ (32 - k)) + B32 * (c / 2 ^ (32 - k)) =
            2 ^ k * c := by
          rw [← hm]
          calc 2 ^ k * (c % 2 ^ (32 - k)) +
                2 ^ (32 - k) * 2 ^ k * (c / 2 ^ (32 - k))
              = 2 ^ k * (c % 2 ^ (32 - k) + 2 ^ (32 - k) * (c / 2 ^ (32 - k))) := by
                ring
            _ = 2 ^ k * c := by rw [Nat.mod_add_div]
        calc 2 ^ k * (c % 2 ^ (32 - k)) + prev / 2 ^ (32 - k) +
              B32 * (c / 2 ^ (32 - k) + 2 ^ k * natValL cs)
            = (2 ^ k * (c % 2 ^ (32 - k)) + B32 * (c / 2 ^ (32 - k))) +
              prev / 2 ^ (32 - k) + B32 * (2 ^ k * natValL cs) := by ring
          _ = 2 ^ k * c + prev / 2 ^ (32 - k) + B32 * (2 ^ k * natValL cs) := by
              rw [hkey]
          _ = prev / 2 ^ (32 - k) + 2 ^ k * natValL (c :: cs) := by
              rw [natValL_cons]
              ring
      · intro x hx
        rcases List.mem_cons.mp hx with h1 | h2
        · rw [h1]
          exact hcellB
        · exact ihw x h2

theorem intraShl_spec (l : List Nat) (k : Nat) (hk1 : 1 ≤ k) (hk : k < 32)
    (hwf : ∀ x ∈ l, x < B32) :
    natValL (intraShl l k) = 2 ^ k * natValL l ∧
    (∀ x ∈ intraShl l k, x < B32) := by
  cases l with
  | nil =>
      have h0 : intraShl [] k = [(0 * 2 ^ k) % B32] := rfl
      rw [h0]
      refine ⟨?_, ?_⟩
      · rw [natValL_single, natValL_nil, Nat.zero_mul, Nat.zero_mod, Nat.mul_zero]
      · intro x hx
        have hx2 : x = (0 * 2 ^ k) % B32 := by simpa using hx
        rw [hx2, Nat.zero_mul, Nat.zero_mod]
        norm_num [B32]
  | cons c cs =>
      have hc : c < B32 := hwf c (by simp)
      have hwf2 : ∀ x ∈ cs, x < B32 := fun x hx => hwf x (by simp [hx])
      obtain ⟨hv, hw⟩ := shlPairs_val k hk1 hk cs c hc hwf2
      rw [intraShl_cons]
      have hm : (2 : Nat) ^ (32 - k) * 2 ^ k = B32 := by
        rw [← pow_add]
        have h9 : 32 - k + k = 32 := by omega
        rw [h9]
        rfl
      have h1 : (c * 2 ^ k) % B32 = (c % 2 ^ (32 - k)) * 2 ^ k := by
        rw [← hm]
        exact Nat.mul_mod_mul_right _ _ _
      constructor
      · rw [natValL_cons, hv, h1]
        have hkey : c % 2 ^ (32 - k) * 2 ^ k + B32 * (c / 2 ^ (32 - k)) =
            2 ^ k * c := by
          rw [← hm]
          calc c % 2 ^ (32 - k) * 2 ^ k +
                2 ^ (32 - k) * 2 ^ k * (c / 2 ^ (32 - k))
              = 2 ^ k * (c % 2 ^ (32 - k) + 2 ^ (32 - k) * (c / 2 ^ (32 - k))) := by
                ring
            _ = 2 ^ k * c := by rw [Nat.mod_add_div]
        calc c % 2 ^ (32 - k) * 2 ^ k +
              B32 * (c / 2 ^ (32 - k) + 2 ^ k * natValL cs)
            = (c % 2 ^ (32 - k) * 2 ^ k + B32 * (c / 2 ^ (32 - k))) +
              B32 * (2 ^ k * natValL cs) := by ring
          _ = 2 ^ k * c + B32 * (2 ^ k * natValL cs) := by rw [hkey]
          _ = 2 ^ k * natValL (c :: cs) := by
              rw [natValL_cons]
              ring
      · intro x hx
        rcases List.mem_cons.mp hx with h1' | h2'
        · rw [h1']
          exact Nat.mod_lt _ (by norm_num [B32])
        · exact hw x h2'

theorem shlB_small_spec (x : Bignum) (k : Nat) (hk : k < 32) (hwf : Wf x) :
    natValL (shlB x k).data = 2 ^ k * natValL x.data ∧ Canon (shlB x k) := by
  have hq : k / 32 = 0 := Nat.div_eq_of_lt hk
  have hmod : k % 32 = k := Nat.mod_eq_of_lt hk
  have hstep : shlB x k = reduce { neg := x.neg, data := if k % 32 ≠ 0 then intraShl (if k / 32 ≠ 0 then List.replicate (k / 32) 0 ++ x.data else x.data) (k % 32) else (if k / 32 ≠ 0 then List.replicate (k / 32) 0 ++ x.data else x.data) } := rfl
  have hz : ¬((0 : Nat) ≠ 0) := by simp
  rw [hstep, hq, hmod, if_neg hz]
  by_cases hk0 : k = 0
  · subst hk0
    rw [if_neg hz]
    obtain ⟨hrv, _, hrc⟩ := reduce_spec { neg := x.neg, data := x.data } hwf
    refine ⟨?_, hrc⟩
    rw [hrv, pow_zero, Nat.one_mul]
  · rw [if_pos hk0]
    obtain ⟨hiv, hiw⟩ := intraShl_spec x.data k (by omega) hk hwf
    obtain ⟨hrv, _, hrc⟩ :=
      reduce_spec { neg := x.neg, data := intraShl x.data k } hiw
    refine ⟨?_, hrc⟩
    rw [hrv, hiv]

theorem intraShr_nil (k : Nat) : intraShr [] k = [] := rfl

theorem intraShr_single (c k : Nat) : intraShr [c] k = [c / 2 ^ k] := rfl

theorem intraShr_cons (c c2 : Nat) (cs : List Nat) (k : Nat) :
    intraShr (c :: c2 :: cs) k =
      ((c / 2 ^ k) ||| (((c2 &&& (2 ^ k - 1)) * 2 ^ (32 - k)) % B32)) ::
        intraShr (c2 :: cs) k := by
  have hexp : intraShr (c :: c2 :: cs) k =
      (List.range ((c2 :: cs).length + 1)).map (fun i =>
        if i + 1 = (c :: c2 :: cs).length then (c :: c2 :: cs).getD i 0 / 2 ^ k
        else ((c :: c2 :: cs).getD i 0 / 2 ^ k) |||
          ((((c :: c2 :: cs).getD (i + 1) 0 &&& (2 ^ k - 1)) * 2 ^ (32 - k)) % B32)) :=
    rfl
  rw [hexp, List.range_succ_eq_map, List.map_cons, List.map_map]
  refine congrArg₂ List.cons ?_ ?_
  · rfl
  · apply List.map_congr_left
    intro i hi
    simp only [Function.comp_apply]
    by_cases hii : i + 1 = (c2 :: cs).length
    · rw [if_pos (show i + 1 + 1 = (c :: c2 :: cs).length by simp [← hii]),
        if_pos hii]
      rfl
    · rw [if_neg (show ¬(i + 1 + 1 = (c :: c2 :: cs).length) by
        simp only [List.length_cons] at hii ⊢
        omega), if_neg hii]
      rfl

theorem shrCell_eq (k c c2 : Nat) (hk : k < 32) (hc : c < B32) (hc2 : c2 < B32) :
    (c / 2 ^ k) ||| (((c2 &&& (2 ^ k - 1)) * 2 ^ (32 - k)) % B32) =
      2 ^ (32 - k) * (c2 % 2 ^ k) + c / 2 ^ k := by
  have hm : (2 : Nat) ^ k * 2 ^ (32 - k) = B32 := by
    rw [← pow_add]
    have h9 : k + (32 - k) = 32 := by omega
    rw [h9]
    rfl
  have h1 : c2 &&& (2 ^ k - 1) = c2 % 2 ^ k := Nat.and_pow_two_sub_one_eq_mod c2 k
  have h2 : (c2 % 2 ^ k) * 2 ^ (32 - k) < B32 := by
    rw [← hm]
    exact Nat.mul_lt_mul_of_lt_of_le (Nat.mod_lt _ (Nat.pos_pow_of_pos _ (by omega)))
      (le_refl _) (Nat.pos_pow_of_pos _ (by omega))
  have h3 : ((c2 &&& (2 ^ k - 1)) * 2 ^ (32 - k)) % B32 =
      2 ^ (32 - k) * (c2 % 2 ^ k) := by
    rw [h1, Nat.mod_eq_of_lt h2, Nat.mul_comm]
  have hdiv : c / 2 ^ k < 2 ^ (32 - k) := by
    rw [Nat.div_lt_iff_lt_mul (Nat.pos_pow_of_pos _ (by omega)), Nat.mul_comm, hm]
    exact hc
  rw [h3, Nat.or_comm]
  exact or_mul_pow_add (32 - k) _ _ hdiv

theorem intraShr_spec (k : Nat) (hk : k < 32) : ∀ (l : List Nat),
    (∀ x ∈ l, x < B32) →
    2 ^ k * natValL (intraShr l k) + (l.headD 0) % 2 ^ k = natValL l ∧
    (∀ x ∈ intraShr l k, x < B32) := by
  have hm : (2 : Nat) ^ k * 2 ^ (32 - k) = B32 := by
    rw [← pow_add]
    have h9 : k + (32 - k) = 32 := by omega
    rw [h9]
    rfl
  intro l
  induction l with
  | nil =>
      intro _
      rw [intraShr_nil]
      refine ⟨by simp [natValL_nil], by intro x hx; simp at hx⟩
  | cons c cs ih =>
      intro hwf
      have hc : c < B32 := hwf c (by simp)
      have hwf2 : ∀ x ∈ cs, x < B32 := fun x hx => hwf x (by simp [hx])
      cases cs with
      | nil =>
          rw [intraShr_single]
          refine ⟨?_, ?_⟩
          · rw [natValL_single, natValL_single]
            have hh : (c :: ([] : List Nat)).headD 0 = c := rfl
            rw [hh, Nat.mul_comm, Nat.div_add_mod']
          · intro x hx
            have hx2 : x = c / 2 ^ k := by simpa using hx
            rw [hx2]
            calc c / 2 ^ k ≤ c := Nat.div_le_self _ _
              _ < B32 := hc
      | cons c2 cs2 =>
          have hc2 : c2 < B32 := hwf2 c2 (by simp)
          obtain ⟨ihv, ihw⟩ := ih hwf2
          rw [intraShr_cons]
          rw [shrCell_eq k c c2 hk hc hc2]
          refine ⟨?_, ?_⟩
          · rw [natValL_cons]
            have hh : (c :: c2 :: cs2).headD 0 = c := rfl
            rw [hh]
            have hsplit : 2 ^ k * (c / 2 ^ k) + c % 2 ^ k = c := by
              rw [Nat.mul_comm]
              exact Nat.div_add_mod' c (2 ^ k)
            calc 2 ^ k * (2 ^ (32 - k) * (c2 % 2 ^ k) + c / 2 ^ k +
                  B32 * natValL (intraShr (c2 :: cs2) k)) + c % 2 ^ k
                = (2 ^ k * 2 ^ (32 - k)) * (c2 % 2 ^ k) +
                  (2 ^ k * (c / 2 ^ k) + c % 2 ^ k) +
                  B32 * (2 ^ k * natValL (intraShr (c2 :: cs2) k)) := by ring
              _ = B32 * (c2 % 2 ^ k) + c +
                  B32 * (2 ^ k * natValL (intraShr (c2 :: cs2) k)) := by
                  rw [hm, hsplit]
              _ = c + B32 * (2 ^ k * natValL (intraShr (c2 :: cs2) k) +
                  (c2 :: cs2).headD 0 % 2 ^ k) := by
                  have hh2 : (c2 :: cs2).headD 0 = c2 := rfl
                  rw [hh2]
                  ring
              _ = c + B32 * natValL (c2 :: cs2) := by rw [ihv]
              _ = natValL (c :: c2 :: cs2) := (natValL_cons _ _).symm
          · intro x hx
            rcases List.mem_cons.mp hx with h1 | h2
            · rw [h1]
              have hq2 : c2 % 2 ^ k < 2 ^ k := Nat.mod_lt _ (Nat.pos_pow_of_pos _ (by omega))
              have hdiv : c / 2 ^ k < 2 ^ (32 - k) := by
                rw [Nat.div_lt_iff_lt_mul (Nat.pos_pow_of_pos _ (by omega)),
                  Nat.mul_comm, hm]
                exact hc
              have h5 : 2 ^ (32 - k) * (c2 % 2 ^ k) ≤ 2 ^ (32 - k) * (2 ^ k - 1) :=
                Nat.mul_le_mul_left _ (by omega)
              have h6 : 2 ^ (32 - k) * (2 ^ k - 1) + 2 ^ (32 - k) =
                  2 ^ (32 - k) * 2 ^ k := by
                have h7 : 2 ^ k - 1 + 1 = 2 ^ k := by
                  have := Nat.pos_pow_of_pos k (show 0 < 2 by omega)
                  omega
                calc 2 ^ (32 - k) * (2 ^ k - 1) + 2 ^ (32 - k)
                    = 2 ^ (32 - k) * ((2 ^ k - 1) + 1) := by ring
                  _ = 2 ^ (32 - k) * 2 ^ k := by rw [h7]
              have h8 : (2 : Nat) ^ (32 - k) * 2 ^ k = B32 := by
                rw [Nat.mul_comm]
                exact hm
              omega
            · exact ihw x h2

theorem headD_mod_pow (l : List Nat) (k : Nat) (hk : k ≤ 32) :
    l.headD 0 % 2 ^ k = natValL l % 2 ^ k := by
  cases l with
  | nil => rfl
  | cons c cs =>
      have hh : (c :: cs).headD 0 = c := rfl
      rw [hh, natValL_cons]
      have hB : B32 = 2 ^ k * 2 ^ (32 - k) := by
        rw [← pow_add]
        have h9 : k + (32 - k) = 32 := by omega
        rw [h9]
        rfl
      rw [hB]
      have h1 : c + 2 ^ k * 2 ^ (32 - k) * natValL cs =
          c + 2 ^ k * (2 ^ (32 - k) * natValL cs) := by ring
      rw [h1, Nat.add_mul_mod_self_left]

theorem shrB_small_spec (x : Bignum) (k : Nat) (hk : k < 32) (hwf : Wf x)
    (hneg : x.neg = false) :
    natValL (shrB x k).data = natValL x.data / 2 ^ k ∧ Canon (shrB x k) := by
  have hq : k / 32 = 0 := Nat.div_eq_of_lt hk
  have hmod : k % 32 = k := Nat.mod_eq_of_lt hk
  have hstep : shrB x k = if k / 32 ≥ x.data.length then { neg := x.neg, data := [] } else if k / 32 ≠ 0 ∧ k % 32 = 0 then reduce { neg := x.neg, data := x.data.drop (k / 32) } else reduce { neg := x.neg, data := intraShr (x.data.drop (k / 32)) (k % 32) } := rfl
  rw [hstep, hq, hmod]
  by_cases hlen : x.data.length = 0
  · rw [if_pos (by omega)]
    have hnil : x.data = [] := List.length_eq_zero.mp hlen
    rw [hnil]
    refine ⟨by simp [natValL_nil], ⟨?_, ?_, ?_⟩⟩
    · intro d hd
      simp at hd
    · intro _
      exact hneg
    · intro h
      simp at h
  · rw [if_neg (by omega), if_neg (by simp)]
    rw [List.drop_zero]
    obtain ⟨hiv, hiw⟩ := intraShr_spec k hk x.data hwf
    obtain ⟨hrv, _, hrc⟩ :=
      reduce_spec { neg := x.neg, data := intraShr x.data k } hiw
    refine ⟨?_, hrc⟩
    rw [hrv]
    rw [headD_mod_pow x.data k (by omega)] at hiv
    have hpos : 0 < 2 ^ k := Nat.pos_pow_of_pos _ (by omega)
    obtain ⟨P, gP⟩ : ∃ v, (2 : Nat) ^ k = v := ⟨_, rfl⟩
    obtain ⟨Vp, gVp⟩ : ∃ v, natValL (intraShr x.data k) = v := ⟨_, rfl⟩
    obtain ⟨Vx, gVx⟩ : ∃ v, natValL x.data = v := ⟨_, rfl⟩
    rw [gP] at hiv hpos
    rw [gVp, gVx] at hiv
    rw [gP, gVp, gVx]
    have hdm : P * (Vx / P) + Vx % P = Vx := Nat.div_add_mod Vx P
    have h3 : P * Vp + Vx % P = P * (Vx / P) + Vx % P := by rw [hiv, hdm]
    have h4 : P * Vp = P * (Vx / P) := Nat.add_right_cancel h3
    exact Nat.eq_of_mul_eq_mul_left hpos h4

theorem getD_last (l : List Nat) (h : l ≠ []) :
    l.getD (l.length - 1) 0 = l.getLast h := by
  have hlt : l.length - 1 < l.length := by
    cases l with
    | nil => exact absurd rfl h
    | cons a t => simp
  rw [List.getD_eq_getElem?_getD, List.getElem?_eq_getElem hlt,
    List.getLast_eq_getElem]
  rfl

theorem fromUInt32_canon (u : Nat) : Canon (fromUInt32 u) := by
  refine ⟨?_, ?_, ?_⟩
  · intro d hd
    by_cases hu : u % B32 = 0
    · have hdata : (fromUInt32 u).data = [] := by
        simp [fromUInt32, hu]
      rw [hdata] at hd
      simp at hd
    · have hdata : (fromUInt32 u).data = [u % B32] := by
        simp [fromUInt32, hu]
      rw [hdata] at hd
      have hd2 : d = u % B32 := by simpa using hd
      rw [hd2]
      exact Nat.mod_lt _ (by norm_num [B32])
  · intro _
    rfl
  · intro hne
    by_cases hu : u % B32 = 0
    · exact absurd (by simp [fromUInt32, hu]) hne
    · have hdata : (fromUInt32 u).data = [u % B32] := by simp [fromUInt32, hu]
      have h2 : (fromUInt32 u).data.getLast hne =
          (fromUInt32 u).data.getD ((fromUInt32 u).data.length - 1) 0 :=
        (getD_last _ hne).symm
      rw [h2, hdata]
      exact hu

theorem normalize_some (denom num : Bignum) (hc : Canon denom)
    (hne : denom.data ≠ []) : ∃ t, normalize denom num = some t := by
  have h0 : 0 < denom.data.getD (denom.data.length - 1) 0 := by
    rw [getD_last denom.data hne]
    exact Nat.pos_of_ne_zero (hc.2.2 hne)
  have hBd : denom.data.getD (denom.data.length - 1) 0 < B32 := by
    refine hc.1 _ (getD_mem_of_lt _ _ ?_)
    cases hd : denom.data with
    | nil => exact absurd hd hne
    | cons a t => simp [hd]
  obtain ⟨xr, hxr, _, _, _⟩ := normShift_spec _ h0 hBd
  cases hN : normalize denom num with
  | some t => exact ⟨t, rfl⟩
  | none =>
      have h5 : (normalize denom num).isSome = true := by
        show ((normShift (denom.data.getD (denom.data.length - 1) 0)).map _).isSome = true
        rw [hxr]
        rfl
      rw [hN] at h5
      simp at h5

theorem divideF_ok_aux (fuel : Nat) (x y : Bignum) (rd : Bool)
    (hy : Canon y) (hne : y.data ≠ [])
    (hnest : rd = true → ∀ z : Bignum,
      ∃ p, divideF fuel z (fromUInt32 maxBasicType) false = Except.ok p) :
    ∃ p, divideF (fuel + 1) x y rd = Except.ok p := by
  have hden : Canon { neg := false, data := y.data } := ⟨hy.1, fun _ => rfl, hy.2.2⟩
  have hsome : ∀ num' : Bignum,
      normalize { neg := false, data := y.data } num' ≠ none := by
    intro num' hcon
    obtain ⟨t, ht⟩ := normalize_some { neg := false, data := y.data } num' hden hne
    rw [ht] at hcon
    simp at hcon
  have hno : rd = true → ∀ (z : Bignum) (g : Bignum × Bignum → Bignum)
      (e : DivErr),
      ¬ ((divideF fuel z (fromUInt32 maxBasicType) false).map g =
        Except.error e) := by
    intro hrd z g e hcon
    obtain ⟨p, hp⟩ := hnest hrd z
    rw [hp] at hcon
    simp [Except.map] at hcon
  simp only [divideF]
  rw [if_neg (fun hc => hne (List.length_eq_zero.mp hc))]
  split
  · exact ⟨_, rfl⟩
  · split
    · exact ⟨_, rfl⟩
    · split
      · exact ⟨_, rfl⟩
      · split
        · exact absurd (by assumption) (hsome _)
        · split
          next hrd =>
            split
            next e heq =>
              split at heq
              · exact absurd heq (hno hrd _ _ _)
              · simp at heq
            next remB heq => exact ⟨_, rfl⟩
          next hrd => exact ⟨_, rfl⟩

theorem wf_single (b : Bool) (v : Nat) (hv : v < B32) :
    Wf { neg := b, data := [v] } := by
  intro d hd
  have h2 : d = v := by simpa using hd
  rw [h2]
  exact hv

theorem canon_single (b : Bool) (v : Nat) (h0 : v ≠ 0) (hv : v < B32) :
    Canon { neg := b, data := [v] } := by
  refine ⟨wf_single b v hv, fun hl => absurd hl (by simp), fun hne => ?_⟩
  rw [show ({ neg := b, data := [v] } : Bignum).data.getLast hne = v from rfl]
  exact h0

theorem divideF1_ok (z : Bignum) :
    ∃ p, divideF 1 z (fromUInt32 maxBasicType) false = Except.ok p := by
  have hdata : (fromUInt32 maxBasicType).data = [4294967295] := by
    norm_num [fromUInt32, maxBasicType, B32]
  exact divideF_ok_aux 0 z (fromUInt32 maxBasicType) false (fromUInt32_canon _)
    (by rw [hdata]; simp) (fun h => nomatch h)

theorem divide_ok (x y : Bignum) (rd : Bool) (hy : Canon y)
    (hne : y.data ≠ []) : ∃ p, divide x y rd = Except.ok p :=
  divideF_ok_aux 1 x y rd hy hne (fun _ => divideF1_ok)

theorem getD_lt_of_wf (l : List Nat) (i : Nat) (h : ∀ d ∈ l, d < B32) :
    l.getD i 0 < B32 := by
  by_cases hi : i < l.length
  · exact h _ (getD_mem_of_lt l i hi)
  · rw [List.getD_eq_default _ _ (by omega)]
    norm_num [B32]

theorem orB_canon (x y : Bignum) (hx : Wf x) (hy : Wf y) : Canon (orB x y) := by
  have hstep : orB x y = reduce { neg := x.neg, data := (List.range (zeroExtend x.data (max x.data.length y.data.length)).length).map fun i => if i < y.data.length then (zeroExtend x.data (max x.data.length y.data.length)).getD i 0 ||| y.data.getD i 0 else (zeroExtend x.data (max x.data.length y.data.length)).getD i 0 } := rfl
  rw [hstep]
  refine (reduce_spec _ ?_).2.2
  intro d hd
  obtain ⟨i, hi, hfi⟩ := List.mem_map.mp hd
  rw [← hfi]
  have h1 : (zeroExtend x.data (max x.data.length y.data.length)).getD i 0 < B32 :=
    getD_lt_of_wf _ _ (zeroExtend_wf _ _ hx)
  have h2 : y.data.getD i 0 < B32 := getD_lt_of_wf _ _ hy
  split
  · exact Nat.or_lt_two_pow h1 h2
  · exact h1

theorem xorB_canon (x y : Bignum) (hx : Wf x) (hy : Wf y) : Canon (xorB x y) := by
  have hstep : xorB x y = reduce { neg := x.neg, data := (List.range (zeroExtend x.data (max x.data.length y.data.length)).length).map fun i => if i < y.data.length then (zeroExtend x.data (max x.data.length y.data.length)).getD i 0 ^^^ y.data.getD i 0 else (zeroExtend x.data (max x.data.length y.data.length)).getD i 0 } := rfl
  rw [hstep]
  refine (reduce_spec _ ?_).2.2
  intro d hd
  obtain ⟨i, hi, hfi⟩ := List.mem_map.mp hd
  rw [← hfi]
  have h1 : (zeroExtend x.data (max x.data.length y.data.length)).getD i 0 < B32 :=
    getD_lt_of_wf _ _ (zeroExtend_wf _ _ hx)
  have h2 : y.data.getD i 0 < B32 := getD_lt_of_wf _ _ hy
  split
  · exact Nat.xor_lt_two_pow h1 h2
  · exact h1

theorem andB_canon (x y : Bignum) (hx : Wf x) : Canon (andB x y) := by
  have hstep : andB x y = reduce { neg := x.neg, data := (List.range (min x.data.length y.data.length)).map fun i => x.data.getD i 0 &&& y.data.getD i 0 } := rfl
  rw [hstep]
  refine (reduce_spec _ ?_).2.2
  intro d hd
  obtain ⟨i, hi, hfi⟩ := List.mem_map.mp hd
  rw [← hfi]
  calc x.data.getD i 0 &&& y.data.getD i 0 ≤ x.data.getD i 0 := Nat.and_le_left
    _ < B32 := getD_lt_of_wf _ _ hx

theorem fromInt32_canon (i : Int) (hi : i.natAbs < B32) : Canon (fromInt32 i) := by
  by_cases h0 : i.natAbs % B32 = 0
  · have habs : i.natAbs = 0 := by
      rwa [Nat.mod_eq_of_lt hi] at h0
    have hi0 : i = 0 := Int.natAbs_eq_zero.mp habs
    have hstep : fromInt32 i = { neg := decide (i < 0), data := [] } := by
      show ({ neg := decide (i < 0), data := if i.natAbs % B32 ≠ 0 then [i.natAbs % B32] else [] } : Bignum) = _
      rw [if_neg (by simpa using h0)]
    rw [hstep, hi0]
    exact ⟨by intro d hd; simp at hd, fun _ => by norm_num, fun h => absurd rfl h⟩
  · have hstep : fromInt32 i = { neg := decide (i < 0), data := [i.natAbs % B32] } := by
      show ({ neg := decide (i < 0), data := if i.natAbs % B32 ≠ 0 then [i.natAbs % B32] else [] } : Bignum) = _
      rw [if_pos (by simpa using h0)]
    rw [hstep]
    exact canon_single _ _ h0 (Nat.mod_lt _ (by norm_num [B32]))

theorem shlB_canon (x : Bignum) (k : Nat) (hx : Wf x) : Canon (shlB x k) := by
  have hstep : shlB x k = reduce { neg := x.neg, data := if k % 32 ≠ 0 then intraShl (if k / 32 ≠ 0 then List.replicate (k / 32) 0 ++ x.data else x.data) (k % 32) else (if k / 32 ≠ 0 then List.replicate (k / 32) 0 ++ x.data else x.data) } := rfl
  rw [hstep]
  have hd1 : ∀ d ∈ (if k / 32 ≠ 0 then List.replicate (k / 32) 0 ++ x.data
      else x.data), d < B32 := by
    intro d hd
    split at hd
    · rcases List.mem_append.mp hd with h1 | h2
      · have : d = 0 := List.eq_of_mem_replicate h1
        rw [this]
        norm_num [B32]
      · exact hx d h2
    · exact hx d hd
  refine (reduce_spec _ ?_).2.2
  split
  · exact (intraShl_spec _ _ (by omega) (by omega) hd1).2
  · exact hd1

theorem shrB_canon (x : Bignum) (k : Nat) (hx : Canon x)
    (hneg : x.neg = true → k / 32 < x.data.length) : Canon (shrB x k) := by
  have hstep : shrB x k = if k / 32 ≥ x.data.length then { neg := x.neg, data := [] } else if k / 32 ≠ 0 ∧ k % 32 = 0 then reduce { neg := x.neg, data := x.data.drop (k / 32) } else reduce { neg := x.neg, data := intraShr (x.data.drop (k / 32)) (k % 32) } := rfl
  rw [hstep]
  have hdwf : ∀ d ∈ x.data.drop (k / 32), d < B32 :=
    fun d hd => hx.1 d (List.mem_of_mem_drop hd)
  split
  · have hnf : x.neg = false := by
      by_cases hn : x.neg = true
      · have := hneg hn
        omega
      · simpa using hn
    refine ⟨by intro d hd; simp at hd, fun _ => hnf, fun h => absurd rfl h⟩
  · split
    · exact (reduce_spec { neg := x.neg, data := x.data.drop (k / 32) } hdwf).2.2
    · exact (reduce_spec { neg := x.neg, data := intraShr (x.data.drop (k / 32)) (k % 32) } (intraShr_spec (k % 32) (by omega) _ hdwf).2).2.2

/-- The convolution tail that the inner `jA` loop of `operator*=`
accumulates at column `i`, starting from offset `jA`. -/
def convAt (yd : List Nat) : List Nat → Nat → Nat → Nat
  | [], _, _ => 0
  | xa :: xs, i, jA =>
      (if jA ≤ i ∧ i - jA < yd.length then xa * yd.getD (i - jA) 0 else 0) +
        convAt yd xs i (jA + 1)

/-- The value of the columns `i, i+1, …, i+n-1` of the product, base `B32`. -/
def colsSum (xd yd : List Nat) : Nat → Nat → Nat
  | 0, _ => 0
  | n + 1, i => convAt yd xd i 0 + B32 * colsSum xd yd n (i + 1)

/-- The single-digit slice of the column sums contributed by the head. -/
def hdSum (x0 : Nat) (yd : List Nat) : Nat → Nat → Nat
  | 0, _ => 0
  | n + 1, i =>
      (if i < yd.length then x0 * yd.getD i 0 else 0) + B32 * hdSum x0 yd n (i + 1)

theorem getD_eq_getElem (l : List Nat) (i : Nat) (h : i < l.length) :
    l.getD i 0 = l[i] := by
  rw [List.getD_eq_getElem?_getD, List.getElem?_eq_getElem h]
  rfl

theorem hdSum_eval (x0 : Nat) (yd : List Nat) : ∀ n i, yd.length ≤ i + n →
    hdSum x0 yd n i = x0 * natValL (yd.drop i) := by
  intro n
  induction n with
  | zero =>
      intro i h
      have h1 : yd.drop i = [] := List.drop_eq_nil_of_le (by omega)
      rw [show hdSum x0 yd 0 i = 0 from rfl, h1, natValL_nil]
      ring
  | succ n ih =>
      intro i h
      have hstep : hdSum x0 yd (n + 1) i =
          (if i < yd.length then x0 * yd.getD i 0 else 0) +
            B32 * hdSum x0 yd n (i + 1) := rfl
      rw [hstep, ih (i + 1) (by omega)]
      by_cases hi : i < yd.length
      · rw [if_pos hi]
        have hdrop : yd.drop i = yd.getD i 0 :: yd.drop (i + 1) := by
          rw [getD_eq_getElem yd i hi]
          exact List.drop_eq_getElem_cons hi
        rw [hdrop, natValL_cons]
        ring
      · rw [if_neg hi]
        have h1 : yd.drop i = [] := List.drop_eq_nil_of_le (by omega)
        have h2 : yd.drop (i + 1) = [] := List.drop_eq_nil_of_le (by omega)
        rw [h1, h2, natValL_nil]
        ring

theorem convAt_cons_zero (yd : List Nat) (x0 : Nat) (xs : List Nat) (i : Nat) :
    convAt yd (x0 :: xs) i 0 =
      (if i < yd.length then x0 * yd.getD i 0 else 0) + convAt yd xs i 1 := by
  have hstep : convAt yd (x0 :: xs) i 0 =
      (if 0 ≤ i ∧ i - 0 < yd.length then x0 * yd.getD (i - 0) 0 else 0) +
        convAt yd xs i 1 := rfl
  rw [hstep]
  simp only [Nat.zero_le, true_and, Nat.sub_zero]

theorem convAt_shift (yd : List Nat) : ∀ (xs : List Nat) (i jA : Nat),
    convAt yd xs (i + 1) (jA + 1) = convAt yd xs i jA := by
  intro xs
  induction xs with
  | nil => intro i jA; rfl
  | cons xa xs ih =>
      intro i jA
      have h1 : convAt yd (xa :: xs) (i + 1) (jA + 1) =
          (if jA + 1 ≤ i + 1 ∧ (i + 1) - (jA + 1) < yd.length then
            xa * yd.getD ((i + 1) - (jA + 1)) 0 else 0) +
            convAt yd xs (i + 1) (jA + 1 + 1) := rfl
      have h2 : convAt yd (xa :: xs) i jA =
          (if jA ≤ i ∧ i - jA < yd.length then xa * yd.getD (i - jA) 0 else 0) +
            convAt yd xs i (jA + 1) := rfl
      rw [h1, h2, ih i (jA + 1)]
      have h3 : (i + 1) - (jA + 1) = i - jA := by omega
      simp only [h3, Nat.add_le_add_iff_right]

theorem convAt_zero_of_lt (yd : List Nat) : ∀ (xs : List Nat) (i jA : Nat),
    i < jA → convAt yd xs i jA = 0 := by
  intro xs
  induction xs with
  | nil => intro i jA _; rfl
  | cons xa xs ih =>
      intro i jA hij
      have h1 : convAt yd (xa :: xs) i jA =
          (if jA ≤ i ∧ i - jA < yd.length then xa * yd.getD (i - jA) 0 else 0) +
            convAt yd xs i (jA + 1) := rfl
      rw [h1, ih i (jA + 1) (by omega), if_neg (by omega)]

theorem colsSum_nil (yd : List Nat) : ∀ n i, colsSum [] yd n i = 0 := by
  intro n
  induction n with
  | zero => intro i; rfl
  | succ n ih =>
      intro i
      have h1 : colsSum [] yd (n + 1) i =
          convAt yd [] i 0 + B32 * colsSum [] yd n (i + 1) := rfl
      rw [h1, ih (i + 1)]
      rfl

theorem colsSum_cons (x0 : Nat) (xs yd : List Nat) : ∀ (m i : Nat),
    colsSum (x0 :: xs) yd m (i + 1) =
      hdSum x0 yd m (i + 1) + colsSum xs yd m i := by
  intro m
  induction m with
  | zero => intro i; rfl
  | succ m ih =>
      intro i
      have h1 : colsSum (x0 :: xs) yd (m + 1) (i + 1) =
          convAt yd (x0 :: xs) (i + 1) 0 + B32 * colsSum (x0 :: xs) yd m (i + 2) :=
        rfl
      have h2 : colsSum xs yd (m + 1) i =
          convAt yd xs i 0 + B32 * colsSum xs yd m (i + 1) := rfl
      have h3 : hdSum x0 yd (m + 1) (i + 1) =
          (if i + 1 < yd.length then x0 * yd.getD (i + 1) 0 else 0) +
            B32 * hdSum x0 yd m (i + 2) := rfl
      rw [h1, h2, h3, convAt_cons_zero, ih (i + 1)]
      rw [show convAt yd xs (i + 1) 1 = convAt yd xs i 0 from convAt_shift yd xs i 0]
      ring

theorem colsSum_mul (yd : List Nat) : ∀ (xd : List Nat) (n : Nat),
    xd.length + yd.length ≤ n →
    colsSum xd yd n 0 = natValL xd * natValL yd := by
  intro xd
  induction xd with
  | nil =>
      intro n _
      rw [colsSum_nil, natValL_nil]
      ring
  | cons x0 xs ih =>
      intro n hn
      cases n with
      | zero => simp at hn
      | succ m =>
          have hlen : xs.length + yd.length ≤ m := by
            simp only [List.length_cons] at hn
            omega
          have h1 : colsSum (x0 :: xs) yd (m + 1) 0 =
              convAt yd (x0 :: xs) 0 0 + B32 * colsSum (x0 :: xs) yd m 1 := rfl
          have h4 := colsSum_cons x0 xs yd m 0
          norm_num at h4
          have h5 : hdSum x0 yd (m + 1) 0 =
              (if 0 < yd.length then x0 * yd.getD 0 0 else 0) +
                B32 * hdSum x0 yd m 1 := rfl
          have h6 : hdSum x0 yd (m + 1) 0 = x0 * natValL yd := by
            rw [hdSum_eval x0 yd (m + 1) 0 (by omega), List.drop_zero]
          rw [h1, convAt_cons_zero, convAt_zero_of_lt yd xs 0 1 (by omega), h4,
            ih m hlen, natValL_cons]
          rw [h5] at h6
          obtain ⟨H, gH⟩ : ∃ v, (if 0 < yd.length then x0 * yd.getD 0 0 else 0) = v :=
            ⟨_, rfl⟩
          obtain ⟨S, gS⟩ : ∃ v, hdSum x0 yd m 1 = v := ⟨_, rfl⟩
          rw [gH, gS] at h6 ⊢
          calc H + 0 + B32 * (S + natValL xs * natValL yd)
              = (H + B32 * S) + B32 * (natValL xs * natValL yd) := by ring
            _ = x0 * natValL yd + B32 * (natValL xs * natValL yd) := by rw [h6]
            _ = (x0 + B32 * natValL xs) * natValL yd := by ring

theorem mulInner_spec (yd : List Nat) (hwfy : ∀ d ∈ yd, d < B32) :
    ∀ (xs : List Nat) (i jA lo hi c : Nat),
    (∀ d ∈ xs, d < B32) → lo < B32 → hi < B32 →
    (mulInner xs yd i jA (lo, hi, c)).1 < B32 ∧
    (mulInner xs yd i jA (lo, hi, c)).2.1 < B32 ∧
    (mulInner xs yd i jA (lo, hi, c)).2.2 ≤ c + xs.length ∧
    (mulInner xs yd i jA (lo, hi, c)).1 +
      B32 * (mulInner xs yd i jA (lo, hi, c)).2.1 +
      B32 * B32 * (mulInner xs yd i jA (lo, hi, c)).2.2 =
      lo + B32 * hi + B32 * B32 * c + convAt yd xs i jA := by
  have hB : B32 = 4294967296 := rfl
  intro xs
  induction xs with
  | nil =>
      intro i jA lo hi c _ hlo hhi
      have hnil : mulInner [] yd i jA (lo, hi, c) = (lo, hi, c) := rfl
      rw [hnil]
      dsimp only
      refine ⟨hlo, hhi, by omega, ?_⟩
      have hc : convAt yd [] i jA = 0 := rfl
      rw [hc, Nat.add_zero]
  | cons xa xs ih =>
      intro i jA lo hi c hwfx hlo hhi
      have hxa : xa < B32 := hwfx xa (by simp)
      have hwfxs : ∀ d ∈ xs, d < B32 := fun d hd => hwfx d (by simp [hd])
      have hyj : yd.getD (i - jA) 0 < B32 := getD_lt_of_wf _ _ hwfy
      obtain ⟨Hi, Lo, hp⟩ : ∃ h l, DDproduct xa (yd.getD (i - jA) 0) = (h, l) :=
        ⟨_, _, rfl⟩
      have hdd := DDproduct_spec xa (yd.getD (i - jA) 0) hxa hyj
      rw [hp] at hdd
      obtain ⟨hpid, hHiB, hLoB⟩ := hdd
      have hprodle : xa * yd.getD (i - jA) 0 ≤ (B32 - 1) * (B32 - 1) :=
        Nat.mul_le_mul (by omega) (by omega)
      have hHi2 : Hi ≤ B32 - 2 := by
        obtain ⟨PD, gPD⟩ : ∃ v, xa * yd.getD (i - jA) 0 = v := ⟨_, rfl⟩
        rw [gPD] at hpid hprodle
        simp only [hB] at hpid hprodle hLoB ⊢
        omega
      have hstep : mulInner (xa :: xs) yd i jA (lo, hi, c) =
          mulInner xs yd i (jA + 1)
            (if jA ≤ i ∧ i - jA < yd.length then
              ((lo + (DDproduct xa (yd.getD (i - jA) 0)).2) % B32,
               ((if (lo + (DDproduct xa (yd.getD (i - jA) 0)).2) % B32 < lo then
                  (hi + 1) % B32 else hi) +
                (DDproduct xa (yd.getD (i - jA) 0)).1) % B32,
               c + (if ((if (lo + (DDproduct xa (yd.getD (i - jA) 0)).2) % B32 < lo
                  then (hi + 1) % B32 else hi) +
                  (DDproduct xa (yd.getD (i - jA) 0)).1) % B32 < hi then 1 else 0))
            else (lo, hi, c)) := rfl
      have hconv : convAt yd (xa :: xs) i jA =
          (if jA ≤ i ∧ i - jA < yd.length then xa * yd.getD (i - jA) 0 else 0) +
            convAt yd xs i (jA + 1) := rfl
      rw [hstep, hp]
      dsimp only
      by_cases hfire : jA ≤ i ∧ i - jA < yd.length
      · rw [if_pos hfire]
        rw [hconv, if_pos hfire]
        obtain ⟨lo2, glo2⟩ : ∃ v, (lo + Lo) % B32 = v := ⟨_, rfl⟩
        obtain ⟨hi2, ghi2⟩ :
            ∃ v, ((if (lo + Lo) % B32 < lo then (hi + 1) % B32 else hi) + Hi) %
              B32 = v := ⟨_, rfl⟩
        obtain ⟨c2, gc2⟩ :
            ∃ v, c + (if ((if (lo + Lo) % B32 < lo then (hi + 1) % B32 else hi) +
              Hi) % B32 < hi then 1 else 0) = v := ⟨_, rfl⟩
        rw [gc2, ghi2, glo2]
        have hlo2 : lo2 < B32 := by
          rw [← glo2]
          exact Nat.mod_lt _ (by norm_num [B32])
        have hhi2 : hi2 < B32 := by
          rw [← ghi2]
          exact Nat.mod_lt _ (by norm_num [B32])
        have hc2 : c2 ≤ c + 1 := by
          rw [← gc2]
          split_ifs <;> omega
        have hlocal : lo2 + B32 * hi2 + B32 * B32 * c2 =
            lo + B32 * hi + B32 * B32 * c + (Lo + B32 * Hi) := by
          rw [← glo2, ← ghi2, ← gc2]
          simp only [hB] at hlo hhi hLoB hHi2 ⊢
          split_ifs <;> omega
        obtain ⟨r1, r2, r3, rid⟩ := ih i (jA + 1) lo2 hi2 c2 hwfxs hlo2 hhi2
        refine ⟨r1, r2, ?_, ?_⟩
        · calc (mulInner xs yd i (jA + 1) (lo2, hi2, c2)).2.2 ≤ c2 + xs.length := r3
            _ ≤ c + 1 + xs.length := by omega
            _ = c + (xa :: xs).length := by
                rw [List.length_cons]
                ring
        · obtain ⟨PD, gPD⟩ : ∃ v, xa * yd.getD (i - jA) 0 = v := ⟨_, rfl⟩
          obtain ⟨CV, gCV⟩ : ∃ v, convAt yd xs i (jA + 1) = v := ⟨_, rfl⟩
          obtain ⟨R1, gR1⟩ : ∃ v, (mulInner xs yd i (jA + 1) (lo2, hi2, c2)).1 = v :=
            ⟨_, rfl⟩
          obtain ⟨R2, gR2⟩ :
              ∃ v, (mulInner xs yd i (jA + 1) (lo2, hi2, c2)).2.1 = v := ⟨_, rfl⟩
          obtain ⟨R3, gR3⟩ :
              ∃ v, (mulInner xs yd i (jA + 1) (lo2, hi2, c2)).2.2 = v := ⟨_, rfl⟩
          rw [gPD] at hpid
          rw [gPD, gCV, gR1, gR2, gR3]
          rw [gCV, gR1, gR2, gR3] at rid
          simp only [hB] at rid hlocal hpid ⊢
          omega
      · rw [if_neg hfire]
        rw [hconv, if_neg hfire]
        obtain ⟨r1, r2, r3, rid⟩ := ih i (jA + 1) lo hi c hwfxs hlo hhi
        refine ⟨r1, r2, ?_, ?_⟩
        · calc (mulInner xs yd i (jA + 1) (lo, hi, c)).2.2 ≤ c + xs.length := r3
            _ ≤ c + (xa :: xs).length := by
                rw [List.length_cons]
                omega
        · rw [rid]
          ring

theorem mulOuter_spec (xd yd : List Nat) (hwfx : ∀ d ∈ xd, d < B32)
    (hwfy : ∀ d ∈ yd, d < B32) (hxlen : xd.length < B32) :
    ∀ (n i shp cp : Nat), shp < B32 → cp < B32 →
    (∀ d ∈ mulOuter xd yd n i shp cp, d < B32) ∧
    (mulOuter xd yd n i shp cp).length = n ∧
    ∃ s2 c2, natValL (mulOuter xd yd n i shp cp) + B32 ^ n * (s2 + B32 * c2) =
      shp + B32 * cp + colsSum xd yd n i := by
  intro n
  induction n with
  | zero =>
      intro i shp cp hshp hcp
      refine ⟨?_, rfl, shp, cp, ?_⟩
      · intro d hd
        have h0 : mulOuter xd yd 0 i shp cp = [] := rfl
        rw [h0] at hd
        simp at hd
      · have h0 : mulOuter xd yd 0 i shp cp = [] := rfl
        rw [h0, natValL_nil, show colsSum xd yd 0 i = 0 from rfl, pow_zero]
        ring
  | succ n ih =>
      intro i shp cp hshp hcp
      obtain ⟨hlt1, hlt2, hcle, hid⟩ :=
        mulInner_spec yd hwfy xd i 0 shp cp 0 hwfx hshp hcp
      have hcp2 : (mulInner xd yd i 0 (shp, cp, 0)).2.2 < B32 := by omega
      have hstep : mulOuter xd yd (n + 1) i shp cp =
          (mulInner xd yd i 0 (shp, cp, 0)).1 ::
            mulOuter xd yd n (i + 1) (mulInner xd yd i 0 (shp, cp, 0)).2.1
              (mulInner xd yd i 0 (shp, cp, 0)).2.2 := rfl
      rw [hstep]
      obtain ⟨hw2, hl2, s2, c2, hv2⟩ :=
        ih (i + 1) (mulInner xd yd i 0 (shp, cp, 0)).2.1
          (mulInner xd yd i 0 (shp, cp, 0)).2.2 hlt2 hcp2
      refine ⟨?_, by rw [List.length_cons, hl2], s2, c2, ?_⟩
      · intro d hd
        rcases List.mem_cons.mp hd with h1 | h2
        · rw [h1]
          exact hlt1
        · exact hw2 d h2
      · rw [natValL_cons]
        have hcols : colsSum xd yd (n + 1) i =
            convAt yd xd i 0 + B32 * colsSum xd yd n (i + 1) := rfl
        rw [hcols]
        calc (mulInner xd yd i 0 (shp, cp, 0)).1 +
              B32 * natValL (mulOuter xd yd n (i + 1)
                (mulInner xd yd i 0 (shp, cp, 0)).2.1
                (mulInner xd yd i 0 (shp, cp, 0)).2.2) +
              B32 ^ (n + 1) * (s2 + B32 * c2)
            = (mulInner xd yd i 0 (shp, cp, 0)).1 +
              B32 * (natValL (mulOuter xd yd n (i + 1)
                (mulInner xd yd i 0 (shp, cp, 0)).2.1
                (mulInner xd yd i 0 (shp, cp, 0)).2.2) +
                B32 ^ n * (s2 + B32 * c2)) := by
              rw [pow_succ]
              ring
          _ = (mulInner xd yd i 0 (shp, cp, 0)).1 +
              B32 * ((mulInner xd yd i 0 (shp, cp, 0)).2.1 +
                B32 * (mulInner xd yd i 0 (shp, cp, 0)).2.2 +
                colsSum xd yd n (i + 1)) := by rw [hv2]
          _ = ((mulInner xd yd i 0 (shp, cp, 0)).1 +
              B32 * (mulInner xd yd i 0 (shp, cp, 0)).2.1 +
              B32 * B32 * (mulInner xd yd i 0 (shp, cp, 0)).2.2) +
              B32 * colsSum xd yd n (i + 1) := by ring
          _ = (shp + B32 * cp + B32 * B32 * 0 + convAt yd xd i 0) +
              B32 * colsSum xd yd n (i + 1) := by rw [hid]
          _ = shp + B32 * cp +
              (convAt yd xd i 0 + B32 * colsSum xd yd n (i + 1)) := by ring

theorem canon_zeroB : Canon zeroB :=
  ⟨by intro d hd; simp [zeroB] at hd, fun _ => rfl, fun h => absurd rfl h⟩

theorem canon_reduce_relabel (b : Bool) (d : List Nat)
    (hwf : ∀ q ∈ d, q < B32) (hnz : natValL d ≠ 0) :
    natValL ({ neg := b, data := (reduce { neg := false, data := d }).data } :
      Bignum).data = natValL d ∧
    Canon { neg := b, data := (reduce { neg := false, data := d }).data } := by
  obtain ⟨hval, _, hcanon⟩ := reduce_spec { neg := false, data := d } hwf
  have hne : (reduce { neg := false, data := d }).data ≠ [] := by
    intro hnil
    rw [hnil, natValL_nil] at hval
    exact hnz hval.symm
  refine ⟨hval, hcanon.1, ?_, hcanon.2.2⟩
  intro hlen0
  exact absurd (List.length_eq_zero.mp hlen0) hne

theorem canon_data_single (x : Bignum) (hx : Canon x) (h1 : x.data.length = 1) :
    ∃ xa, x.data = [xa] ∧ xa ≠ 0 ∧ xa < B32 := by
  obtain ⟨xa, hxa⟩ := List.length_eq_one.mp h1
  refine ⟨xa, hxa, ?_, hx.1 xa (by rw [hxa]; simp)⟩
  have hne : x.data ≠ [] := by rw [hxa]; simp
  have h2 := getD_last x.data hne
  have h3 : x.data.getD (x.data.length - 1) 0 = xa := by
    rw [hxa]
    rfl
  have h4 : xa = x.data.getLast hne := by
    rw [← h2]
    exact h3.symm
  rw [h4]
  exact hx.2.2 hne

theorem mulB_spec (x y : Bignum) (hx : Canon x) (hy : Canon y)
    (hlen : x.data.length + y.data.length ≤ 2 ^ 31) :
    natValL (mulB x y).data = natValL x.data * natValL y.data ∧
    Canon (mulB x y) := by
  have hB : B32 = 4294967296 := rfl
  have hstep : mulB x y = if x.data.length = 0 ∨ y.data.length = 0 then zeroB else (if x.data.length + y.data.length = 2 then (if (x.data.headD 0 * y.data.headD 0) % B32 / x.data.headD 0 ≠ y.data.headD 0 then { neg := x.neg ≠ y.neg, data := [(DDproduct (x.data.headD 0) (y.data.headD 0)).2, (DDproduct (x.data.headD 0) (y.data.headD 0)).1] } else { neg := x.neg ≠ y.neg, data := [(x.data.headD 0 * y.data.headD 0) % B32] }) else { neg := x.neg ≠ y.neg, data := (reduce { neg := false, data := if x.data.length = 1 then mulDigitLoop y.data (x.data.headD 0) 0 else if y.data.length = 1 then mulDigitLoop x.data (y.data.headD 0) 0 else mulOuter x.data y.data (x.data.length + y.data.length) 0 0 0 }).data }) := rfl
  by_cases h0 : x.data.length = 0 ∨ y.data.length = 0
  · rw [hstep, if_pos h0]
    refine ⟨?_, canon_zeroB⟩
    have hz : natValL x.data * natValL y.data = 0 := by
      rcases h0 with h1 | h1
      · rw [List.length_eq_zero.mp h1, natValL_nil, Nat.zero_mul]
      · rw [List.length_eq_zero.mp h1, natValL_nil, Nat.mul_zero]
    rw [hz]
    rfl
  · push_neg at h0
    obtain ⟨hx0, hy0⟩ := h0
    have hxne : x.data ≠ [] := fun h => hx0 (by rw [h]; rfl)
    have hyne : y.data ≠ [] := fun h => hy0 (by rw [h]; rfl)
    have hxpos : 0 < natValL x.data := natValL_pos x.data hxne (hx.2.2 _)
    have hypos : 0 < natValL y.data := natValL_pos y.data hyne (hy.2.2 _)
    have hxlp : 0 < x.data.length := List.length_pos.mpr hxne
    have hylp : 0 < y.data.length := List.length_pos.mpr hyne
    rw [hstep, if_neg (by push_neg; exact ⟨hx0, hy0⟩)]
    by_cases h2 : x.data.length + y.data.length = 2
    · have hx1 : x.data.length = 1 := by omega
      have hy1 : y.data.length = 1 := by omega
      obtain ⟨xa, hxa, hxane, hxaB⟩ := canon_data_single x hx hx1
      obtain ⟨yb, hyb, hybne, hybB⟩ := canon_data_single y hy hy1
      rw [if_pos h2]
      have hhx : x.data.headD 0 = xa := by rw [hxa]; rfl
      have hhy : y.data.headD 0 = yb := by rw [hyb]; rfl
      rw [hhx, hhy]
      have hvx : natValL x.data = xa := by rw [hxa, natValL_single]
      have hvy : natValL y.data = yb := by rw [hyb, natValL_single]
      by_cases hov : (xa * yb) % B32 / xa ≠ yb
      · rw [if_pos hov]
        have hge : B32 ≤ xa * yb := by
          by_contra hcon
          push_neg at hcon
          have hmod : (xa * yb) % B32 = xa * yb := Nat.mod_eq_of_lt hcon
          exact hov (by rw [hmod]; exact Nat.mul_div_cancel_left yb (by omega))
        obtain ⟨Hi, Lo, hp⟩ : ∃ h l, DDproduct xa yb = (h, l) := ⟨_, _, rfl⟩
        have hdd := DDproduct_spec xa yb hxaB hybB
        rw [hp] at hdd
        obtain ⟨hpid, hHiB, hLoB⟩ := hdd
        rw [hp]
        dsimp only
        have hHipos : Hi ≠ 0 := by
          intro hcon
          rw [hcon] at hpid
          obtain ⟨PD, gPD⟩ : ∃ v, xa * yb = v := ⟨_, rfl⟩
          rw [gPD] at hpid hge
          simp only [hB] at hpid hge hLoB
          omega
        refine ⟨?_, ?_, ?_, ?_⟩
        · rw [hvx, hvy, natValL_cons, natValL_single]
          obtain ⟨PD, gPD⟩ : ∃ v, xa * yb = v := ⟨_, rfl⟩
          rw [gPD] at hpid ⊢
          simp only [hB] at hpid ⊢
          omega
        · intro q hq
          rcases List.mem_cons.mp hq with hh | hh
          · rw [hh]; exact hLoB
          · have : q = Hi := by simpa using hh
            rw [this]; exact hHiB
        · intro hl
          simp at hl
        · intro hne
          exact hHipos
      · rw [if_neg hov]
        push_neg at hov
        have hle1 : xa * yb ≤ (xa * yb) % B32 := by
          have h3 : yb * xa ≤ (xa * yb) % B32 :=
            (Nat.le_div_iff_mul_le (by omega)).mp (le_of_eq hov.symm)
          calc xa * yb = yb * xa := by ring
            _ ≤ (xa * yb) % B32 := h3
        have hle2 : (xa * yb) % B32 ≤ xa * yb := Nat.mod_le _ _
        have heq : (xa * yb) % B32 = xa * yb := by omega
        refine ⟨?_, ?_, ?_, ?_⟩
        · rw [hvx, hvy, natValL_single, heq]
        · intro q hq
          have : q = (xa * yb) % B32 := by simpa using hq
          rw [this]
          exact Nat.mod_lt _ (by norm_num [B32])
        · intro hl
          simp at hl
        · intro hne
          rw [show [(xa * yb) % B32].getLast hne = (xa * yb) % B32 from rfl, heq]
          exact Nat.mul_ne_zero (by omega) (by omega)
    · rw [if_neg h2]
      by_cases hxl1 : x.data.length = 1
      · rw [if_pos hxl1]
        obtain ⟨xa, hxa, hxane, hxaB⟩ := canon_data_single x hx hxl1
        have hhx : x.data.headD 0 = xa := by rw [hxa]; rfl
        rw [hhx]
        obtain ⟨_, _, hdv⟩ := mulDigitLoop_spec y.data xa 0 hy.1 hxaB
          (by norm_num [B32])
        have hwf2 : ∀ q ∈ mulDigitLoop y.data xa 0, q < B32 :=
          (mulDigitLoop_spec y.data xa 0 hy.1 hxaB (by norm_num [B32])).2.1
        have hnz : natValL (mulDigitLoop y.data xa 0) ≠ 0 := by
          rw [hdv]
          have : 0 < natValL y.data * xa :=
            Nat.mul_pos hypos (by omega)
          omega
        obtain ⟨hval, hcanon⟩ :=
          canon_reduce_relabel (decide (x.neg ≠ y.neg)) _ hwf2 hnz
        refine ⟨?_, hcanon⟩
        rw [hval, hdv]
        have hvx : natValL x.data = xa := by rw [hxa, natValL_single]
        rw [hvx]
        ring
      · rw [if_neg hxl1]
        by_cases hyl1 : y.data.length = 1
        · rw [if_pos hyl1]
          obtain ⟨yb, hyb, hybne, hybB⟩ := canon_data_single y hy hyl1
          have hhy : y.data.headD 0 = yb := by rw [hyb]; rfl
          rw [hhy]
          obtain ⟨_, _, hdv⟩ := mulDigitLoop_spec x.data yb 0 hx.1 hybB
            (by norm_num [B32])
          have hwf2 : ∀ q ∈ mulDigitLoop x.data yb 0, q < B32 :=
            (mulDigitLoop_spec x.data yb 0 hx.1 hybB (by norm_num [B32])).2.1
          have hnz : natValL (mulDigitLoop x.data yb 0) ≠ 0 := by
            rw [hdv]
            have : 0 < natValL x.data * yb :=
              Nat.mul_pos hxpos (by omega)
            omega
          obtain ⟨hval, hcanon⟩ :=
            canon_reduce_relabel (decide (x.neg ≠ y.neg)) _ hwf2 hnz
          refine ⟨?_, hcanon⟩
          rw [hval, hdv]
          have hvy : natValL y.data = yb := by rw [hyb, natValL_single]
          rw [hvy]
          ring
        · rw [if_neg hyl1]
          have hxlB : x.data.length < B32 := by
            simp only [hB]
            omega
          obtain ⟨hwfd, hld, s2, c2, hvd⟩ :=
            mulOuter_spec x.data y.data hx.1 hy.1 hxlB
              (x.data.length + y.data.length) 0 0 0 (by norm_num [B32])
              (by norm_num [B32])
          rw [colsSum_mul y.data x.data (x.data.length + y.data.length)
            (le_refl _)] at hvd
          have hprodlt : natValL x.data * natValL y.data <
              B32 ^ (x.data.length + y.data.length) := by
            rw [pow_add]
            exact Nat.mul_lt_mul'' (natValL_lt _ hx.1) (natValL_lt _ hy.1)
          have hs2c2 : s2 + B32 * c2 = 0 := by
            obtain ⟨P, gP⟩ : ∃ v, B32 ^ (x.data.length + y.data.length) = v :=
              ⟨_, rfl⟩
            obtain ⟨W, gW⟩ : ∃ v, s2 + B32 * c2 = v := ⟨_, rfl⟩
            rw [gP, gW] at hvd
            rw [gP] at hprodlt
            rw [gW]
            have hPpos : 0 < P := by
              rw [← gP]
              exact Nat.pos_pow_of_pos _ (by norm_num [B32])
            have h4 : P * W < P * 1 := by
              calc P * W ≤ natValL (mulOuter x.data y.data
                    (x.data.length + y.data.length) 0 0 0) + P * W := by omega
                _ = 0 + B32 * 0 + natValL x.data * natValL y.data := hvd
                _ < P := by omega
                _ = P * 1 := by ring
            have := Nat.lt_of_mul_lt_mul_left h4
            omega
          rw [hs2c2] at hvd
          simp only [Nat.mul_zero, Nat.add_zero, Nat.zero_add] at hvd
          have hnz : natValL (mulOuter x.data y.data
              (x.data.length + y.data.length) 0 0 0) ≠ 0 := by
            rw [hvd]
            have : 0 < natValL x.data * natValL y.data :=
              Nat.mul_pos hxpos hypos
            omega
          obtain ⟨hval, hcanon⟩ :=
            canon_reduce_relabel (decide (x.neg ≠ y.neg)) _ hwfd hnz
          refine ⟨?_, hcanon⟩
          rw [hval, hvd]

/-! ### power(): binary exponentiation -/

theorem mulB_zero_left (x y : Bignum) (h : x.data = []) : mulB x y = zeroB := by
  have hstep : mulB x y = if x.data.length = 0 ∨ y.data.length = 0 then zeroB else (if x.data.length + y.data.length = 2 then (if (x.data.headD 0 * y.data.headD 0) % B32 / x.data.headD 0 ≠ y.data.headD 0 then { neg := x.neg ≠ y.neg, data := [(DDproduct (x.data.headD 0) (y.data.headD 0)).2, (DDproduct (x.data.headD 0) (y.data.headD 0)).1] } else { neg := x.neg ≠ y.neg, data := [(x.data.headD 0 * y.data.headD 0) % B32] }) else { neg := x.neg ≠ y.neg, data := (reduce { neg := false, data := if x.data.length = 1 then mulDigitLoop y.data (x.data.headD 0) 0 else if y.data.length = 1 then mulDigitLoop x.data (y.data.headD 0) 0 else mulOuter x.data y.data (x.data.length + y.data.length) 0 0 0 }).data }) := rfl
  rw [hstep, if_pos (Or.inl (by rw [h]; rfl))]

theorem mulB_zero_right (x y : Bignum) (h : y.data = []) : mulB x y = zeroB := by
  have hstep : mulB x y = if x.data.length = 0 ∨ y.data.length = 0 then zeroB else (if x.data.length + y.data.length = 2 then (if (x.data.headD 0 * y.data.headD 0) % B32 / x.data.headD 0 ≠ y.data.headD 0 then { neg := x.neg ≠ y.neg, data := [(DDproduct (x.data.headD 0) (y.data.headD 0)).2, (DDproduct (x.data.headD 0) (y.data.headD 0)).1] } else { neg := x.neg ≠ y.neg, data := [(x.data.headD 0 * y.data.headD 0) % B32] }) else { neg := x.neg ≠ y.neg, data := (reduce { neg := false, data := if x.data.length = 1 then mulDigitLoop y.data (x.data.headD 0) 0 else if y.data.length = 1 then mulDigitLoop x.data (y.data.headD 0) 0 else mulOuter x.data y.data (x.data.length + y.data.length) 0 0 0 }).data }) := rfl
  rw [hstep, if_pos (Or.inr (by rw [h]; rfl))]

theorem powerLoop_zeroY (n : Nat) : ∀ x : Bignum, powerLoop x zeroB n = zeroB := by
  induction n using Nat.strong_induction_on with
  | _ n ih =>
    intro x
    rw [powerLoop]
    by_cases hn0 : n = 0
    · rw [if_pos hn0]
    · rw [if_neg hn0]
      have hy : (if n % 2 = 1 then mulB zeroB x else zeroB) = zeroB := by
        by_cases hodd : n % 2 = 1
        · rw [if_pos hodd]
          exact mulB_zero_left zeroB x rfl
        · rw [if_neg hodd]
      rw [hy]
      exact ih (n / 2) (Nat.div_lt_self (by omega) (by omega)) (mulB x x)

theorem powerLoop_zeroX (n : Nat) : ∀ x y : Bignum, x.data = [] → 1 ≤ n →
    powerLoop x y n = zeroB := by
  induction n using Nat.strong_induction_on with
  | _ n ih =>
    intro x y hx hn
    rw [powerLoop, if_neg (by omega : ¬ n = 0), mulB_zero_left x x hx]
    by_cases hodd : n % 2 = 1
    · rw [if_pos hodd, mulB_zero_right y x hx]
      exact powerLoop_zeroY (n / 2) zeroB
    · rw [if_neg hodd]
      exact ih (n / 2) (Nat.div_lt_self (by omega) (by omega)) zeroB y rfl
        (by omega)

theorem canon_len_le (x : Bignum) (hx : Canon x) (m : Nat)
    (hv : natValL x.data < B32 ^ m) : x.data.length ≤ m := by
  by_cases hne : x.data = []
  · rw [hne]
    exact Nat.zero_le m
  · have h1 := natValL_ge_top x.data hne (hx.2.2 hne)
    have h2 : B32 ^ (x.data.length - 1) < B32 ^ m := lt_of_le_of_lt h1 hv
    have h3 : x.data.length - 1 < m :=
      (Nat.pow_lt_pow_iff_right (by norm_num [B32])).mp h2
    omega

theorem powerLoop_main (n : Nat) : ∀ x y : Bignum, Canon x → Canon y →
    1 ≤ natValL x.data → 1 ≤ natValL y.data →
    natValL x.data ^ n * natValL y.data < 2 ^ 2 ^ 30 →
    natValL (powerLoop x y n).data = natValL x.data ^ n * natValL y.data ∧
    Canon (powerLoop x y n) := by
  induction n using Nat.strong_induction_on with
  | _ n ih =>
    intro x y hx hy hpx hpy hcap
    by_cases hn0 : n = 0
    · subst hn0
      rw [powerLoop, if_pos rfl, pow_zero, one_mul]
      exact ⟨rfl, hy⟩
    · have he : (2 : Nat) ^ 30 = 32 * 2 ^ 25 := by norm_num
      have hc230 : (2 : Nat) ^ 2 ^ 30 = B32 ^ 2 ^ 25 := by
        rw [show B32 = 2 ^ 32 from rfl, ← pow_mul, he]
      have h1 : natValL x.data ≤ natValL x.data ^ n := Nat.le_self_pow hn0 _
      have h2 : natValL x.data ^ n ≤ natValL x.data ^ n * natValL y.data :=
        le_mul_of_one_le_right (Nat.zero_le _) hpy
      have hxv : natValL x.data < 2 ^ 2 ^ 30 := lt_of_le_of_lt (h1.trans h2) hcap
      have hyv : natValL y.data < 2 ^ 2 ^ 30 :=
        lt_of_le_of_lt (le_mul_of_one_le_left (Nat.zero_le _)
          (Nat.one_le_pow _ _ (Nat.lt_of_lt_of_le Nat.zero_lt_one hpx))) hcap
      have hxl : x.data.length ≤ 2 ^ 25 :=
        canon_len_le x hx _ (by rw [← hc230]; exact hxv)
      have hyl : y.data.length ≤ 2 ^ 25 :=
        canon_len_le y hy _ (by rw [← hc230]; exact hyv)
      have hb25 : (2 : Nat) ^ 25 + 2 ^ 25 ≤ 2 ^ 31 := by norm_num
      have hlxx : x.data.length + x.data.length ≤ 2 ^ 31 := by
        clear hcap hxv hyv hc230
        omega
      have hlyx : y.data.length + x.data.length ≤ 2 ^ 31 := by
        clear hcap hxv hyv hc230
        omega
      have hxnz : natValL x.data ≠ 0 := Nat.one_le_iff_ne_zero.mp hpx
      have hynz : natValL y.data ≠ 0 := Nat.one_le_iff_ne_zero.mp hpy
      have hmx := mulB_spec x x hx hx hlxx
      have hpxx : 1 ≤ natValL (mulB x x).data := by
        rw [hmx.1]
        exact Nat.one_le_iff_ne_zero.mpr (Nat.mul_ne_zero hxnz hxnz)
      have hdiv2 : n / 2 < n :=
        Nat.div_lt_self (Nat.pos_of_ne_zero hn0) (by norm_num)
      rw [powerLoop, if_neg hn0]
      by_cases hodd : n % 2 = 1
      · rw [if_pos hodd]
        have hmy := mulB_spec y x hy hx hlyx
        have hsplit : n = 2 * (n / 2) + 1 := by
          clear hcap hxv hyv hc230
          omega
        have hid : natValL (mulB x x).data ^ (n / 2) * natValL (mulB y x).data
            = natValL x.data ^ n * natValL y.data := by
          rw [hmx.1, hmy.1, ← pow_two, ← pow_mul]
          conv_rhs => rw [hsplit]
          rw [pow_succ]
          ring
        have hpyx : 1 ≤ natValL (mulB y x).data := by
          rw [hmy.1]
          exact Nat.one_le_iff_ne_zero.mpr (Nat.mul_ne_zero hynz hxnz)
        have hres := ih (n / 2) hdiv2
          (mulB x x) (mulB y x) hmx.2 hmy.2 hpxx hpyx (by rw [hid]; exact hcap)
        exact ⟨by rw [hres.1, hid], hres.2⟩
      · rw [if_neg hodd]
        have hsplit : n = 2 * (n / 2) := by
          clear hcap hxv hyv hc230
          omega
        have hid : natValL (mulB x x).data ^ (n / 2) * natValL y.data
            = natValL x.data ^ n * natValL y.data := by
          rw [hmx.1, ← pow_two, ← pow_mul]
          conv_rhs => rw [hsplit]
        have hres := ih (n / 2) hdiv2
          (mulB x x) y hmx.2 hy hpxx hpy (by rw [hid]; exact hcap)
        exact ⟨by rw [hres.1, hid], hres.2⟩

theorem fromInt32_one_eq : fromInt32 1 = { neg := false, data := [1] } := by
  decide

theorem power_spec (x : Bignum) (n : Nat) (hx : Canon x)
    (hcap : natValL x.data ^ n < 2 ^ 2 ^ 30) :
    natValL (power x n).data = natValL x.data ^ n ∧ Canon (power x n) := by
  rw [power, fromInt32_one_eq]
  by_cases hn0 : n = 0
  · subst hn0
    rw [powerLoop, if_pos rfl, pow_zero]
    exact ⟨rfl, canon_single false 1 one_ne_zero (by norm_num [B32])⟩
  · by_cases hx0 : natValL x.data = 0
    · have hdnil : x.data = [] := by
        by_contra hne
        have h1 := natValL_ge_top x.data hne (hx.2.2 hne)
        have h2 : 1 ≤ B32 ^ (x.data.length - 1) :=
          Nat.one_le_pow _ _ (by norm_num [B32])
        clear hcap
        omega
      rw [powerLoop_zeroX n x _ hdnil (Nat.one_le_iff_ne_zero.mpr hn0), hx0,
        zero_pow hn0]
      exact ⟨rfl, canon_zeroB⟩
    · have h1v : natValL ({ neg := false, data := [1] } : Bignum).data = 1 := by
        decide
      have hres := powerLoop_main n x { neg := false, data := [1] } hx
        (canon_single false 1 one_ne_zero (by norm_num [B32]))
        (Nat.one_le_iff_ne_zero.mpr hx0) (le_of_eq h1v.symm)
        (by rw [h1v, mul_one]; exact hcap)
      rw [hres.1, h1v, mul_one]
      exact ⟨rfl, hres.2⟩

/-! ### to_string totality -/

theorem natValL_fromUInt32 (u : Nat) : natValL (fromUInt32 u).data = u % B32 := by
  by_cases h : u % B32 = 0
  · show natValL (if u % B32 ≠ 0 then [u % B32] else []) = u % B32
    rw [if_neg (by simpa using h), natValL_nil, h]
  · show natValL (if u % B32 ≠ 0 then [u % B32] else []) = u % B32
    rw [if_pos h, natValL_single]

theorem toStringStep (fuel : Nat) (v : Bignum)
    (hwf : ∀ d ∈ v.data, d < B32)
    (htop : ∀ h : v.data ≠ [], v.data.getLast h ≠ 0)
    (hne : v.data ≠ []) :
    ∃ v' R, divideF (fuel + 1) v LP10 true = Except.ok (v', R) ∧
      (∀ d ∈ v'.data, d < B32) ∧
      (∀ h : v'.data ≠ [], v'.data.getLast h ≠ 0) ∧
      p10 * natValL v'.data ≤ natValL v.data := by
  have hvpos : 1 ≤ natValL v.data := by
    have h1 := natValL_ge_top v.data hne (htop hne)
    have h2 : 1 ≤ B32 ^ (v.data.length - 1) :=
      Nat.one_le_pow _ _ (by norm_num [B32])
    omega
  have hLP : LP10 = { neg := false, data := [1000000000] } := by decide
  have hns : normShift 1000000000 = some 2 := by decide
  have hd2 : shlB { neg := false, data := [1000000000] } 2
      = { neg := false, data := [4000000000] } := by decide
  have hnorm : normalize { neg := false, data := [1000000000] }
      { neg := false, data := v.data } =
      some ({ neg := false, data := [4000000000] },
        shlB { neg := false, data := v.data } 2, 2, false) := by
    simp only [normalize]
    rw [show ({ neg := false, data := [1000000000] } : Bignum).data.getD
      (({ neg := false, data := [1000000000] } : Bignum).data.length - 1) 0
      = 1000000000 from rfl]
    rw [hns]
    simp only [Option.map_some']
    rw [hd2]
    rw [if_neg (by decide)]
  rw [hLP]
  simp only [divideF]
  rw [if_neg (show ¬ ({ neg := false, data := [1000000000] } :
    Bignum).data.length = 0 by decide)]
  by_cases hcmp : compare { neg := false, data := v.data }
      { neg := false, data := [1000000000] } < 0
  · rw [if_pos hcmp]
    refine ⟨_, _, rfl, ?_, ?_, ?_⟩
    · intro d hd
      simp [zeroB] at hd
    · intro h
      exact absurd rfl h
    · show p10 * natValL ([] : List Nat) ≤ natValL v.data
      rw [natValL_nil, Nat.mul_zero]
      exact Nat.zero_le _
  · rw [if_neg hcmp]
    by_cases hlen1 : v.data.length = 1
    · have hc2 : ({ neg := false, data := [1000000000] } : Bignum).data.length = 1
          ∧ ({ neg := false, data := v.data } : Bignum).data.length = 1 :=
        ⟨rfl, hlen1⟩
      rw [if_pos hc2]
      obtain ⟨a, ha⟩ := List.length_eq_one.mp hlen1
      have haB : a < B32 := hwf a (by rw [ha]; exact List.mem_singleton_self a)
      refine ⟨_, _, rfl, ?_, ?_, ?_⟩
      · exact fun d hd => (fromUInt32_canon _).1 d hd
      · exact fun h => (fromUInt32_canon _).2.2 h
      · show p10 * natValL (fromUInt32
          (({ neg := false, data := v.data } : Bignum).data.headD 0 /
            ({ neg := false, data := [1000000000] } : Bignum).data.headD 0)).data
            ≤ natValL v.data
        rw [natValL_fromUInt32]
        show p10 * (v.data.headD 0 / 1000000000 % B32) ≤ natValL v.data
        rw [ha]
        simp only [List.headD_cons]
        rw [natValL_single]
        have hdiv_lt : a / 1000000000 < B32 :=
          lt_of_le_of_lt (Nat.div_le_self _ _) haB
        rw [Nat.mod_eq_of_lt hdiv_lt]
        show (1000000000 : Nat) * (a / 1000000000) ≤ a
        rw [mul_comm]
        exact Nat.div_mul_le_self a 1000000000
    · have hc2 : ¬ (({ neg := false, data := [1000000000] } : Bignum).data.length = 1
          ∧ ({ neg := false, data := v.data } : Bignum).data.length = 1) :=
        fun hc => hlen1 hc.2
      rw [if_neg hc2]
      rw [if_neg (show ¬ (({ neg := false, data := [1000000000] } :
        Bignum).data.length = 1 ∧
        ({ neg := false, data := [1000000000] } : Bignum).data.headD 0 < H16)
        by decide)]
      split
      next heq =>
        rw [hnorm] at heq
        exact absurd heq (by simp)
      next denomN numN xsh secondDone heq =>
        rw [hnorm] at heq
        simp only [Option.some.injEq, Prod.mk.injEq] at heq
        obtain ⟨h1, h2, h3, h4⟩ := heq
        subst h1
        subst h2
        subst h3
        subst h4
        have hnumS := shlB_small_spec { neg := false, data := v.data } 2
          (by norm_num) (fun d hd => hwf d hd)
        have hv4 : natValL (shlB { neg := false, data := v.data } 2).data
            = 4 * natValL v.data := by
          rw [hnumS.1]
          show 2 ^ 2 * natValL v.data = 4 * natValL v.data
          norm_num
        have hNwf : ∀ d ∈ (shlB { neg := false, data := v.data } 2).data, d < B32 :=
          fun d hd => hnumS.2.1 d hd
        have hNne : (shlB { neg := false, data := v.data } 2).data ≠ [] := by
          intro hnil
          rw [hnil, natValL_nil] at hv4
          omega
        rw [show ({ neg := false, data := [4000000000] } : Bignum).data
          = [4000000000] from rfl]
        rw [show ([4000000000] : List Nat).length = 1 from rfl]
        rw [show (1 : Nat) - 1 = 0 from rfl]
        rw [show ([4000000000] : List Nat).getD 0 0 = 4000000000 from rfl]
        rw [Nat.sub_zero]
        obtain ⟨Nd, hNd⟩ : ∃ l, (shlB { neg := false, data := v.data } 2).data = l :=
          ⟨_, rfl⟩
        rw [hNd] at hv4 hNwf hNne ⊢
        have hNlen : 1 ≤ Nd.length := List.length_pos.mpr hNne
        have hspec := divLoop_spec [4000000000] 4000000000 0 0 rfl
          (by intro q hq
              have hq2 : q = 4000000000 := by simpa using hq
              rw [hq2]
              norm_num [B32])
          rfl (by rw [natValL_single]; norm_num [B32]) (by norm_num [B32])
          (by norm_num)
        by_cases hext : Nd.getD (Nd.length - 1) 0 ≥ 4000000000
        · simp only [if_pos hext]
          rw [(by omega : Nd.length - 1 + 1 = Nd.length)]
          have hres := hspec Nd.length Nd.length (Nd ++ [0]) (Nat.zero_add _).symm
            (by simp [List.length_append])
            (by intro q hq
                rcases List.mem_append.mp hq with h | h
                · exact hNwf q h
                · have hq2 : q = 0 := by simpa using h
                  rw [hq2]
                  norm_num [B32])
          have hzwf : Wf { neg := false, data :=
              (divLoop [4000000000] 4000000000 0 Nd.length Nd.length
                (Nd ++ [0])).1 } :=
            fun q hq => hres.2.2.2.1 q hq
          have hred := reduce_spec _ hzwf
          refine ⟨_, _, rfl, ?_, ?_, ?_⟩
          · exact fun d hd => hred.2.2.1 d hd
          · exact fun h => hred.2.2.2.2 h
          · show p10 * natValL (reduce { neg := false, data :=
              (divLoop [4000000000] 4000000000 0 Nd.length Nd.length
                (Nd ++ [0])).1 }).data ≤ natValL v.data
            rw [hred.1]
            have hval := hres.2.2.2.2
            rw [natValL_single, natValL_append] at hval
            rw [show natValL [0] = 0 from natValL_single 0] at hval
            rw [Nat.mul_zero, Nat.add_zero, hv4] at hval
            show (1000000000 : Nat) * natValL (divLoop [4000000000] 4000000000 0
              Nd.length Nd.length (Nd ++ [0])).1 ≤ natValL v.data
            omega
        · simp only [if_neg hext]
          have hres := hspec (Nd.length - 1) (Nd.length - 1) Nd
            (Nat.zero_add _).symm (by omega) (fun q hq => hNwf q hq)
          have hzwf : Wf { neg := false, data :=
              (divLoop [4000000000] 4000000000 0 (Nd.length - 1) (Nd.length - 1)
                Nd).1 } :=
            fun q hq => hres.2.2.2.1 q hq
          have hred := reduce_spec _ hzwf
          refine ⟨_, _, rfl, ?_, ?_, ?_⟩
          · exact fun d hd => hred.2.2.1 d hd
          · exact fun h => hred.2.2.2.2 h
          · show p10 * natValL (reduce { neg := false, data :=
              (divLoop [4000000000] 4000000000 0 (Nd.length - 1) (Nd.length - 1)
                Nd).1 }).data ≤ natValL v.data
            rw [hred.1]
            have hval := hres.2.2.2.2
            rw [natValL_single, hv4] at hval
            show (1000000000 : Nat) * natValL (divLoop [4000000000] 4000000000 0
              (Nd.length - 1) (Nd.length - 1) Nd).1 ≤ natValL v.data
            omega

theorem toStringLoop_some (fuel : Nat) : ∀ (v : Bignum) (acc : List Char),
    (∀ d ∈ v.data, d < B32) → (∀ h : v.data ≠ [], v.data.getLast h ≠ 0) →
    v.data ≠ [] → natValL v.data < (2 ^ 29) ^ fuel →
    ∃ s, toStringLoop fuel v acc = some s := by
  induction fuel with
  | zero =>
    intro v acc hwf htop hne hv
    have h1 := natValL_ge_top v.data hne (htop hne)
    have h2 : 1 ≤ B32 ^ (v.data.length - 1) :=
      Nat.one_le_pow _ _ (by norm_num [B32])
    rw [pow_zero] at hv
    exact absurd hv (by omega)
  | succ fuel ih =>
    intro v acc hwf htop hne hv
    obtain ⟨v', R, hdiv, hwf', htop', hshrink⟩ := toStringStep 1 v hwf htop hne
    have hdiv2 : divideF 2 v LP10 true = Except.ok (v', R) := hdiv
    simp only [toStringLoop, hdiv2]
    by_cases hz : v'.data.length = 0
    · rw [if_pos hz]
      exact ⟨_, rfl⟩
    · rw [if_neg hz]
      have hne' : v'.data ≠ [] := fun hnil => hz (by rw [hnil]; rfl)
      refine ih v' _ hwf' htop' hne' ?_
      have h29 : (2 : Nat) ^ 29 * natValL v'.data ≤ p10 * natValL v'.data :=
        Nat.mul_le_mul_right _ (by norm_num [p10])
      have hlt : (2 : Nat) ^ 29 * natValL v'.data < (2 ^ 29) ^ (fuel + 1) :=
        lt_of_le_of_lt (le_trans h29 hshrink) hv
      rw [pow_succ' ((2 : Nat) ^ 29) fuel] at hlt
      exact Nat.lt_of_mul_lt_mul_left hlt

theorem to_string_total (x : Bignum) (hx : Canon x) :
    ∃ s, to_string x = some s := by
  by_cases h0 : x.data.length = 0
  · exact ⟨_, by rw [to_string, if_pos h0]⟩
  · have hne : x.data ≠ [] := fun hnil => h0 (by rw [hnil]; rfl)
    have hfuel : natValL x.data < (2 ^ 29) ^ (4 * x.data.length + 4) := by
      have h1 : natValL x.data < B32 ^ x.data.length := natValL_lt _ hx.1
      have h2 : B32 ^ x.data.length ≤ (2 ^ 29) ^ (4 * x.data.length + 4) := by
        rw [show B32 = 2 ^ 32 from rfl, ← pow_mul, ← pow_mul]
        exact Nat.pow_le_pow_right (by norm_num) (by omega)
      omega
    obtain ⟨s, hs⟩ := toStringLoop_some (4 * x.data.length + 4) x [] hx.1
      hx.2.2 hne hfuel
    rw [to_string, if_neg h0, hs]
    exact ⟨_, rfl⟩

/-- C7 (amended): bignum division and modulo signal the fatal
`divide_by_zero` exactly on a zero-length divisor — a zero divisor always
errors, while for any canonical nonzero divisor they complete without
signalling.  Construction, addition, subtraction, multiplication, shifts,
bitwise operations, comparison and `power` are total by construction in
the embedding (they return plain values, never an error), and `to_string`
is total as well: for every canonical value the repeated division by
`10^9` terminates with a string.  But `sqrt` is not total: `sqrt(0)`
evaluates `a/x` with `x = 0` and signals `divide_by_zero`. -/
theorem c7_errors_amended :
    (∀ (x y : Bignum) (rd : Bool), y.data = [] →
      divide x y rd = Except.error DivErr.zeroDivide) ∧
    (∀ (x y : Bignum) (rd : Bool), Canon y → y.data ≠ [] →
      ∃ p, divide x y rd = Except.ok p) ∧
    (∀ x : Bignum, Canon x → ∃ s, to_string x = some s) ∧
    sqrtB zeroB = Except.error DivErr.zeroDivide := by
  refine ⟨?_, fun x y rd hy hne => divide_ok x y rd hy hne,
    fun x hx => to_string_total x hx, by decide⟩
  intro x y rd h
  show divideF 2 x y rd = _
  simp only [divideF]
  rw [if_pos (by rw [h]; rfl)]

theorem c7_errors_amended_witness :
    Canon { neg := false, data := [3] } ∧
    ({ neg := false, data := [3] } : Bignum).data ≠ [] ∧
    (∃ p, divide { neg := false, data := [7] } { neg := false, data := [3] }
      true = Except.ok p) ∧
    (∃ s, to_string { neg := false, data := [3] } = some s) := by
  have hc : Canon { neg := false, data := [3] } :=
    canon_single false 3 (by norm_num) (by norm_num [B32])
  exact ⟨hc, by decide, c7_errors_amended.2.1 _ _ true hc (by decide),
    c7_errors_amended.2.2.1 _ hc⟩

/-- C2 (amended): the representation invariants hold for the default
constructor, `initialize(uint32_t)` and the `int32_t` constructor, and are
preserved by signed addition and subtraction on canonical operands, by
general multiplication (`operator*=`, both the single-digit and the long
path, for operand sizes within the code's `int` length arithmetic), by
`power` for results within the representable range, by the bitwise
or/xor/and operations, by `operator<<=` for every shift amount, by
`operator>>=` except when a negative value has all of its digits shifted
away, and by `reduce` itself on well-formed input — but not by every
constructor or operation: `initialize(uint64_t)` stores a zero top digit,
and unary minus of zero sets the flag on a zero-length value. -/
theorem c2_canon_amended :
    Canon zeroB ∧
    (∀ u : Nat, Canon (fromUInt32 u)) ∧
    (∀ x y : Bignum, Canon x → Canon y → Canon (addB x y)) ∧
    (∀ x y : Bignum, Canon x → Canon y → Canon (subB x y)) ∧
    (∀ (x : Bignum) (y : Nat), Wf x → Canon (mulUnsigned x y)) ∧
    (∀ (x : Bignum) (k : Nat), k < 32 → Wf x → Canon (shlB x k)) ∧
    (∀ (x : Bignum) (k : Nat), k < 32 → Wf x → x.neg = false →
      Canon (shrB x k)) ∧
    (∀ x : Bignum, Wf x → Canon (reduce x)) ∧
    (∀ i : Int, i.natAbs < B32 → Canon (fromInt32 i)) ∧
    (∀ x y : Bignum, Canon x → Canon y →
      x.data.length + y.data.length ≤ 2 ^ 31 → Canon (mulB x y)) ∧
    (∀ x y : Bignum, Wf x → Wf y → Canon (orB x y)) ∧
    (∀ x y : Bignum, Wf x → Wf y → Canon (xorB x y)) ∧
    (∀ x y : Bignum, Wf x → Canon (andB x y)) ∧
    (∀ (x : Bignum) (k : Nat), Wf x → Canon (shlB x k)) ∧
    (∀ (x : Bignum) (k : Nat), Canon x →
      (x.neg = true → k / 32 < x.data.length) → Canon (shrB x k)) ∧
    (∀ (x : Bignum) (n : Nat), Canon x →
      natValL x.data ^ n < 2 ^ 2 ^ 30 → Canon (power x n)) := by
  refine ⟨?_, fromUInt32_canon, fun x y hx hy => (addB_spec x y hx hy).2,
    fun x y hx hy => (subB_spec x y hx hy).2,
    fun x y hx => (mulUnsigned_spec x y hx).2.2,
    fun x k hk hx => (shlB_small_spec x k hk hx).2,
    fun x k hk hx hn => (shrB_small_spec x k hk hx hn).2,
    fun x hx => (reduce_spec x hx).2.2,
    fun i hi => fromInt32_canon i hi,
    fun x y hx hy hlen => (mulB_spec x y hx hy hlen).2,
    fun x y hx hy => orB_canon x y hx hy,
    fun x y hx hy => xorB_canon x y hx hy,
    fun x y hx => andB_canon x y hx,
    fun x k hx => shlB_canon x k hx,
    fun x k hx hn => shrB_canon x k hx hn,
    fun x n hx hcap => (power_spec x n hx hcap).2⟩
  exact ⟨by intro d hd; simp [zeroB] at hd, fun _ => rfl,
    fun h => absurd rfl h⟩

theorem c2_canon_amended_witness :
    Canon { neg := false, data := [6] } ∧
    Canon { neg := false, data := [7] } ∧
    ({ neg := false, data := [6] } : Bignum).data.length +
      ({ neg := false, data := [7] } : Bignum).data.length ≤ 2 ^ 31 ∧
    Canon (mulB { neg := false, data := [6] } { neg := false, data := [7] }) ∧
    natValL ({ neg := false, data := [2] } : Bignum).data ^ 3 < 2 ^ 2 ^ 30 ∧
    Canon (power { neg := false, data := [2] } 3) := by
  have h6 : Canon { neg := false, data := [6] } :=
    canon_single false 6 (by norm_num) (by norm_num [B32])
  have h7 : Canon { neg := false, data := [7] } :=
    canon_single false 7 (by norm_num) (by norm_num [B32])
  have h2c : Canon { neg := false, data := [2] } :=
    canon_single false 2 (by norm_num) (by norm_num [B32])
  have hlen : ({ neg := false, data := [6] } : Bignum).data.length +
      ({ neg := false, data := [7] } : Bignum).data.length ≤ 2 ^ 31 := by
    norm_num
  have hcap : natValL ({ neg := false, data := [2] } : Bignum).data ^ 3
      < 2 ^ 2 ^ 30 := by
    show natValL [2] ^ 3 < 2 ^ 2 ^ 30
    rw [natValL_single]
    exact Nat.pow_lt_pow_right (by norm_num) (by norm_num)
  obtain ⟨-, -, -, -, -, -, -, -, -, hmul, -, -, -, -, -, hpow⟩ :=
    c2_canon_amended
  exact ⟨h6, h7, hlen, hmul _ _ h6 h7 hlen, hcap, hpow _ _ h2c hcap⟩

/-- C10 amended: `is_valid()` is true exactly when a `do_end_document`
with a single completed root value on the stack has occurred since the
last retrieval and since the last `do_begin_document`; the stored result
is exactly the root captured by the most recent such `do_end_document`
(null once retrieved), and `get_result()` returns it while resetting
`is_valid()` to false, so the document is retrievable at most once. -/
theorem c10_is_valid_amended (t : List DecEvent) :
    (runDec t).is_valid = (amendedValidSpec t).1.2 ∧
    (runDec t).result = (amendedValidSpec t).2 ∧
    (get_result (runDec t)).1 = (amendedValidSpec t).2 ∧
    (get_result (runDec t)).2.is_valid = false := by
  have h := amended_sync t initDecoder false .null rfl rfl
  obtain ⟨h1, h2, h3⟩ := h
  refine ⟨h2.symm, h3.symm, h3.symm, rfl⟩

end Jsoncons
